import Mathlib

/-!
# A verification development for the simplified xv6 shell `sh.c`

The file embeds the command-line parser (`gettoken`, `peek`, `parseredirs`,
`parseexec`, `parsepipe`, `parsecmd`) and the executor (`runcmd`,
`handle_simple_cmd`, `handle_redirection`, `handle_pipe`, `fork1`) of
`src/sh.c` as Lean functions and proves properties of them.

Conventions of the embedding:

* a `char *` into the line buffer is a natural-number index into `mem`, the
  list of characters stored in the buffer; reading a position that is not
  stored in the list yields the NUL character (the buffer of `main` is
  zero-filled before every line);
* `int` tokens returned by `gettoken` are characters (`'\x00'` for `0`);
* `while` loops are functions by recursion on a fuel argument; the fuel
  handed to each loop is the distance to the end boundary plus one, which the
  theorems show to be enough;
* `exit(-1)` inside the parser is the result `PResult.fail`.
-/

namespace Sh

/-! ## Characters and the tokenizer -/

/-- The NUL character that terminates a C string. -/
def NUL : Char := '\x00'

/-- The global `char whitespace[] = " \t\r\n\v"`. -/
def whitespace : List Char := [' ', '\t', '\r', '\n', '\x0b']

/-- The global `char symbols[] = "<|>"`. -/
def symbols : List Char := ['<', '|', '>']

/-- The libc function `strchr(str, c) != NULL`: the terminating NUL of `str`
counts as part of the string, so looking for NUL always succeeds. -/
def strchr (str : List Char) (c : Char) : Bool :=
  c == NUL || str.contains c

/-- The read `*s` of the character at index `s` of the buffer. -/
def deref (mem : List Char) (s : Nat) : Char :=
  mem.getD s NUL

/-- The libc function `strlen`: the index of the first NUL. -/
def strlen (mem : List Char) : Nat :=
  (mem.takeWhile (fun c => c != NUL)).length

/-- The loop `while (s < es && strchr(whitespace, *s)) s++;` with fuel. -/
def skipwsLoop (mem : List Char) (es : Nat) : Nat → Nat → Nat
  | 0, s => s
  | fuel + 1, s =>
    if s < es && strchr whitespace (deref mem s) then skipwsLoop mem es fuel (s + 1) else s

/-- The whitespace-skipping loop of `gettoken` and `peek`. -/
def skipws (mem : List Char) (es : Nat) (s : Nat) : Nat :=
  skipwsLoop mem es (es - s) s

/-- The loop
`while (s < es && !strchr(whitespace, *s) && !strchr(symbols, *s)) s++;`
with fuel. -/
def skipwordLoop (mem : List Char) (es : Nat) : Nat → Nat → Nat
  | 0, s => s
  | fuel + 1, s =>
    if s < es && !strchr whitespace (deref mem s) && !strchr symbols (deref mem s)
    then skipwordLoop mem es fuel (s + 1) else s

/-- The word-scanning loop of `gettoken`. -/
def skipword (mem : List Char) (es : Nat) (s : Nat) : Nat :=
  skipwordLoop mem es (es - s) s

/-- What a call of `gettoken` yields: the returned token, the two output
pointers `*q` and `*eq`, and the new value of the cursor `*ps`. -/
structure TokenOut where
  ret : Char
  q : Nat
  eq : Nat
  ps : Nat
  deriving DecidableEq, Repr

/-- The function `gettoken(ps, es, q, eq)`.  The output pointers are always
computed; a caller that passes null pointers ignores them. -/
def gettoken (mem : List Char) (ps es : Nat) : TokenOut :=
  let s := skipws mem es ps
  let q := s
  let c := deref mem s
  let rs : Char × Nat :=
    if c = NUL then (c, s)
    else if c = '|' ∨ c = '<' then (c, s + 1)
    else if c = '>' then (c, s + 1)
    else ('a', skipword mem es s)
  let eq := rs.2
  ⟨rs.1, q, eq, skipws mem es rs.2⟩

/-- The function `peek(ps, es, toks)`: the result and the new cursor. -/
def peek (mem : List Char) (ps es : Nat) (toks : List Char) : Bool × Nat :=
  let s := skipws mem es ps
  (deref mem s != NUL && strchr toks (deref mem s), s)

/-- The function `mkcopy(s, es)`: the C string made by `strncpy` of the
`n = es - s` characters from index `s` into a fresh buffer whose byte `n` is
set to NUL, that is, these characters up to the first NUL among them. -/
def mkcopy (mem : List Char) (s es : Nat) : List Char :=
  ((mem.drop s).take (es - s)).takeWhile (fun c => c != NUL)

/-! ## Command trees -/

/-- The constant `MAXARGS`. -/
def MAXARGS : Nat := 10

/-- The open flag `O_RDONLY` of `fcntl.h` (Linux value). -/
def O_RDONLY : Nat := 0
/-- The open flag `O_WRONLY` of `fcntl.h` (Linux value). -/
def O_WRONLY : Nat := 1
/-- The open flag `O_CREAT` of `fcntl.h` (Linux value, octal 100). -/
def O_CREAT : Nat := 64
/-- The open flag `O_TRUNC` of `fcntl.h` (Linux value, octal 1000). -/
def O_TRUNC : Nat := 512
/-- The descriptor number `STDIN_FILENO`. -/
def STDIN_FILENO : Nat := 0
/-- The descriptor number `STDOUT_FILENO`. -/
def STDOUT_FILENO : Nat := 1

/-- A `struct cmd *`: the null pointer, or a pointer to one of the three
structures `execcmd` (type `' '`), `redircmd` (type `'<'` or `'>'`, kept in
the field `type`) and `pipecmd` (type `'|'`).  The array `argv` of an
`execcmd` is a list of `MAXARGS` slots, a null slot being `none`. -/
inductive Cmd where
  | null : Cmd
  | exec (argv : List (Option (List Char))) : Cmd
  | redir (type : Char) (cmd : Cmd) (file : List Char) (mode : Nat) (fd : Nat) : Cmd
  | pipe (left right : Cmd) : Cmd
  deriving DecidableEq, Repr

/-- The constructor `execcmd()`: every slot of `argv` is zeroed by `memset`. -/
def execcmd : Cmd := Cmd.exec (List.replicate MAXARGS none)

/-- The constructor `redircmd(subcmd, file, type)`. -/
def redircmd (subcmd : Cmd) (file : List Char) (type : Char) : Cmd :=
  Cmd.redir type subcmd file
    (if type = '<' then O_RDONLY else O_WRONLY ||| O_CREAT ||| O_TRUNC)
    (if type = '<' then 0 else 1)

/-- The constructor `pipecmd(left, right)`. -/
def pipecmd (left right : Cmd) : Cmd := Cmd.pipe left right

/-- The store `cmd->argv[i] = v` of `parseexec`.  There `cmd` points to the
`execcmd` made at the start of the call while `ret` is that node wrapped in
the `redircmd` nodes made so far, so the store is seen at the innermost node
of `ret`. -/
def Cmd.storeArg : Cmd → Nat → Option (List Char) → Cmd
  | Cmd.exec argv, i, v => Cmd.exec (argv.set i v)
  | Cmd.redir t c f m fd, i, v => Cmd.redir t (c.storeArg i v) f m fd
  | c, _, _ => c

/-! ## The parser -/

/-- The messages with which the parser leaves through `exit(-1)`. -/
inductive PErr where
  | missingFile   -- "missing file for redirection"
  | syntaxError   -- "syntax error"
  | tooManyArgs   -- "too many args"
  | leftovers     -- "leftovers: ..."
  deriving DecidableEq, Repr

/-- The outcome of a parsing function: it returns a value, or it terminates
the process with a message (`fail`); `diverge` stands for a loop that has
used up its fuel. -/
inductive PResult (α : Type) where
  | ok (a : α) : PResult α
  | fail (e : PErr) : PResult α
  | diverge : PResult α
  deriving DecidableEq, Repr

/-- The loop of `parseredirs(cmd, ps, es)` with fuel: the result is the
returned node together with the new cursor. -/
def parseredirsLoop (mem : List Char) (es : Nat) : Nat → Cmd → Nat → PResult (Cmd × Nat)
  | 0, _, _ => PResult.diverge
  | fuel + 1, cmd, ps =>
    let pk := peek mem ps es ['<', '>']
    if pk.1 then
      let t1 := gettoken mem pk.2 es
      let t2 := gettoken mem t1.ps es
      if t2.ret ≠ 'a' then PResult.fail PErr.missingFile
      else
        let cmd1 :=
          if t1.ret = '<' then redircmd cmd (mkcopy mem t2.q t2.eq) '<'
          else if t1.ret = '>' then redircmd cmd (mkcopy mem t2.q t2.eq) '>'
          else cmd
        parseredirsLoop mem es fuel cmd1 t2.ps
    else PResult.ok (cmd, pk.2)

/-- The function `parseredirs(cmd, ps, es)`. -/
def parseredirs (mem : List Char) (cmd : Cmd) (ps es : Nat) : PResult (Cmd × Nat) :=
  parseredirsLoop mem es (es - ps + 1) cmd ps

/-- The loop `while (!peek(ps, es, "|")) ...` of `parseexec` with fuel, on
the variables `ret`, `argc` and `*ps`; the result is `ret` and the cursor
after the final store `cmd->argv[argc] = 0`. -/
def parseexecLoop (mem : List Char) (es : Nat) : Nat → Cmd → Nat → Nat → PResult (Cmd × Nat)
  | 0, _, _, _ => PResult.diverge
  | fuel + 1, ret, argc, ps =>
    let pk := peek mem ps es ['|']
    if !pk.1 then
      let t := gettoken mem pk.2 es
      if t.ret = NUL then PResult.ok (ret.storeArg argc none, t.ps)
      else if t.ret ≠ 'a' then PResult.fail PErr.syntaxError
      else
        let ret1 := ret.storeArg argc (some (mkcopy mem t.q t.eq))
        let argc1 := argc + 1
        if argc1 ≥ MAXARGS then PResult.fail PErr.tooManyArgs
        else
          match parseredirs mem ret1 t.ps es with
          | PResult.ok (ret2, ps2) => parseexecLoop mem es fuel ret2 argc1 ps2
          | PResult.fail e => PResult.fail e
          | PResult.diverge => PResult.diverge
    else PResult.ok (ret.storeArg argc none, pk.2)

/-- The function `parseexec(ps, es)`. -/
def parseexec (mem : List Char) (ps es : Nat) : PResult (Cmd × Nat) :=
  match parseredirs mem execcmd ps es with
  | PResult.ok (ret, ps1) => parseexecLoop mem es (es - ps1 + 1) ret 0 ps1
  | PResult.fail e => PResult.fail e
  | PResult.diverge => PResult.diverge

/-- The recursion of `parsepipe(ps, es)` with fuel. -/
def parsepipeFuel (mem : List Char) (es : Nat) : Nat → Nat → PResult (Cmd × Nat)
  | 0, _ => PResult.diverge
  | fuel + 1, ps =>
    match parseexec mem ps es with
    | PResult.ok (cmd, ps1) =>
      let pk := peek mem ps1 es ['|']
      if pk.1 then
        let t := gettoken mem pk.2 es
        match parsepipeFuel mem es fuel t.ps with
        | PResult.ok (right, ps2) => PResult.ok (pipecmd cmd right, ps2)
        | PResult.fail e => PResult.fail e
        | PResult.diverge => PResult.diverge
      else PResult.ok (cmd, pk.2)
    | PResult.fail e => PResult.fail e
    | PResult.diverge => PResult.diverge

/-- The function `parsepipe(ps, es)`. -/
def parsepipe (mem : List Char) (ps es : Nat) : PResult (Cmd × Nat) :=
  parsepipeFuel mem es (es - ps + 1) ps

/-- The function `parseline(ps, es)`. -/
def parseline (mem : List Char) (ps es : Nat) : PResult (Cmd × Nat) :=
  parsepipe mem ps es

/-- The function `parsecmd(s)` on the buffer `mem`, `s` being its start. -/
def parsecmd (mem : List Char) : PResult Cmd :=
  let es := 0 + strlen mem
  match parseline mem 0 es with
  | PResult.ok (cmd, s) =>
    let pk := peek mem s es []
    if pk.2 ≠ es then PResult.fail PErr.leftovers else PResult.ok cmd
  | PResult.fail e => PResult.fail e
  | PResult.diverge => PResult.diverge

/-! ## The executor

The executor is run against a model of the operating system.  Every process
has a table of descriptors and a log of the system calls it has made, in
order.  Whether a fallible system call succeeds is decided by an oracle that
may look at the whole state of the calling process, so that every pattern of
successes and failures is covered.  `fork` yields two flows of control, the
parent and the child; a procedure therefore denotes the list of the flows
that leave it, each one either returning to its caller (`Flow.ret`) or over
(`Flow.halt`: the process has exited or its image has been replaced). -/

/-- What a descriptor refers to. -/
inductive Obj where
  | inherited (n : Nat) : Obj
  | file (name : List Char) (mode : Nat) : Obj
  | pipeRead (owner : List Nat) (serial : Nat) : Obj
  | pipeWrite (owner : List Nat) (serial : Nat) : Obj
  deriving DecidableEq, Repr

/-- A system or library call with its arguments and its result. -/
inductive Event where
  | open (file : List Char) (mode perm : Nat) (res : Int) : Event
  | dup2 (oldfd newfd res : Int) : Event
  | close (fd : Int) : Event
  | pipe (res p0 p1 : Int) : Event
  | fork (res : Int) : Event
  | execvp (file : Option (List Char)) (argv : List (List Char)) (replaced : Bool) : Event
  | wait : Event
  | fprintf (msg : String) : Event
  | exit (code : Int) : Event
  | chdir (path : List Char) (res : Int) : Event
  | prompt (msg : String) : Event
  deriving DecidableEq, Repr

/-- The state of one process: its identity (the path of fork indices from the
first process), the number of children it has forked, its descriptor table
(index = descriptor number) and the calls it has made since it was forked. -/
structure World where
  pid : List Nat
  nforks : Nat
  fds : List (Option Obj)
  log : List Event
  deriving DecidableEq, Repr

/-- The oracle: does the next fallible system call of a process in this
state succeed? -/
abbrev Oracle := World → Bool

/-- The oracle under which every system call succeeds. -/
def Oracle.always : Oracle := fun _ => true

/-- A flow of control leaving a procedure. -/
inductive Flow (α : Type) where
  | ret (a : α) (w : World) : Flow α
  | halt (w : World) : Flow α
  deriving DecidableEq, Repr

/-- The flows of control leaving a procedure. -/
abbrev Procs (α : Type) := List (Flow α)

/-- Sequencing: every flow that returned goes on with `k`. -/
def andThen {α β : Type} : Procs α → (α → World → Procs β) → Procs β
  | [], _ => []
  | Flow.ret a w :: rest, k => k a w ++ andThen rest k
  | Flow.halt w :: rest, k => Flow.halt w :: andThen rest k

/-- The state in which the process of a line starts: the three standard
descriptors are inherited. -/
def World.init : World :=
  ⟨[], 0, [some (Obj.inherited 0), some (Obj.inherited 1), some (Obj.inherited 2)], []⟩

/-- The object a descriptor is bound to, if any. -/
def World.fdGet (w : World) (fd : Int) : Option Obj :=
  if fd < 0 then none else (w.fds.getD fd.toNat none)

/-- The table with descriptor `fd` bound to `o`. -/
def fdSet (fds : List (Option Obj)) (fd : Nat) (o : Option Obj) : List (Option Obj) :=
  if fd < fds.length then fds.set fd o
  else fds ++ List.replicate (fd - fds.length) none ++ [o]

/-- The lowest descriptor number that is not in use. -/
def lowestFree (fds : List (Option Obj)) : Nat :=
  fds.findIdx (fun o => o.isNone)

/-- The call `open(file, mode, perm)`: on success the lowest free descriptor. -/
def sysOpen (o : Oracle) (file : List Char) (mode perm : Nat) (w : World) : Int × World :=
  if o w then
    let fd := lowestFree w.fds
    (fd, { w with fds := fdSet w.fds fd (some (Obj.file file mode)),
                  log := w.log ++ [Event.open file mode perm fd] })
  else
    (-1, { w with log := w.log ++ [Event.open file mode perm (-1)] })

/-- The call `dup2(oldfd, newfd)`. -/
def sysDup2 (o : Oracle) (oldfd newfd : Int) (w : World) : Int × World :=
  if (w.fdGet oldfd).isSome && decide (0 ≤ newfd) && o w then
    (newfd, { w with fds := fdSet w.fds newfd.toNat (w.fdGet oldfd),
                     log := w.log ++ [Event.dup2 oldfd newfd newfd] })
  else
    (-1, { w with log := w.log ++ [Event.dup2 oldfd newfd (-1)] })

/-- The call `close(fd)`, whose result the program never looks at. -/
def sysClose (fd : Int) (w : World) : World :=
  { w with fds := if (w.fdGet fd).isSome then fdSet w.fds fd.toNat none else w.fds,
           log := w.log ++ [Event.close fd] }

/-- The call `pipe(p)`: on success `p[0]` is the read end and `p[1]` the
write end, on the two lowest free descriptors. -/
def sysPipe (o : Oracle) (w : World) : Int × (Int × Int) × World :=
  if o w then
    let serial := w.log.length
    let p0 := lowestFree w.fds
    let fds1 := fdSet w.fds p0 (some (Obj.pipeRead w.pid serial))
    let p1 := lowestFree fds1
    let fds2 := fdSet fds1 p1 (some (Obj.pipeWrite w.pid serial))
    (0, (p0, p1), { w with fds := fds2, log := w.log ++ [Event.pipe 0 p0 p1] })
  else
    (-1, (0, 0), { w with log := w.log ++ [Event.pipe (-1) 0 0] })

/-- The call `fork()`: on success the parent goes on with a positive result
and a child, which has a copy of the descriptor table, with result 0. -/
def sysFork (o : Oracle) (w : World) : Procs Int :=
  if o w then
    [Flow.ret (w.nforks + 1)
       { w with nforks := w.nforks + 1, log := w.log ++ [Event.fork (w.nforks + 1)] },
     Flow.ret 0 ⟨w.pid ++ [w.nforks], 0, w.fds, [Event.fork 0]⟩]
  else
    [Flow.ret (-1) { w with log := w.log ++ [Event.fork (-1)] }]

/-- The arguments an `argv` array holds: the entries before the first null. -/
def argvList : List (Option (List Char)) → List (List Char)
  | some a :: rest => a :: argvList rest
  | _ => []

/-- The call `execvp(file, argv)`: it returns (with -1) only when it fails. -/
def sysExecvp (o : Oracle) (file : Option (List Char)) (argv : List (Option (List Char)))
    (w : World) : Flow Int :=
  if file.isSome && o w then
    Flow.halt { w with log := w.log ++ [Event.execvp file (argvList argv) true] }
  else
    Flow.ret (-1) { w with log := w.log ++ [Event.execvp file (argvList argv) false] }

/-- The call `exit(code)`. -/
def sysExit {α : Type} (code : Int) (w : World) : Flow α :=
  Flow.halt { w with log := w.log ++ [Event.exit code] }

/-- The call `fprintf(stderr, ...)` with the formatted message. -/
def fprintf (msg : String) (w : World) : World :=
  { w with log := w.log ++ [Event.fprintf msg] }

/-- The call `wait(&r)`. -/
def sysWait (w : World) : World :=
  { w with log := w.log ++ [Event.wait] }

/-- The function `fork1()`. -/
def fork1 (o : Oracle) (w : World) : Procs Int :=
  andThen (sysFork o w) fun p_id w =>
    if p_id ≠ 0 then
      if p_id > 0 then [Flow.ret p_id w]
      else [sysExit (-1) (fprintf "Fork function not implemented\n" w)]
    else [Flow.ret 0 w]

/-- The function `handle_simple_cmd(ecmd)`, given `ecmd->argv`. -/
def handle_simple_cmd (o : Oracle) (argv : List (Option (List Char))) (w : World) :
    Procs Unit :=
  match sysExecvp o (argv.getD 0 none) argv w with
  | Flow.halt w1 => [Flow.halt w1]
  | Flow.ret _ w1 =>
    [sysExit (-1)
      (fprintf ("Error executing " ++ String.mk ((argv.getD 0 none).getD []) ++ "\n") w1)]

/-- The function `handle_redirection(rcmd)`, given the fields `file`, `mode`
and `fd` of `rcmd`. -/
def handle_redirection (o : Oracle) (file : List Char) (mode : Nat) (fd : Nat) (w : World) :
    Procs Unit :=
  let r1 := sysOpen o file mode 777 w
  let file_id := r1.1
  if file_id < 0 then
    [sysExit (-1) (fprintf ("could not open file  " ++ String.mk file ++ "\n") r1.2)]
  else
    let r2 := sysDup2 o file_id fd r1.2
    if r2.1 < 0 then
      [sysExit (-1) (fprintf "failed to bind files\n" (sysClose file_id r2.2))]
    else [Flow.ret () r2.2]

/-- The function `handle_pipe(pcmd, p, r)`; `left` and `right` stand for the
calls `runcmd(pcmd->left)` and `runcmd(pcmd->right)`. -/
def handle_pipe (o : Oracle) (left right : World → Procs Unit) (w : World) : Procs Unit :=
  let r := sysPipe o w
  let p := r.2.1
  if r.1 < 0 then
    [sysExit (-1) (fprintf "failed to stabilish pipe comunication\n" r.2.2)]
  else
    andThen (fork1 o r.2.2) fun pid1 w1 =>
      andThen
        (if pid1 = 0 then
          left (sysDup2 o p.2 STDOUT_FILENO (sysClose p.1 w1)).2
         else [Flow.ret () w1]) fun _ w2 =>
        andThen (fork1 o w2) fun pid2 w3 =>
          andThen
            (if pid2 = 0 then
              right (sysDup2 o p.1 STDIN_FILENO (sysClose p.2 w3)).2
             else [Flow.ret () w3]) fun _ w4 =>
            [Flow.ret () (sysWait (sysWait (sysClose p.2 (sysClose p.1 w4))))]

/-- The function `runcmd(cmd)`. -/
def runcmd (o : Oracle) : Cmd → World → Procs Unit
  | Cmd.null, w => [sysExit 0 w]
  | Cmd.exec argv, w =>
    if argv.getD 0 none = none then [sysExit 0 w]
    else andThen (handle_simple_cmd o argv w) fun _ w1 => [sysExit 0 w1]
  | Cmd.redir type cmd file mode fd, w =>
    if type = '>' ∨ type = '<' then
      andThen (handle_redirection o file mode fd w) fun _ w1 =>
        andThen (runcmd o cmd w1) fun _ w2 => [sysExit 0 w2]
    else [sysExit (-1) (fprintf "Unknown command type\n" w)]
  | Cmd.pipe left right, w =>
    andThen (handle_pipe o (runcmd o left) (runcmd o right) w) fun _ w1 => [sysExit 0 w1]

/-! ## The driver -/

/-- The message that the parser writes before `exit(-1)`. -/
def PErr.msg : PErr → String
  | PErr.missingFile => "missing file for redirection\n"
  | PErr.syntaxError => "syntax error\n"
  | PErr.tooManyArgs => "too many args\n"
  | PErr.leftovers => "leftovers: ...\n"

/-- The statement `runcmd(parsecmd(buf))` of `main`, run by the child that
`main` forks for a line: a failure of the parser is a message on the standard
error stream and `exit(-1)`. -/
def runline (o : Oracle) (buf : List Char) (w : World) : Procs Unit :=
  match parsecmd buf with
  | PResult.ok cmd => runcmd o cmd w
  | PResult.fail e => [sysExit (-1) (fprintf e.msg w)]
  | PResult.diverge => []

/-- The call `chdir(path)`. -/
def sysChdir (o : Oracle) (path : List Char) (w : World) : Int × World :=
  if o w then (0, { w with log := w.log ++ [Event.chdir path 0] })
  else (-1, { w with log := w.log ++ [Event.chdir path (-1)] })

/-- The prompt of `getcmd`: `fprintf(stdout, "$ ")` when the standard input
is a terminal. -/
def getcmdPrompt (tty : Bool) (w : World) : World :=
  if tty then { w with log := w.log ++ [Event.prompt "$ "] } else w

/-- The function `main`.  The standard input is given as the list of the
buffers that the successive calls of `fgets` in `getcmd` store, an empty
buffer (or no buffer left) being the end of the input; `tty` is the answer
of `isatty`. -/
def main (o : Oracle) (tty : Bool) : List (List Char) → World → Procs Unit
  | [], w => [sysExit 0 (getcmdPrompt tty w)]
  | buf :: input, w =>
    let w0 := getcmdPrompt tty w
    if deref buf 0 = NUL then [sysExit 0 w0]
    else if deref buf 0 = 'c' ∧ deref buf 1 = 'd' ∧ deref buf 2 = ' ' then
      let buf1 := buf.set (strlen buf - 1) NUL
      let r := sysChdir o ((buf1.drop 3).takeWhile (fun c => c != NUL)) w0
      let w1 := if r.1 < 0 then fprintf "process does not exist\n" r.2 else r.2
      main o tty input w1
    else
      andThen (fork1 o w0) fun p_id w1 =>
        andThen (if p_id = 0 then runline o buf w1 else [Flow.ret () w1]) fun _ w2 =>
          main o tty input (sysWait w2)

/-! ## Specification-level notions

The definitions below do not come from the program: they are the vocabulary
in which the properties of the parser are stated and proved. -/

/-- A generic scanning loop, of which the two loops of `gettoken` are
instances. -/
def scanLoop (P : Char → Bool) (mem : List Char) (es : Nat) : Nat → Nat → Nat
  | 0, s => s
  | fuel + 1, s => if s < es && P (deref mem s) then scanLoop P mem es fuel (s + 1) else s

/-- The buffer holds a C string that ends at index `es`: no NUL before `es`
and a NUL at `es`.  This is how `parsecmd` sets the end boundary. -/
def CStr (mem : List Char) (es : Nat) : Prop :=
  (∀ i, i < es → deref mem i ≠ NUL) ∧ deref mem es = NUL

/-- A character that can be part of a word: not NUL, not whitespace and not
one of the three symbols. -/
def isWordChar (c : Char) : Bool :=
  !strchr whitespace c && !strchr symbols c

/-- A word: a non-empty string of word characters. -/
def isWord (w : List Char) : Bool :=
  !w.isEmpty && w.all isWordChar

/-- The tokens of the grammar other than the end of input. -/
inductive Tok where
  | word (w : List Char) : Tok
  | less : Tok
  | greater : Tok
  | bar : Tok
  deriving DecidableEq, Repr

/-- The token of a symbol character. -/
def symTok (c : Char) : Tok :=
  if c = '<' then Tok.less else if c = '>' then Tok.greater else Tok.bar

/-- The character `gettoken` returns for a token. -/
def Tok.code : Tok → Char
  | Tok.word _ => 'a'
  | Tok.less => '<'
  | Tok.greater => '>'
  | Tok.bar => '|'

/-- The word collected so far, as a list of tokens. -/
def flushWord (cur : List Char) : List Tok :=
  if cur.isEmpty then [] else [Tok.word cur]

/-- Tokenization of a NUL-free string, `cur` being the word under way. -/
def tokenizeAux : List Char → List Char → List Tok
  | cur, [] => flushWord cur
  | cur, c :: cs =>
    if strchr whitespace c then flushWord cur ++ tokenizeAux [] cs
    else if strchr symbols c then flushWord cur ++ symTok c :: tokenizeAux [] cs
    else tokenizeAux (cur ++ [c]) cs

/-- The tokens of a string: maximal runs of word characters, and the
symbols, in order. -/
def tokenize (cs : List Char) : List Tok :=
  tokenizeAux [] cs

/-- The characters of the buffer from index `s` up to the end boundary. -/
def rest (mem : List Char) (es s : Nat) : List Char :=
  (mem.take es).drop s

/-- Whether the first token is a symbol whose character is in `toks`. -/
def peekT (ts : List Tok) (toks : List Char) : Bool :=
  match ts with
  | [] => false
  | Tok.word _ :: _ => false
  | t :: _ => toks.contains t.code

/-- Parsing of a run of redirections, on tokens: what `parseredirs` does. -/
def redirsT : Cmd → List Tok → PResult (Cmd × List Tok)
  | cmd, Tok.less :: Tok.word w :: ts => redirsT (redircmd cmd w '<') ts
  | cmd, Tok.greater :: Tok.word w :: ts => redirsT (redircmd cmd w '>') ts
  | _, Tok.less :: _ => PResult.fail PErr.missingFile
  | _, Tok.greater :: _ => PResult.fail PErr.missingFile
  | cmd, ts => PResult.ok (cmd, ts)

/-- Parsing of one command, on tokens, from the node `ret` built so far and
the number `argc` of arguments stored: what `parseexec` does.  The result is
the node and the tokens that are left, which are none or start with a bar. -/
def cmdT : Cmd → Nat → List Tok → PResult (Cmd × List Tok)
  | ret, argc, [] => PResult.ok (ret.storeArg argc none, [])
  | ret, argc, Tok.bar :: ts => PResult.ok (ret.storeArg argc none, Tok.bar :: ts)
  | ret, argc, Tok.word w :: ts =>
    if argc + 1 ≥ MAXARGS then PResult.fail PErr.tooManyArgs
    else cmdT (ret.storeArg argc (some w)) (argc + 1) ts
  | ret, argc, Tok.less :: Tok.word w :: ts => cmdT (redircmd ret w '<') argc ts
  | ret, argc, Tok.greater :: Tok.word w :: ts => cmdT (redircmd ret w '>') argc ts
  | _, _, Tok.less :: _ => PResult.fail PErr.missingFile
  | _, _, Tok.greater :: _ => PResult.fail PErr.missingFile

/-- Application of a function to the value of a successful result. -/
def PResult.map {α β : Type} (f : α → β) : PResult α → PResult β
  | PResult.ok a => PResult.ok (f a)
  | PResult.fail e => PResult.fail e
  | PResult.diverge => PResult.diverge

/-- Parsing of a pipeline, on tokens, from the node `ret` and the argument
count `argc` of the command under way: what `parsepipe` does. -/
def lineT : Cmd → Nat → List Tok → PResult Cmd
  | ret, argc, [] => PResult.ok (ret.storeArg argc none)
  | ret, argc, Tok.bar :: ts =>
    (lineT execcmd 0 ts).map (pipecmd (ret.storeArg argc none))
  | ret, argc, Tok.word w :: ts =>
    if argc + 1 ≥ MAXARGS then PResult.fail PErr.tooManyArgs
    else lineT (ret.storeArg argc (some w)) (argc + 1) ts
  | ret, argc, Tok.less :: Tok.word w :: ts => lineT (redircmd ret w '<') argc ts
  | ret, argc, Tok.greater :: Tok.word w :: ts => lineT (redircmd ret w '>') argc ts
  | _, _, Tok.less :: _ => PResult.fail PErr.missingFile
  | _, _, Tok.greater :: _ => PResult.fail PErr.missingFile

/-- The result of a parsing function of the program on the buffer, started
at cursor `ps`, agrees with a result on tokens: same node or same failure,
and the tokens left are those of the input after the new cursor. -/
def Sim (mem : List Char) (es ps : Nat) :
    PResult (Cmd × Nat) → PResult (Cmd × List Tok) → Prop
  | PResult.ok (c, ps1), PResult.ok (c1, ts) =>
    c = c1 ∧ ps ≤ ps1 ∧ ps1 ≤ es ∧ tokenize (rest mem es ps1) = ts
  | PResult.fail e, PResult.fail e1 => e = e1
  | _, _ => False

/-- Words written on a line with one space between them. -/
def joinWords : List (List Char) → List Char
  | [] => []
  | [w] => w
  | w :: ws => w ++ ' ' :: joinWords ws

/-- The `argv` array that holds the arguments `ws` followed by null slots. -/
def argvOf (ws : List (List Char)) : List (Option (List Char)) :=
  ws.map some ++ List.replicate (MAXARGS - ws.length) none

/-- A redirection as written: the operator character and the file name. -/
abbrev Redir := Char × List Char

/-- The node `c` wrapped in redirections, the first of the list innermost. -/
def wrapRedirs (c : Cmd) (rs : List Redir) : Cmd :=
  rs.foldl (fun acc r => redircmd acc r.2 r.1) c

/-- The argument words among the tokens of one command: the words that are
not the file name of a redirection. -/
def argWords : List Tok → List (List Char)
  | [] => []
  | Tok.less :: Tok.word _ :: ts => argWords ts
  | Tok.greater :: Tok.word _ :: ts => argWords ts
  | Tok.word w :: ts => w :: argWords ts
  | _ :: ts => argWords ts

/-- The redirections among the tokens of one command, in order. -/
def redirsOf : List Tok → List Redir
  | [] => []
  | Tok.less :: Tok.word f :: ts => ('<', f) :: redirsOf ts
  | Tok.greater :: Tok.word f :: ts => ('>', f) :: redirsOf ts
  | _ :: ts => redirsOf ts

/-- Every redirection operator among the tokens is followed by a word. -/
def wfRedirs : List Tok → Bool
  | [] => true
  | Tok.less :: Tok.word _ :: ts => wfRedirs ts
  | Tok.greater :: Tok.word _ :: ts => wfRedirs ts
  | Tok.less :: _ => false
  | Tok.greater :: _ => false
  | _ :: ts => wfRedirs ts

/-- The tokens of the commands of a pipeline: the stretches between bars. -/
def commands : List Tok → List (List Tok)
  | [] => [[]]
  | Tok.bar :: ts => [] :: commands ts
  | t :: ts =>
    match commands ts with
    | [] => [[t]]
    | c :: cs => (t :: c) :: cs

/-- The `argv` arrays of the `execcmd` nodes of a tree. -/
def execNodes : Cmd → List (List (Option (List Char)))
  | Cmd.null => []
  | Cmd.exec argv => [argv]
  | Cmd.redir _ c _ _ _ => execNodes c
  | Cmd.pipe l r => execNodes l ++ execNodes r

/-- The text of a token. -/
def Tok.text : Tok → List Char
  | Tok.word w => w
  | Tok.less => ['<']
  | Tok.greater => ['>']
  | Tok.bar => ['|']

/-- The words among the tokens are words. -/
def validToks (ts : List Tok) : Prop :=
  ∀ w, Tok.word w ∈ ts → isWord w = true

/-- The line on which the given tokens are written with one space between
them. -/
def render (ts : List Tok) : List Char :=
  joinWords (ts.map Tok.text)

/-- The tokens of a list of redirections: operator, file name, and so on. -/
def redirToks : List Redir → List Tok
  | [] => []
  | r :: rs => symTok r.1 :: Tok.word r.2 :: redirToks rs

/-- A redirection as it can be written: the operator is `<` or `>` and the
file name is a word. -/
def Redir.valid (r : Redir) : Bool :=
  (r.1 == '<' || r.1 == '>') && isWord r.2

/-- The line `a1 | a2 | ... | aN`. -/
def joinPipes : List (List Char) → List Char
  | [] => []
  | [a] => a
  | a :: as => a ++ ' ' :: '|' :: ' ' :: joinPipes as

/-- The tree `Pipe(T1, Pipe(T2, ... Pipe(T(N-1), TN)))`. -/
def pipeTree : List Cmd → Cmd
  | [] => Cmd.null
  | [t] => t
  | t :: ts => Cmd.pipe t (pipeTree ts)

/-- The tree of a successful parse (the null pointer otherwise). -/
def treeOf : PResult Cmd → Cmd
  | PResult.ok t => t
  | _ => Cmd.null

/-- Whether a parse returned a tree. -/
def PResult.isOk {α : Type} : PResult α → Bool
  | PResult.ok _ => true
  | _ => false

/-- Whether the node is a `pipecmd`. -/
def Cmd.isPipe : Cmd → Bool
  | Cmd.pipe _ _ => true
  | _ => false

/-- Whether the tree contains a `pipecmd`. -/
def Cmd.hasPipe : Cmd → Bool
  | Cmd.pipe _ _ => true
  | Cmd.redir _ c _ _ _ => c.hasPipe
  | _ => false

/-- Whether no `pipecmd` of the tree has a `pipecmd` as its left child. -/
def Cmd.leftsNotPipe : Cmd → Bool
  | Cmd.pipe l r => !l.isPipe && l.leftsNotPipe && r.leftsNotPipe
  | Cmd.redir _ c _ _ _ => c.leftsNotPipe
  | _ => true

/-- The state in which `handle_redirection` returns when its `open` and its
`dup2` succeed. -/
def afterRedir (o : Oracle) (file : List Char) (mode fd : Nat) (w : World) : World :=
  (sysDup2 o (sysOpen o file mode 777 w).1 fd (sysOpen o file mode 777 w).2).2

/-- Every flow is over: none returns to the caller. -/
def AllHalt {α : Type} (m : Procs α) : Prop :=
  ∀ f ∈ m, ∃ w, f = Flow.halt w

/-- The state of the process of a flow. -/
def Flow.world {α : Type} : Flow α → World
  | Flow.ret _ w => w
  | Flow.halt w => w

/-- An event other than an `open` whose permission argument is not the
decimal number 777. -/
def Event.permOk : Event → Bool
  | Event.open _ _ perm _ => perm == 777
  | _ => true

/-- The last call of the process is an `exit` or an `execvp` that replaced
its image. -/
def World.ended (w : World) : Bool :=
  match w.log.getLast? with
  | some (Event.exit _) => true
  | some (Event.execvp _ _ true) => true
  | _ => false

/-- Every flow that returns does so in a state that satisfies `R`, and every
flow that is over ended in a state that satisfies `H`. -/
def Inv {α : Type} (R H : World → Prop) (m : Procs α) : Prop :=
  (∀ a w, Flow.ret a w ∈ m → R w) ∧ (∀ w, Flow.halt w ∈ m → H w)

/-- The system calls of the executor keep `R`, and a process that is in a
state satisfying `R` ends in a state satisfying `H`. -/
structure Closed (o : Oracle) (R H : World → Prop) : Prop where
  openR : ∀ file mode w, R w → R (sysOpen o file mode 777 w).2
  dup2R : ∀ oldfd newfd w, R w → R (sysDup2 o oldfd newfd w).2
  closeR : ∀ fd w, R w → R (sysClose fd w)
  pipeR : ∀ w, R w → R (sysPipe o w).2.2
  forkR : ∀ w, R w → Inv R H (sysFork o w)
  waitR : ∀ w, R w → R (sysWait w)
  printR : ∀ msg w, R w → R (fprintf msg w)
  execR : ∀ file argv w, R w → Inv R H [sysExecvp o file argv w]
  exitH : ∀ code w, R w → H { w with log := w.log ++ [Event.exit code] }

/-- The state of the child that a successful `fork` makes in state `w`. -/
def childOf (w : World) : World :=
  ⟨w.pid ++ [w.nforks], 0, w.fds, [Event.fork 0]⟩

/-- The state of the parent after a successful `fork` in state `w`. -/
def parentOf (w : World) : World :=
  { w with nforks := w.nforks + 1, log := w.log ++ [Event.fork (w.nforks + 1)] }

/-- The state in which the first child of `handle_pipe` calls
`runcmd(pcmd->left)`, when `pipe` and `fork` succeed. -/
def pipeLeft (o : Oracle) (w : World) : World :=
  (sysDup2 o (sysPipe o w).2.1.2 STDOUT_FILENO
    (sysClose (sysPipe o w).2.1.1 (childOf (sysPipe o w).2.2))).2

/-- The state in which the second child of `handle_pipe` calls
`runcmd(pcmd->right)`, when `pipe` and both `fork` calls succeed. -/
def pipeRight (o : Oracle) (w : World) : World :=
  (sysDup2 o (sysPipe o w).2.1.1 STDIN_FILENO
    (sysClose (sysPipe o w).2.1.2 (childOf (parentOf (sysPipe o w).2.2)))).2

/-- The state in which `handle_pipe` returns in the parent, when `pipe` and
both `fork` calls succeed. -/
def pipeParent (o : Oracle) (w : World) : World :=
  sysWait (sysWait (sysClose (sysPipe o w).2.1.2 (sysClose (sysPipe o w).2.1.1
    (parentOf (parentOf (sysPipe o w).2.2)))))

/-- The state of a process after `exit(code)`. -/
def exited (code : Int) (w : World) : World :=
  { w with log := w.log ++ [Event.exit code] }

/-- A successful call of `pipe`. -/
def Event.isPipe : Event → Bool
  | Event.pipe res _ _ => res == 0
  | _ => false

/-- A successful call of `fork`, as seen by the parent: a process is
created. -/
def Event.isFork : Event → Bool
  | Event.fork res => decide (0 < res)
  | _ => false

/-- A call of `wait`. -/
def Event.isWait : Event → Bool
  | Event.wait => true
  | _ => false

/-- The number of events that satisfy `P` in the logs of all the processes. -/
def countEv (P : Event → Bool) (m : Procs Unit) : Nat :=
  (m.map (fun f => f.world.log.countP P)).sum

/-- For a process whose image has been replaced: the arguments of the
`execvp` and what the descriptors 0 and 1 are bound to at that moment. -/
def execInfo (f : Flow Unit) : Option (List (List Char) × Option Obj × Option Obj) :=
  match f.world.log.getLast? with
  | some (Event.execvp _ argv true) => some (argv, f.world.fdGet 0, f.world.fdGet 1)
  | _ => none

/-- The identity of a pipe: the process that created it and the length of
the log of that process at that moment. -/
abbrev PipeId := List Nat × Nat

/-- The wiring of a pipeline: command `i` reads from pipe `i - 1` and writes
to pipe `i`, except that the first reads from `stdin` and the last writes to
`stdout`. -/
def wiringOf (stdin stdout : Option Obj) :
    List (List (List Char)) → List PipeId →
      List (List (List Char) × Option Obj × Option Obj)
  | [], _ => []
  | [a], _ => [(a, stdin, stdout)]
  | _ :: _ :: _, [] => []
  | a :: b :: rest, p :: ps =>
    (a, stdin, some (Obj.pipeWrite p.1 p.2))
      :: wiringOf (some (Obj.pipeRead p.1 p.2)) stdout (b :: rest) ps

/-- The tree of a pipeline of simple commands, each given by its words. -/
def simpleTree (cmds : List (List (List Char))) : Cmd :=
  pipeTree (cmds.map (fun a => Cmd.exec (argvOf a)))

/-- The oracle under which every call succeeds except an `execvp` made by a
forked child as its fourth call, which is how the stages of a two-command
pipeline call it. -/
def Oracle.stageExecFails : Oracle :=
  fun w => !(w.pid != [] && w.log.length == 3)

/-- The oracle under which every call succeeds except the third call of the
first child of the first process, which is the first `fork` of the process
of a line that is a pipeline. -/
def Oracle.pipeForkFails : Oracle :=
  fun w => !(w.pid == [0] && w.log.length == 2)

/-- The oracle under which every call succeeds except the second call of a
process, which is the `dup2` of a line that starts with a redirection. -/
def Oracle.secondCallFails : Oracle :=
  fun w => w.log.length != 1

/-- The descriptors in use in a table, from number `i` on, with the object
each one is bound to. -/
def openFrom : Nat → List (Option Obj) → List (Nat × Obj)
  | _, [] => []
  | i, none :: fds => openFrom (i + 1) fds
  | i, some o :: fds => (i, o) :: openFrom (i + 1) fds

/-- The descriptors in use in a process. -/
def openFds (w : World) : List (Nat × Obj) :=
  openFrom 0 w.fds

/-- What is observed of a process at its end: its identity, whether its last
call is an `exit` or a successful `execvp`, and the descriptors in use. -/
def Flow.snapshot (f : Flow Unit) : List Nat × Bool × List (Nat × Obj) :=
  (f.world.pid, f.world.ended, openFds f.world)

theorem skipwsLoop_eq_scan (mem : List Char) (es f s : Nat) :
    skipwsLoop mem es f s = scanLoop (strchr whitespace) mem es f s := by
  induction f generalizing s with
  | zero => rfl
  | succ f ih => simp only [skipwsLoop, scanLoop, ih]

theorem skipwordLoop_eq_scan (mem : List Char) (es f s : Nat) :
    skipwordLoop mem es f s = scanLoop isWordChar mem es f s := by
  induction f generalizing s with
  | zero => rfl
  | succ f ih => simp only [skipwordLoop, scanLoop, ih, Bool.and_assoc, isWordChar]

theorem scanLoop_spec (P : Char → Bool) (mem : List Char) (es : Nat) :
    ∀ f s, es - s ≤ f →
      s ≤ scanLoop P mem es f s ∧ (s ≤ es → scanLoop P mem es f s ≤ es) ∧
      (∀ i, s ≤ i → i < scanLoop P mem es f s → P (deref mem i) = true) ∧
      ¬ (scanLoop P mem es f s < es ∧ P (deref mem (scanLoop P mem es f s)) = true) := by
  intro f
  induction f with
  | zero =>
    intro s hf
    simp only [scanLoop]
    refine ⟨le_refl _, fun h => h, fun i h1 h2 => by omega, fun h => by omega⟩
  | succ f ih =>
    intro s hf
    simp only [scanLoop]
    by_cases hc : (decide (s < es) && P (deref mem s)) = true
    · rw [if_pos hc]
      simp only [Bool.and_eq_true, decide_eq_true_eq] at hc
      obtain ⟨h1, h2, h3, h4⟩ := ih (s + 1) (by omega)
      refine ⟨by omega, fun _ => h2 (by omega), ?_, h4⟩
      intro i hi1 hi2
      by_cases hi : i = s
      · subst hi; exact hc.2
      · exact h3 i (by omega) hi2
    · rw [if_neg hc]
      refine ⟨le_refl _, fun h => h, fun i h1 h2 => by omega, ?_⟩
      simpa only [Bool.and_eq_true, decide_eq_true_eq] using hc

/-- A scan that starts where its condition fails does not move. -/
theorem scanLoop_stuck (P : Char → Bool) (mem : List Char) (es f s : Nat)
    (h : ¬ (s < es ∧ P (deref mem s) = true)) : scanLoop P mem es f s = s := by
  cases f with
  | zero => rfl
  | succ f =>
    simp only [scanLoop]
    rw [if_neg]
    simpa only [Bool.and_eq_true, decide_eq_true_eq] using h

theorem skipws_spec (mem : List Char) (es s : Nat) :
    s ≤ skipws mem es s ∧ (s ≤ es → skipws mem es s ≤ es) ∧
    (∀ i, s ≤ i → i < skipws mem es s → strchr whitespace (deref mem i) = true) ∧
    ¬ (skipws mem es s < es ∧ strchr whitespace (deref mem (skipws mem es s)) = true) := by
  unfold skipws
  rw [skipwsLoop_eq_scan]
  exact scanLoop_spec _ mem es (es - s) s (le_refl _)

theorem skipword_spec (mem : List Char) (es s : Nat) :
    s ≤ skipword mem es s ∧ (s ≤ es → skipword mem es s ≤ es) ∧
    (∀ i, s ≤ i → i < skipword mem es s → isWordChar (deref mem i) = true) ∧
    ¬ (skipword mem es s < es ∧ isWordChar (deref mem (skipword mem es s)) = true) := by
  unfold skipword
  rw [skipwordLoop_eq_scan]
  exact scanLoop_spec _ mem es (es - s) s (le_refl _)

theorem skipws_idem (mem : List Char) (es s : Nat) :
    skipws mem es (skipws mem es s) = skipws mem es s := by
  have h := (skipws_spec mem es s).2.2.2
  generalize skipws mem es s = r at h ⊢
  unfold skipws
  rw [skipwsLoop_eq_scan]
  exact scanLoop_stuck _ mem es _ r h

theorem strchr_iff (str : List Char) (c : Char) (hc : c ≠ NUL) :
    strchr str c = true ↔ c ∈ str := by
  simp [strchr, hc]

theorem strchr_NUL (str : List Char) : strchr str NUL = true := by
  simp [strchr]

theorem isWordChar_iff (c : Char) :
    isWordChar c = true ↔ c ≠ NUL ∧ c ∉ whitespace ∧ c ∉ symbols := by
  by_cases hc : c = NUL
  · subst hc; simp [isWordChar, strchr]
  · simp [isWordChar, strchr, hc]

theorem mem_ws_of_strchr {mem : List Char} {es i : Nat} (h : CStr mem es) (hi : i < es)
    (hw : strchr whitespace (deref mem i) = true) : deref mem i ∈ whitespace :=
  (strchr_iff _ _ (h.1 i hi)).1 hw

/-- The behaviour of `gettoken` on a C string, position by position. -/
theorem gettoken_facts (mem : List Char) (ps es : Nat)
    (hnul : ∀ i, i < es → deref mem i ≠ NUL) (hend : deref mem es = NUL) (hps : ps ≤ es) :
    -- leading whitespace is skipped
    ps ≤ (gettoken mem ps es).q ∧ (gettoken mem ps es).q ≤ es ∧
    (∀ i, ps ≤ i → i < (gettoken mem ps es).q → deref mem i ∈ whitespace) ∧
    ((gettoken mem ps es).q < es → deref mem (gettoken mem ps es).q ∉ whitespace) ∧
    -- the end token, exactly at the boundary
    ((gettoken mem ps es).ret = NUL ↔ (gettoken mem ps es).q = es) ∧
    ((gettoken mem ps es).q = es → (gettoken mem ps es).eq = es) ∧
    -- a symbol
    ((gettoken mem ps es).q < es → deref mem (gettoken mem ps es).q ∈ symbols →
      (gettoken mem ps es).ret = deref mem (gettoken mem ps es).q ∧
      (gettoken mem ps es).eq = (gettoken mem ps es).q + 1) ∧
    -- a word
    ((gettoken mem ps es).q < es → deref mem (gettoken mem ps es).q ∉ symbols →
      (gettoken mem ps es).ret = 'a' ∧
      (gettoken mem ps es).q < (gettoken mem ps es).eq ∧ (gettoken mem ps es).eq ≤ es ∧
      (∀ i, (gettoken mem ps es).q ≤ i → i < (gettoken mem ps es).eq →
        deref mem i ∉ whitespace ∧ deref mem i ∉ symbols) ∧
      ((gettoken mem ps es).eq < es →
        deref mem (gettoken mem ps es).eq ∈ whitespace ∨
        deref mem (gettoken mem ps es).eq ∈ symbols)) ∧
    -- trailing whitespace is skipped
    (gettoken mem ps es).eq ≤ (gettoken mem ps es).ps ∧ (gettoken mem ps es).ps ≤ es ∧
    (∀ i, (gettoken mem ps es).eq ≤ i → i < (gettoken mem ps es).ps →
      deref mem i ∈ whitespace) ∧
    ((gettoken mem ps es).ps < es → deref mem (gettoken mem ps es).ps ∉ whitespace) := by
  have hC : CStr mem es := ⟨hnul, hend⟩
  obtain ⟨a1, a2, a3, a4⟩ := skipws_spec mem es ps
  have a2 := a2 hps
  -- facts about the first non-blank position
  have hq : (gettoken mem ps es).q = skipws mem es ps := rfl
  have hqws : skipws mem es ps < es → deref mem (skipws mem es ps) ∉ whitespace := by
    intro hlt hin
    exact a4 ⟨hlt, (strchr_iff _ _ (hnul _ hlt)).2 hin⟩
  -- the shape of the token
  have key : ∀ r : Char × Nat,
      r = (if deref mem (skipws mem es ps) = NUL then
              (deref mem (skipws mem es ps), skipws mem es ps)
            else if deref mem (skipws mem es ps) = '|' ∨ deref mem (skipws mem es ps) = '<' then
              (deref mem (skipws mem es ps), skipws mem es ps + 1)
            else if deref mem (skipws mem es ps) = '>' then
              (deref mem (skipws mem es ps), skipws mem es ps + 1)
            else ('a', skipword mem es (skipws mem es ps))) →
      (r.1 = NUL ↔ skipws mem es ps = es) ∧ (skipws mem es ps = es → r.2 = es) ∧
      (skipws mem es ps < es → deref mem (skipws mem es ps) ∈ symbols →
        r.1 = deref mem (skipws mem es ps) ∧ r.2 = skipws mem es ps + 1) ∧
      (skipws mem es ps < es → deref mem (skipws mem es ps) ∉ symbols →
        r.1 = 'a' ∧ skipws mem es ps < r.2 ∧ r.2 ≤ es ∧
        (∀ i, skipws mem es ps ≤ i → i < r.2 →
          deref mem i ∉ whitespace ∧ deref mem i ∉ symbols) ∧
        (r.2 < es → deref mem r.2 ∈ whitespace ∨ deref mem r.2 ∈ symbols)) ∧
      skipws mem es ps ≤ r.2 ∧ r.2 ≤ es := by
    intro r hr
    generalize skipws mem es ps = q at a1 a2 a3 a4 hqws hr ⊢
    rcases Nat.lt_or_ge q es with hlt | hge
    · have hne : deref mem q ≠ NUL := hnul q hlt
      by_cases hsym : deref mem q ∈ symbols
      · have hr2 : r = (deref mem q, q + 1) := by
          rw [hr, if_neg hne]
          simp only [symbols, List.mem_cons, List.mem_singleton, List.not_mem_nil,
            or_false] at hsym
          rcases hsym with h | h | h
          · rw [if_pos (Or.inr h)]
          · rw [if_pos (Or.inl h)]
          · rw [h]; simp
        subst hr2
        refine ⟨?_, ?_, ?_, ?_, ?_, ?_⟩
        · simp only; constructor
          · intro h; exact absurd h hne
          · intro h; omega
        · intro h; omega
        · intro _ _; exact ⟨rfl, rfl⟩
        · intro _ h; exact absurd hsym h
        · simp
        · simp only; omega
      · have hns : deref mem q ≠ '|' ∧ deref mem q ≠ '<' ∧ deref mem q ≠ '>' := by
          simp only [symbols, List.mem_cons, List.mem_singleton, List.not_mem_nil,
            or_false, not_or] at hsym
          exact ⟨hsym.2.1, hsym.1, hsym.2.2⟩
        have hr2 : r = ('a', skipword mem es q) := by
          rw [hr, if_neg hne, if_neg (by simp [hns.1, hns.2.1]), if_neg hns.2.2]
        subst hr2
        obtain ⟨b1, b2, b3, b4⟩ := skipword_spec mem es q
        have b2 := b2 a2
        have hwc : isWordChar (deref mem q) = true :=
          (isWordChar_iff _).2 ⟨hne, hqws hlt, hsym⟩
        have hlt2 : q < skipword mem es q := by
          rcases Nat.lt_or_ge q (skipword mem es q) with h | h
          · exact h
          · have : skipword mem es q = q := by omega
            rw [this] at b4
            exact absurd ⟨hlt, hwc⟩ b4
        refine ⟨?_, ?_, ?_, ?_, ?_, ?_⟩
        · simp only; constructor
          · intro h; exact absurd h (by decide)
          · intro h; omega
        · intro h; omega
        · intro _ h; exact absurd h hsym
        · intro _ _
          refine ⟨rfl, hlt2, b2, ?_, ?_⟩
          · intro i hi1 hi2
            have := (isWordChar_iff _).1 (b3 i hi1 hi2)
            exact ⟨this.2.1, this.2.2⟩
          · intro hlt3
            by_contra hcon
            simp only [not_or] at hcon
            exact b4 ⟨hlt3, (isWordChar_iff _).2 ⟨hnul _ hlt3, hcon.1, hcon.2⟩⟩
        · exact b1
        · exact b2
    · have hqe : q = es := by omega
      subst hqe
      have hr2 : r = (deref mem q, q) := by rw [hr, if_pos hend]
      subst hr2
      refine ⟨?_, ?_, ?_, ?_, ?_, ?_⟩
      · simp [hend]
      · intro _; rfl
      · intro h; omega
      · intro h; omega
      · exact le_refl _
      · exact le_refl _
  obtain ⟨k1, k2, k3, k4, k5, k6⟩ := key _ rfl
  obtain ⟨c1, c2, c3, c4⟩ := skipws_spec mem es (gettoken mem ps es).eq
  refine ⟨a1, a2, ?_, hqws, k1, k2, k3, k4, c1, c2 k6, ?_, ?_⟩
  · intro i hi1 hi2
    exact mem_ws_of_strchr hC (by rw [hq] at hi2; omega) (a3 i hi1 hi2)
  · intro i hi1 hi2
    have hle : (gettoken mem ps es).ps ≤ es := c2 k6
    exact mem_ws_of_strchr hC (by omega) (c3 i hi1 hi2)
  · intro hlt hin
    exact c4 ⟨hlt, (strchr_iff _ _ (hnul _ hlt)).2 hin⟩

theorem gettoken_skipws (mem : List Char) (ps es : Nat) :
    gettoken mem (skipws mem es ps) es = gettoken mem ps es := by
  unfold gettoken
  rw [skipws_idem]

/-- The behaviour of `peek` on a C string. -/
theorem peek_facts (mem : List Char) (ps es : Nat) (toks : List Char)
    (hnul : ∀ i, i < es → deref mem i ≠ NUL) (hend : deref mem es = NUL) (hps : ps ≤ es) :
    -- the cursor moves only past whitespace, to the first non-blank position
    ps ≤ (peek mem ps es toks).2 ∧ (peek mem ps es toks).2 ≤ es ∧
    (∀ i, ps ≤ i → i < (peek mem ps es toks).2 → deref mem i ∈ whitespace) ∧
    ((peek mem ps es toks).2 < es → deref mem (peek mem ps es toks).2 ∉ whitespace) ∧
    -- the answer
    ((peek mem ps es toks).1 = true ↔
      ((peek mem ps es toks).2 < es ∧ deref mem (peek mem ps es toks).2 ∈ toks)) ∧
    -- the next token is untouched
    gettoken mem (peek mem ps es toks).2 es = gettoken mem ps es := by
  obtain ⟨a1, a2, a3, a4⟩ := skipws_spec mem es ps
  have a2 := a2 hps
  have hp2 : (peek mem ps es toks).2 = skipws mem es ps := rfl
  have hp1 : (peek mem ps es toks).1
      = (deref mem (skipws mem es ps) != NUL && strchr toks (deref mem (skipws mem es ps))) :=
    rfl
  rw [hp2, hp1]
  refine ⟨a1, a2, ?_, ?_, ?_, gettoken_skipws mem ps es⟩
  · intro i hi1 hi2
    exact mem_ws_of_strchr ⟨hnul, hend⟩ (by omega) (a3 i hi1 hi2)
  · intro hlt hin
    exact a4 ⟨hlt, (strchr_iff _ _ (hnul _ hlt)).2 hin⟩
  · rcases Nat.lt_or_ge (skipws mem es ps) es with hlt | hge
    · have hne := hnul _ hlt
      simp only [Bool.and_eq_true, bne_iff_ne, ne_eq, hne, not_false_eq_true, true_and,
        strchr_iff _ _ hne, hlt]
    · have : skipws mem es ps = es := by omega
      rw [this, hend]
      simp

/-! ### The characters that remain and their tokens -/

theorem CStr.le_length {mem : List Char} {es : Nat} (h : CStr mem es) : es ≤ mem.length := by
  by_contra hlt
  have h1 := h.1 mem.length (by omega)
  apply h1
  simp [deref, List.getD]

theorem rest_nil (mem : List Char) (es s : Nat) (h : es ≤ s) : rest mem es s = [] := by
  unfold rest
  apply List.drop_eq_nil_of_le
  rw [List.length_take]
  omega

theorem rest_cons {mem : List Char} {es s : Nat} (h : CStr mem es) (hs : s < es) :
    rest mem es s = deref mem s :: rest mem es (s + 1) := by
  have hl := h.le_length
  unfold rest
  have hlen : s < (mem.take es).length := by rw [List.length_take]; omega
  rw [List.drop_eq_getElem_cons hlen]
  congr 1
  rw [List.getElem_take]
  simp [deref, List.getD, List.getElem?_eq_getElem (show s < mem.length by omega)]

theorem mkcopy_self (mem : List Char) (s : Nat) : mkcopy mem s s = [] := by
  simp [mkcopy]

theorem mkcopy_cons {mem : List Char} {s e : Nat} (hs : s < e) (hl : s < mem.length)
    (hne : deref mem s ≠ NUL) :
    mkcopy mem s e = deref mem s :: mkcopy mem (s + 1) e := by
  unfold mkcopy
  rw [List.drop_eq_getElem_cons hl]
  have : e - s = (e - (s + 1)) + 1 := by omega
  have hd : deref mem s = mem[s] := by
    simp [deref, List.getD, List.getElem?_eq_getElem hl]
  rw [this, List.take_succ_cons, List.takeWhile_cons_of_pos (by rw [← hd]; simpa using hne), hd]

theorem tokenizeAux_ws (cur : List Char) (c : Char) (cs : List Char)
    (h : strchr whitespace c = true) :
    tokenizeAux cur (c :: cs) = flushWord cur ++ tokenize cs := by
  simp [tokenizeAux, tokenize, h]

theorem tokenizeAux_sym (cur : List Char) (c : Char) (cs : List Char)
    (h1 : strchr whitespace c = false) (h : strchr symbols c = true) :
    tokenizeAux cur (c :: cs) = flushWord cur ++ symTok c :: tokenize cs := by
  simp [tokenizeAux, tokenize, h, h1]

theorem tokenizeAux_wc (cur : List Char) (c : Char) (cs : List Char)
    (h : isWordChar c = true) :
    tokenizeAux cur (c :: cs) = tokenizeAux (cur ++ [c]) cs := by
  simp only [isWordChar, Bool.and_eq_true, Bool.not_eq_true'] at h
  simp [tokenizeAux, h.1, h.2]

theorem flushWord_nil : flushWord [] = [] := rfl

theorem flushWord_ne {w : List Char} (h : w ≠ []) : flushWord w = [Tok.word w] := by
  cases w with
  | nil => exact absurd rfl h
  | cons a l => rfl

theorem tokenize_nil : tokenize [] = [] := rfl

theorem tokenize_ws (c : Char) (cs : List Char) (h : strchr whitespace c = true) :
    tokenize (c :: cs) = tokenize cs := by
  rw [tokenize, tokenizeAux_ws _ _ _ h, flushWord_nil]; rfl

theorem tokenize_sym (c : Char) (cs : List Char) (h1 : strchr whitespace c = false)
    (h : strchr symbols c = true) :
    tokenize (c :: cs) = symTok c :: tokenize cs := by
  rw [tokenize, tokenizeAux_sym _ _ _ h1 h, flushWord_nil]; rfl

/-- A character that cannot be in a word ends the word under way. -/
theorem tokenizeAux_break (cur : List Char) (c : Char) (cs : List Char)
    (h : isWordChar c = false) :
    tokenizeAux cur (c :: cs) = flushWord cur ++ tokenize (c :: cs) := by
  by_cases hw : strchr whitespace c = true
  · rw [tokenizeAux_ws _ _ _ hw, tokenize_ws _ _ hw]
  · have hw : strchr whitespace c = false := by simpa using hw
    have hs : strchr symbols c = true := by
      simp only [isWordChar, hw, Bool.not_false, Bool.true_and, Bool.not_eq_false'] at h
      exact h
    rw [tokenizeAux_sym _ _ _ hw hs, tokenize_sym _ _ hw hs]

/-- Appending a word to the word under way. -/
theorem tokenizeAux_word (cur w cs : List Char) (hw : w.all isWordChar = true) :
    tokenizeAux cur (w ++ cs) = tokenizeAux (cur ++ w) cs := by
  induction w generalizing cur with
  | nil => simp
  | cons c w ih =>
    simp only [List.all_cons, Bool.and_eq_true] at hw
    rw [List.cons_append, tokenizeAux_wc _ _ _ hw.1, ih _ hw.2]
    simp

/-- A word followed by the end of the string or by a character that cannot
be in a word is one token. -/
theorem tokenize_word (w cs : List Char) (hw : isWord w = true)
    (hcs : ∀ c, cs.head? = some c → isWordChar c = false) :
    tokenize (w ++ cs) = Tok.word w :: tokenize cs := by
  simp only [isWord, Bool.and_eq_true, Bool.not_eq_true', List.isEmpty_eq_false] at hw
  have hne : w ≠ [] := by
    intro h; rw [h] at hw; simp at hw
  rw [tokenize, tokenizeAux_word _ _ _ hw.2, List.nil_append]
  cases cs with
  | nil =>
    show flushWord w = [Tok.word w]
    exact flushWord_ne hne
  | cons c cs =>
    rw [tokenizeAux_break _ _ _ (hcs c rfl), flushWord_ne hne]
    rfl

/-- Tokens over a stretch of whitespace of the buffer. -/
theorem tokenize_rest_ws {mem : List Char} {es : Nat} (h : CStr mem es) :
    ∀ n s r, r = s + n → r ≤ es →
      (∀ i, s ≤ i → i < r → strchr whitespace (deref mem i) = true) →
      tokenize (rest mem es s) = tokenize (rest mem es r) := by
  intro n
  induction n with
  | zero => intro s r hr _ _; simp at hr; rw [hr]
  | succ n ih =>
    intro s r hr hle hws
    rw [rest_cons h (by omega), tokenize_ws _ _ (hws s (le_refl _) (by omega))]
    exact ih (s + 1) r (by omega) hle (fun i h1 h2 => hws i (by omega) h2)

/-- The characters of a stretch of word characters of the buffer. -/
theorem rest_word {mem : List Char} {es : Nat} (h : CStr mem es) :
    ∀ n s e, e = s + n → e ≤ es →
      rest mem es s = mkcopy mem s e ++ rest mem es e := by
  intro n
  induction n with
  | zero => intro s e he _; simp at he; rw [he, mkcopy_self]; rfl
  | succ n ih =>
    intro s e he hle
    have hl := h.le_length
    rw [rest_cons h (by omega), mkcopy_cons (by omega) (by omega) (h.1 s (by omega)),
      ih (s + 1) e (by omega) hle]
    rfl

theorem mkcopy_all {mem : List Char} (P : Char → Bool) :
    ∀ n s e, e = s + n → e ≤ mem.length →
      (∀ i, s ≤ i → i < e → deref mem i ≠ NUL ∧ P (deref mem i) = true) →
      (mkcopy mem s e).all P = true := by
  intro n
  induction n with
  | zero => intro s e he _ _; simp at he; rw [he, mkcopy_self]; rfl
  | succ n ih =>
    intro s e he hle hP
    rw [mkcopy_cons (by omega) (by omega) (hP s (le_refl _) (by omega)).1, List.all_cons,
      (hP s (le_refl _) (by omega)).2,
      ih (s + 1) e (by omega) hle (fun i h1 h2 => hP i (by omega) h2)]
    rfl

theorem symTok_code {c : Char} (h : c ∈ symbols) : (symTok c).code = c := by
  simp only [symbols, List.mem_cons, List.mem_singleton, List.not_mem_nil, or_false] at h
  rcases h with h | h | h <;> subst h <;> rfl

theorem symTok_ne_word (c : Char) (w : List Char) : symTok c ≠ Tok.word w := by
  unfold symTok
  split
  · simp
  · split <;> simp

theorem Tok.code_eq_a_iff (t : Tok) : t.code = 'a' ↔ ∃ w, t = Tok.word w := by
  cases t with
  | word w => simp [Tok.code]
  | less => simp [Tok.code]
  | greater => simp [Tok.code]
  | bar => simp [Tok.code]

theorem Tok.code_ne_NUL (t : Tok) : t.code ≠ NUL := by
  cases t <;> simp [Tok.code, NUL]

theorem isWordChar_false_of {c : Char} (h : c ∈ whitespace ∨ c ∈ symbols) :
    isWordChar c = false := by
  by_contra hc
  have hc : isWordChar c = true := by simpa using hc
  have := (isWordChar_iff c).1 hc
  rcases h with h | h
  · exact this.2.1 h
  · exact this.2.2 h

/-- What `gettoken` does, in terms of the tokens of the remaining input. -/
theorem gettoken_tokens {mem : List Char} {es : Nat} (h : CStr mem es) {ps : Nat}
    (hps : ps ≤ es) :
    (gettoken mem ps es).ps ≤ es ∧
    (((gettoken mem ps es).ret = NUL ∧ tokenize (rest mem es ps) = [] ∧
        (gettoken mem ps es).ps = es) ∨
     (∃ tk, tokenize (rest mem es ps) = tk :: tokenize (rest mem es (gettoken mem ps es).ps) ∧
        (gettoken mem ps es).ret = tk.code ∧ ps < (gettoken mem ps es).ps ∧
        (∀ w, tk = Tok.word w →
          w = mkcopy mem (gettoken mem ps es).q (gettoken mem ps es).eq))) := by
  obtain ⟨g1, g2, -, g4, g5, g6, g7, g8, g9, g10, -, -⟩ := gettoken_facts mem ps es h.1 h.2 hps
  obtain ⟨a1, -, a3, -⟩ := skipws_spec mem es ps
  obtain ⟨c1, -, c3, -⟩ := skipws_spec mem es (gettoken mem ps es).eq
  have hq : (gettoken mem ps es).q = skipws mem es ps := rfl
  have hp : (gettoken mem ps es).ps = skipws mem es (gettoken mem ps es).eq := rfl
  have e1 : tokenize (rest mem es ps) = tokenize (rest mem es (gettoken mem ps es).q) :=
    tokenize_rest_ws h ((gettoken mem ps es).q - ps) ps _ (by omega) g2 a3
  have e2 : tokenize (rest mem es (gettoken mem ps es).eq)
      = tokenize (rest mem es (gettoken mem ps es).ps) :=
    tokenize_rest_ws h ((gettoken mem ps es).ps - (gettoken mem ps es).eq) _ _
      (by omega) g10 c3
  refine ⟨g10, ?_⟩
  generalize gettoken mem ps es = t at *
  rcases Nat.lt_or_ge t.q es with hlt | hge
  · right
    have hne := h.1 _ hlt
    have hnw : strchr whitespace (deref mem t.q) = false := by
      have := g4 hlt
      simpa [strchr, hne] using this
    by_cases hsym : deref mem t.q ∈ symbols
    · obtain ⟨s1, s2⟩ := g7 hlt hsym
      refine ⟨symTok (deref mem t.q), ?_, ?_, by omega, ?_⟩
      · rw [e1, rest_cons h hlt, tokenize_sym _ _ hnw ((strchr_iff _ _ hne).2 hsym),
          ← e2, s2]
      · rw [s1, symTok_code hsym]
      · intro w hw; exact absurd hw (symTok_ne_word _ _)
    · obtain ⟨w1, w2, w3, w4, w5⟩ := g8 hlt hsym
      have hl := h.le_length
      have hword : isWord (mkcopy mem t.q t.eq) = true := by
        simp only [isWord, Bool.and_eq_true, Bool.not_eq_true', List.isEmpty_eq_false]
        constructor
        · intro hnil
          rw [mkcopy_cons w2 (by omega) hne] at hnil
          cases hnil
        · apply mkcopy_all isWordChar (t.eq - t.q) t.q t.eq (by omega) (by omega)
          intro i hi1 hi2
          have := w4 i hi1 hi2
          exact ⟨h.1 i (by omega), (isWordChar_iff _).2 ⟨h.1 i (by omega), this.1, this.2⟩⟩
      refine ⟨Tok.word (mkcopy mem t.q t.eq), ?_, ?_, by omega, ?_⟩
      · rw [e1, rest_word h (t.eq - t.q) t.q t.eq (by omega) w3, tokenize_word _ _ hword, e2]
        intro c hc
        rcases Nat.lt_or_ge t.eq es with hlt2 | hge2
        · rw [rest_cons h hlt2] at hc
          simp only [List.head?_cons, Option.some.injEq] at hc
          rw [← hc]
          exact isWordChar_false_of (w5 hlt2)
        · rw [rest_nil _ _ _ hge2] at hc
          simp at hc
      · rw [w1]; rfl
      · intro w hw
        simp only [Tok.word.injEq] at hw
        exact hw.symm
  · left
    have hqe : t.q = es := by omega
    have heq := g6 hqe
    refine ⟨g5.2 hqe, ?_, by omega⟩
    rw [e1, rest_nil _ _ _ hge]
    rfl

/-- What `peek` does, in terms of the tokens of the remaining input, for a
set of symbols. -/
theorem peek_tokens {mem : List Char} {es : Nat} (h : CStr mem es) {ps : Nat}
    (hps : ps ≤ es) (toks : List Char) (htoks : ∀ c, c ∈ toks → c ∈ symbols) :
    ps ≤ (peek mem ps es toks).2 ∧ (peek mem ps es toks).2 ≤ es ∧
    tokenize (rest mem es (peek mem ps es toks).2) = tokenize (rest mem es ps) ∧
    (peek mem ps es toks).1 = peekT (tokenize (rest mem es ps)) toks ∧
    (tokenize (rest mem es ps) = [] → (peek mem ps es toks).2 = es) := by
  obtain ⟨p1, p2, -, p4, p5, p6⟩ := peek_facts mem ps es toks h.1 h.2 hps
  obtain ⟨-, -, a3, -⟩ := skipws_spec mem es ps
  have hp2 : (peek mem ps es toks).2 = skipws mem es ps := rfl
  have hq : (gettoken mem ps es).q = skipws mem es ps := rfl
  have e1 : tokenize (rest mem es ps) = tokenize (rest mem es (peek mem ps es toks).2) :=
    tokenize_rest_ws h ((peek mem ps es toks).2 - ps) ps _ (by omega) p2 a3
  obtain ⟨g1, g2, -, g4, g5, g6, g7, g8, -⟩ := gettoken_facts mem ps es h.1 h.2 hps
  obtain ⟨-, gt⟩ := gettoken_tokens h hps
  rw [hq, ← hp2] at g5 g7 g8
  refine ⟨p1, p2, e1.symm, ?_, ?_⟩
  · rcases gt with ⟨t1, t2, -⟩ | ⟨tk, t1, t2, -, -⟩
    · rw [t2]
      have : (peek mem ps es toks).2 = es := g5.1 t1
      have hf : ¬ ((peek mem ps es toks).1 = true) := by
        rw [p5]; omega
      simpa [peekT] using hf
    · rw [t1]
      have hlt : (peek mem ps es toks).2 < es := by
        rcases Nat.lt_or_ge (peek mem ps es toks).2 es with hlt | hge
        · exact hlt
        · have := g5.2 (by omega)
          rw [t2] at this
          exact absurd this (Tok.code_ne_NUL _)
      by_cases hsym : deref mem (peek mem ps es toks).2 ∈ symbols
      · have hc := (g7 hlt hsym).1
        rw [t2] at hc
        have hnw : ∀ w, tk ≠ Tok.word w := by
          intro w hw
          rw [hw] at hc
          simp only [Tok.code] at hc
          rw [← hc] at hsym
          simp [symbols] at hsym
        have hpk : peekT (tk :: tokenize (rest mem es (gettoken mem ps es).ps)) toks
            = toks.contains tk.code := by
          cases tk with
          | word w => exact absurd rfl (hnw w)
          | less => rfl
          | greater => rfl
          | bar => rfl
        rw [hpk, hc]
        by_cases hin : deref mem (peek mem ps es toks).2 ∈ toks
        · rw [p5.2 ⟨hlt, hin⟩]; simp [hin]
        · have : ¬ ((peek mem ps es toks).1 = true) := fun hh => hin (p5.1 hh).2
          simp only [Bool.not_eq_true] at this
          rw [this]; simp [hin]
      · have hc := (g8 hlt hsym).1
        rw [t2] at hc
        obtain ⟨w, hw⟩ := (Tok.code_eq_a_iff tk).1 hc
        rw [hw]
        have : ¬ ((peek mem ps es toks).1 = true) := fun hh => hsym (htoks _ (p5.1 hh).2)
        simpa [peekT] using this
  · intro hnil
    rcases gt with ⟨t1, -, -⟩ | ⟨tk, t1, -⟩
    · exact g5.1 t1
    · rw [hnil] at t1; simp at t1

theorem gettoken_nil {mem : List Char} {es : Nat} (h : CStr mem es) {ps : Nat}
    (hps : ps ≤ es) (hts : tokenize (rest mem es ps) = []) :
    (gettoken mem ps es).ret = NUL ∧ (gettoken mem ps es).ps = es := by
  rcases (gettoken_tokens h hps).2 with ⟨t1, -, t3⟩ | ⟨tk, t1, -⟩
  · exact ⟨t1, t3⟩
  · rw [hts] at t1; simp at t1

theorem gettoken_cons {mem : List Char} {es : Nat} (h : CStr mem es) {ps : Nat}
    (hps : ps ≤ es) {tk : Tok} {ts : List Tok} (hts : tokenize (rest mem es ps) = tk :: ts) :
    (gettoken mem ps es).ret = tk.code ∧ tokenize (rest mem es (gettoken mem ps es).ps) = ts ∧
    ps < (gettoken mem ps es).ps ∧ (gettoken mem ps es).ps ≤ es ∧
    (∀ w, tk = Tok.word w →
      mkcopy mem (gettoken mem ps es).q (gettoken mem ps es).eq = w) := by
  obtain ⟨hle, ht⟩ := gettoken_tokens h hps
  rcases ht with ⟨-, t2, -⟩ | ⟨tk1, t1, t2, t3, t4⟩
  · rw [hts] at t2; simp at t2
  · rw [hts] at t1
    simp only [List.cons.injEq] at t1
    obtain ⟨rfl, rfl⟩ := t1
    exact ⟨t2, rfl, t3, hle, fun w hw => (t4 w hw).symm⟩

theorem redir_toks_symbols : ∀ c, c ∈ ['<', '>'] → c ∈ symbols := by decide
theorem bar_toks_symbols : ∀ c, c ∈ ['|'] → c ∈ symbols := by decide

theorem Sim.mono {mem : List Char} {es ps ps0 : Nat} {r : PResult (Cmd × Nat)}
    {t : PResult (Cmd × List Tok)} (h : Sim mem es ps r t) (hle : ps0 ≤ ps) :
    Sim mem es ps0 r t := by
  cases r with
  | ok a =>
    cases t with
    | ok b =>
      obtain ⟨c, p⟩ := a
      obtain ⟨c1, ts⟩ := b
      simp only [Sim] at h ⊢
      exact ⟨h.1, by omega, h.2.2.1, h.2.2.2⟩
    | fail e => cases a; simp [Sim] at h
    | diverge => cases a; simp [Sim] at h
  | fail e =>
    cases t with
    | ok b => simp [Sim] at h
    | fail e1 => simpa [Sim] using h
    | diverge => simp [Sim] at h
  | diverge => simp [Sim] at h

/-- The loop of `parseredirs` computes `redirsT` on the tokens. -/
theorem parseredirsLoop_sim {mem : List Char} {es : Nat} (h : CStr mem es) :
    ∀ f cmd ps, ps ≤ es → es - ps < f →
      Sim mem es ps (parseredirsLoop mem es f cmd ps)
        (redirsT cmd (tokenize (rest mem es ps))) := by
  intro f
  induction f with
  | zero => intro cmd ps _ hf; omega
  | succ f ih =>
    intro cmd ps hps hf
    obtain ⟨p1, p2, p3, p4, -⟩ := peek_tokens h hps ['<', '>'] redir_toks_symbols
    simp only [parseredirsLoop]
    rw [p4]
    generalize hpk : (peek mem ps es ['<', '>']).2 = s at p1 p2 p3
    generalize hts : tokenize (rest mem es ps) = ts at p3
    -- the tokens at the cursor decide
    have redir_case : ∀ (tk : Tok) (c : Char) (ts1 : List Tok), ts = tk :: ts1 →
        tk.code = c → (c = '<' ∨ c = '>') →
        (∀ cmd1 w ts2, redirsT cmd1 (tk :: Tok.word w :: ts2) = redirsT (redircmd cmd1 w c) ts2) →
        (∀ cmd1, (∀ w ts2, ts1 ≠ Tok.word w :: ts2) →
          redirsT cmd1 (tk :: ts1) = PResult.fail PErr.missingFile) →
        Sim mem es ps
          (if peekT ts ['<', '>'] = true then
            if (gettoken mem (gettoken mem s es).ps es).ret ≠ 'a' then
              PResult.fail PErr.missingFile
            else
              parseredirsLoop mem es f
                (if (gettoken mem s es).ret = '<' then
                  redircmd cmd (mkcopy mem (gettoken mem (gettoken mem s es).ps es).q
                    (gettoken mem (gettoken mem s es).ps es).eq) '<'
                else if (gettoken mem s es).ret = '>' then
                  redircmd cmd (mkcopy mem (gettoken mem (gettoken mem s es).ps es).q
                    (gettoken mem (gettoken mem s es).ps es).eq) '>'
                else cmd)
                (gettoken mem (gettoken mem s es).ps es).ps
          else PResult.ok (cmd, s))
          (redirsT cmd ts) := by
      intro tk c ts1 hts1 hcode hc hstep hfail
      subst hts1
      have hpeek : peekT (tk :: ts1) ['<', '>'] = true := by
        cases tk with
        | word w => simp [Tok.code] at hcode; subst hcode; simp at hc
        | less => rfl
        | greater => rfl
        | bar => simp [Tok.code] at hcode; subst hcode; simp at hc
      rw [if_pos hpeek]
      obtain ⟨g1, g2, g3, g4, -⟩ := gettoken_cons h p2 p3
      cases ts1 with
      | nil =>
        obtain ⟨n1, n2⟩ := gettoken_nil h g4 g2
        rw [if_pos (by rw [n1]; decide), hfail cmd (by simp)]
        simp [Sim]
      | cons tk2 ts2 =>
        obtain ⟨k1, k2, k3, k4, k5⟩ := gettoken_cons h g4 g2
        by_cases hw : ∃ w, tk2 = Tok.word w
        · obtain ⟨w, rfl⟩ := hw
          rw [if_neg (by rw [k1]; simp [Tok.code]), k5 w rfl, hstep, g1, hcode]
          have hcmd : (if c = '<' then redircmd cmd w '<'
              else if c = '>' then redircmd cmd w '>' else cmd) = redircmd cmd w c := by
            rcases hc with rfl | rfl
            · simp
            · simp
          rw [hcmd]
          have := ih (redircmd cmd w c) _ k4 (by omega)
          rw [k2] at this
          exact this.mono (by omega)
        · have hne : (gettoken mem (gettoken mem s es).ps es).ret ≠ 'a' := by
            rw [k1]
            intro hh
            exact hw ((Tok.code_eq_a_iff _).1 hh)
          rw [if_pos hne, hfail cmd (by
            intro w ts3 hh
            simp only [List.cons.injEq] at hh
            exact hw ⟨w, hh.1⟩)]
          simp [Sim]
    have other_case : peekT ts ['<', '>'] = false → redirsT cmd ts = PResult.ok (cmd, ts) →
        Sim mem es ps
          (if peekT ts ['<', '>'] = true then
            if (gettoken mem (gettoken mem s es).ps es).ret ≠ 'a' then
              PResult.fail PErr.missingFile
            else
              parseredirsLoop mem es f
                (if (gettoken mem s es).ret = '<' then
                  redircmd cmd (mkcopy mem (gettoken mem (gettoken mem s es).ps es).q
                    (gettoken mem (gettoken mem s es).ps es).eq) '<'
                else if (gettoken mem s es).ret = '>' then
                  redircmd cmd (mkcopy mem (gettoken mem (gettoken mem s es).ps es).q
                    (gettoken mem (gettoken mem s es).ps es).eq) '>'
                else cmd)
                (gettoken mem (gettoken mem s es).ps es).ps
          else PResult.ok (cmd, s))
          (redirsT cmd ts) := by
      intro hpeek hred
      rw [hpeek, hred]
      simp only [Bool.false_eq_true, if_false, Sim]
      exact ⟨trivial, p1, p2, p3⟩
    cases ts with
    | nil => exact other_case rfl (by simp [redirsT])
    | cons tk ts1 =>
      cases tk with
      | word w => exact other_case rfl (by simp [redirsT])
      | bar => exact other_case rfl (by simp [redirsT])
      | less =>
        refine redir_case Tok.less '<' ts1 rfl rfl (Or.inl rfl) (fun _ _ _ => by simp [redirsT]) ?_
        intro cmd1 hnw
        cases ts1 with
        | nil => simp [redirsT]
        | cons t2 ts2 =>
          cases t2 with
          | word w => exact absurd rfl (hnw w ts2)
          | less => simp [redirsT]
          | greater => simp [redirsT]
          | bar => simp [redirsT]
      | greater =>
        refine redir_case Tok.greater '>' ts1 rfl rfl (Or.inr rfl)
          (fun _ _ _ => by simp [redirsT]) ?_
        intro cmd1 hnw
        cases ts1 with
        | nil => simp [redirsT]
        | cons t2 ts2 =>
          cases t2 with
          | word w => exact absurd rfl (hnw w ts2)
          | less => simp [redirsT]
          | greater => simp [redirsT]
          | bar => simp [redirsT]

/-! ### One command -/

theorem redirsT_noRedir (cmd : Cmd) (ts : List Tok) :
    ∀ c ts1, redirsT cmd ts = PResult.ok (c, ts1) → peekT ts1 ['<', '>'] = false := by
  induction cmd, ts using redirsT.induct with
  | case1 cmd w ts ih => intro c ts1 h; rw [redirsT] at h; exact ih c ts1 h
  | case2 cmd w ts ih => intro c ts1 h; rw [redirsT] at h; exact ih c ts1 h
  | case3 cmd tail hn =>
    intro c ts1 h
    rw [redirsT] at h
    · cases h
    · exact hn
  | case4 cmd tail hn =>
    intro c ts1 h
    rw [redirsT] at h
    · cases h
    · exact hn
  | case5 cmd ts h1 h2 h3 h4 =>
    intro c ts1 h
    rw [redirsT] at h
    · simp only [PResult.ok.injEq, Prod.mk.injEq] at h
      obtain ⟨-, rfl⟩ := h
      cases ts with
      | nil => rfl
      | cons t ts2 =>
        cases t with
        | word w => rfl
        | bar => rfl
        | less => exact absurd rfl (h3 ts2)
        | greater => exact absurd rfl (h4 ts2)
    · exact h1
    · exact h2
    · exact h3
    · exact h4

/-- One command is its leading redirections followed by the rest. -/
theorem cmdT_redirs (cmd : Cmd) (ts : List Tok) (argc : Nat) :
    cmdT cmd argc ts =
      match redirsT cmd ts with
      | PResult.ok (r, ts1) => cmdT r argc ts1
      | PResult.fail e => PResult.fail e
      | PResult.diverge => PResult.diverge := by
  induction cmd, ts using redirsT.induct with
  | case1 cmd w ts ih => rw [redirsT, cmdT]; exact ih
  | case2 cmd w ts ih => rw [redirsT, cmdT]; exact ih
  | case3 cmd tail hn =>
    rw [redirsT, cmdT]
    · exact hn
    · exact hn
  | case4 cmd tail hn =>
    rw [redirsT, cmdT]
    · exact hn
    · exact hn
  | case5 cmd ts h1 h2 h3 h4 =>
    rw [redirsT]
    · exact h1
    · exact h2
    · exact h3
    · exact h4

theorem parseredirs_sim {mem : List Char} {es : Nat} (h : CStr mem es) (cmd : Cmd) (ps : Nat)
    (hps : ps ≤ es) :
    Sim mem es ps (parseredirs mem cmd ps es) (redirsT cmd (tokenize (rest mem es ps))) :=
  parseredirsLoop_sim h _ cmd ps hps (by omega)

/-- The loop of `parseexec` computes `cmdT` on the tokens. -/
theorem parseexecLoop_sim {mem : List Char} {es : Nat} (h : CStr mem es) :
    ∀ f ret argc ps, ps ≤ es → es - ps < f →
      peekT (tokenize (rest mem es ps)) ['<', '>'] = false →
      Sim mem es ps (parseexecLoop mem es f ret argc ps)
        (cmdT ret argc (tokenize (rest mem es ps))) := by
  intro f
  induction f with
  | zero => intro ret argc ps _ hf; omega
  | succ f ih =>
    intro ret argc ps hps hf hnr
    obtain ⟨p1, p2, p3, p4, -⟩ := peek_tokens h hps ['|'] bar_toks_symbols
    simp only [parseexecLoop]
    rw [p4]
    generalize hpk : (peek mem ps es ['|']).2 = s at p1 p2 p3
    generalize hts : tokenize (rest mem es ps) = ts at p3 hnr
    cases ts with
    | nil =>
      obtain ⟨n1, n2⟩ := gettoken_nil h p2 p3
      simp only [peekT, Bool.not_false, if_true, n1, cmdT, Sim, n2]
      exact ⟨trivial, hps, le_refl _, by rw [rest_nil _ _ _ (le_refl _)]; rfl⟩
    | cons tk ts1 =>
      cases tk with
      | less => simp [peekT, Tok.code] at hnr
      | greater => simp [peekT, Tok.code] at hnr
      | bar =>
        have : peekT (Tok.bar :: ts1) ['|'] = true := rfl
        simp only [this, Bool.not_true, Bool.false_eq_true, if_false, cmdT, Sim]
        exact ⟨trivial, p1, p2, p3⟩
      | word w =>
        obtain ⟨g1, g2, g3, g4, g5⟩ := gettoken_cons h p2 p3
        have hpk2 : peekT (Tok.word w :: ts1) ['|'] = false := rfl
        have hret : (gettoken mem s es).ret = 'a' := g1
        simp only [hpk2, Bool.not_false, if_true, hret, g5 w rfl]
        rw [if_neg (by decide), if_neg (by simp), cmdT]
        by_cases hargs : argc + 1 ≥ MAXARGS
        · rw [if_pos hargs, if_pos hargs]
          simp [Sim]
        · rw [if_neg hargs, if_neg hargs, cmdT_redirs]
          have hsim := parseredirs_sim h (ret.storeArg argc (some w)) _ g4
          rw [g2] at hsim
          have hno := redirsT_noRedir (ret.storeArg argc (some w)) ts1
          generalize parseredirs mem (ret.storeArg argc (some w)) (gettoken mem s es).ps es
            = r at hsim
          generalize redirsT (ret.storeArg argc (some w)) ts1 = rt at hsim hno
          cases r with
          | ok a =>
            cases rt with
            | ok b =>
              obtain ⟨c, ps2⟩ := a
              obtain ⟨c1, ts2⟩ := b
              simp only [Sim] at hsim
              obtain ⟨rfl, s2, s3, s4⟩ := hsim
              simp only
              have := ih c (argc + 1) ps2 s3 (by omega) (by rw [s4]; exact hno c ts2 rfl)
              rw [s4] at this
              exact this.mono (by omega)
            | fail e => cases a; simp [Sim] at hsim
            | diverge => cases a; simp [Sim] at hsim
          | fail e =>
            cases rt with
            | ok b => simp [Sim] at hsim
            | fail e1 => simpa [Sim] using hsim
            | diverge => simp [Sim] at hsim
          | diverge => simp [Sim] at hsim

/-- The function `parseexec` computes `cmdT` on the tokens. -/
theorem parseexec_sim {mem : List Char} {es : Nat} (h : CStr mem es) (ps : Nat)
    (hps : ps ≤ es) :
    Sim mem es ps (parseexec mem ps es) (cmdT execcmd 0 (tokenize (rest mem es ps))) := by
  unfold parseexec
  rw [cmdT_redirs]
  have hsim := parseredirs_sim h execcmd ps hps
  have hno := redirsT_noRedir execcmd (tokenize (rest mem es ps))
  generalize parseredirs mem execcmd ps es = r at hsim
  generalize redirsT execcmd (tokenize (rest mem es ps)) = rt at hsim hno
  cases r with
  | ok a =>
    cases rt with
    | ok b =>
      obtain ⟨c, ps2⟩ := a
      obtain ⟨c1, ts2⟩ := b
      simp only [Sim] at hsim
      obtain ⟨rfl, s2, s3, s4⟩ := hsim
      simp only
      have := parseexecLoop_sim h (es - ps2 + 1) c 0 ps2 s3 (by omega)
        (by rw [s4]; exact hno c ts2 rfl)
      rw [s4] at this
      exact this.mono s2
    | fail e => cases a; simp [Sim] at hsim
    | diverge => cases a; simp [Sim] at hsim
  | fail e =>
    cases rt with
    | ok b => simp [Sim] at hsim
    | fail e1 => simpa [Sim] using hsim
    | diverge => simp [Sim] at hsim
  | diverge => simp [Sim] at hsim

/-! ### The pipeline and the whole line -/

theorem cmdT_left (ret : Cmd) (argc : Nat) (ts : List Tok) :
    ∀ c ts1, cmdT ret argc ts = PResult.ok (c, ts1) → ts1 = [] ∨ ∃ ts2, ts1 = Tok.bar :: ts2 := by
  induction ret, argc, ts using cmdT.induct with
  | case1 ret argc =>
    intro c ts1 h; simp only [cmdT, PResult.ok.injEq, Prod.mk.injEq] at h; exact Or.inl h.2.symm
  | case2 ret argc ts =>
    intro c ts1 h; simp only [cmdT, PResult.ok.injEq, Prod.mk.injEq] at h
    exact Or.inr ⟨ts, h.2.symm⟩
  | case3 ret argc w ts hge => intro c ts1 h; rw [cmdT, if_pos hge] at h; cases h
  | case4 ret argc w ts hge ih => intro c ts1 h; rw [cmdT, if_neg hge] at h; exact ih c ts1 h
  | case5 ret argc w ts ih => intro c ts1 h; rw [cmdT] at h; exact ih c ts1 h
  | case6 ret argc w ts ih => intro c ts1 h; rw [cmdT] at h; exact ih c ts1 h
  | case7 ret argc tail hn =>
    intro c ts1 h
    rw [cmdT] at h
    · cases h
    · exact hn
  | case8 ret argc tail hn =>
    intro c ts1 h
    rw [cmdT] at h
    · cases h
    · exact hn

/-- A pipeline is its first command followed, after a bar, by a pipeline. -/
theorem lineT_cmdT (ret : Cmd) (argc : Nat) (ts : List Tok) :
    lineT ret argc ts =
      match cmdT ret argc ts with
      | PResult.ok (c, Tok.bar :: ts1) => (lineT execcmd 0 ts1).map (pipecmd c)
      | PResult.ok (c, _) => PResult.ok c
      | PResult.fail e => PResult.fail e
      | PResult.diverge => PResult.diverge := by
  induction ret, argc, ts using cmdT.induct with
  | case1 ret argc => simp [lineT, cmdT]
  | case2 ret argc ts => simp [lineT, cmdT]
  | case3 ret argc w ts hge => rw [cmdT, lineT, if_pos hge, if_pos hge]
  | case4 ret argc w ts hge ih => rw [cmdT, lineT, if_neg hge, if_neg hge]; exact ih
  | case5 ret argc w ts ih => rw [cmdT, lineT]; exact ih
  | case6 ret argc w ts ih => rw [cmdT, lineT]; exact ih
  | case7 ret argc tail hn =>
    rw [cmdT, lineT]
    · exact hn
    · exact hn
  | case8 ret argc tail hn =>
    rw [cmdT, lineT]
    · exact hn
    · exact hn

/-- The recursion of `parsepipe` computes `lineT` on the tokens and leaves
no token. -/
theorem parsepipeFuel_sim {mem : List Char} {es : Nat} (h : CStr mem es) :
    ∀ f ps, ps ≤ es → es - ps < f →
      Sim mem es ps (parsepipeFuel mem es f ps)
        ((lineT execcmd 0 (tokenize (rest mem es ps))).map (fun c => (c, []))) := by
  intro f
  induction f with
  | zero => intro ps _ hf; omega
  | succ f ih =>
    intro ps hps hf
    simp only [parsepipeFuel]
    rw [lineT_cmdT]
    have hsim := parseexec_sim h ps hps
    have hleft := cmdT_left execcmd 0 (tokenize (rest mem es ps))
    generalize parseexec mem ps es = r at hsim
    generalize cmdT execcmd 0 (tokenize (rest mem es ps)) = rt at hsim hleft
    cases r with
    | ok a =>
      cases rt with
      | ok b =>
        obtain ⟨c, ps1⟩ := a
        obtain ⟨c1, ts1⟩ := b
        simp only [Sim] at hsim
        obtain ⟨rfl, s2, s3, s4⟩ := hsim
        obtain ⟨p1, p2, p3, p4, -⟩ := peek_tokens h s3 ['|'] bar_toks_symbols
        simp only
        rw [p4, s4]
        generalize hpk : (peek mem ps1 es ['|']).2 = s at p1 p2 p3
        rw [s4] at p3
        rcases hleft c ts1 rfl with rfl | ⟨ts2, rfl⟩
        · simp only [peekT, Bool.false_eq_true, if_false, PResult.map, Sim]
          exact ⟨trivial, by omega, p2, p3⟩
        · have hpeek : peekT (Tok.bar :: ts2) ['|'] = true := rfl
          obtain ⟨g1, g2, g3, g4, -⟩ := gettoken_cons h p2 p3
          simp only [hpeek, if_true]
          have hrec := ih (gettoken mem s es).ps g4 (by omega)
          rw [g2] at hrec
          generalize parsepipeFuel mem es f (gettoken mem s es).ps = r2 at hrec
          generalize lineT execcmd 0 ts2 = l2 at hrec
          cases r2 with
          | ok a2 =>
            cases l2 with
            | ok b2 =>
              obtain ⟨c2, ps2⟩ := a2
              simp only [PResult.map, Sim] at hrec ⊢
              obtain ⟨rfl, r2, r3, r4⟩ := hrec
              exact ⟨rfl, by omega, r3, r4⟩
            | fail e => cases a2; simp [PResult.map, Sim] at hrec
            | diverge => cases a2; simp [PResult.map, Sim] at hrec
          | fail e =>
            cases l2 with
            | ok b2 => simp [PResult.map, Sim] at hrec
            | fail e1 => simpa [PResult.map, Sim] using hrec
            | diverge => simp [PResult.map, Sim] at hrec
          | diverge => simp [Sim] at hrec
      | fail e => cases a; simp [Sim] at hsim
      | diverge => cases a; simp [Sim] at hsim
    | fail e =>
      cases rt with
      | ok b => simp [Sim] at hsim
      | fail e1 => simpa [PResult.map, Sim] using hsim
      | diverge => simp [Sim] at hsim
    | diverge => simp [Sim] at hsim

theorem deref_cons_succ (c : Char) (cs : List Char) (i : Nat) :
    deref (c :: cs) (i + 1) = deref cs i := by
  simp [deref, List.getD]

theorem deref_cons_zero (c : Char) (cs : List Char) : deref (c :: cs) 0 = c := by
  simp [deref, List.getD]

/-- The end boundary that `parsecmd` computes delimits a C string. -/
theorem CStr_strlen (mem : List Char) : CStr mem (strlen mem) := by
  induction mem with
  | nil => exact ⟨fun i hi => by simp [strlen] at hi, rfl⟩
  | cons c cs ih =>
    by_cases hc : c = NUL
    · have : strlen (c :: cs) = 0 := by simp [strlen, hc]
      rw [this]
      exact ⟨fun i hi => by omega, by rw [deref_cons_zero]; exact hc⟩
    · have : strlen (c :: cs) = strlen cs + 1 := by simp [strlen, hc]
      rw [this]
      refine ⟨?_, by rw [deref_cons_succ]; exact ih.2⟩
      intro i hi
      cases i with
      | zero => rw [deref_cons_zero]; exact hc
      | succ i => rw [deref_cons_succ]; exact ih.1 i (by omega)

theorem rest_zero (mem : List Char) :
    rest mem (strlen mem) 0 = mem.takeWhile (fun c => c != NUL) := by
  simp only [rest, List.drop_zero, strlen]
  induction mem with
  | nil => rfl
  | cons c cs ih =>
    by_cases hc : c = NUL
    · simp [hc]
    · simp [hc, ih]

/-- The parser of the program computes `lineT` on the tokens of the line. -/
theorem parsecmd_eq_lineT (mem : List Char) :
    parsecmd mem = lineT execcmd 0 (tokenize (mem.takeWhile (fun c => c != NUL))) := by
  have h := CStr_strlen mem
  unfold parsecmd parseline parsepipe
  simp only [Nat.zero_add]
  have hsim := parsepipeFuel_sim h (strlen mem - 0 + 1) 0 (Nat.zero_le _) (by omega)
  rw [rest_zero] at hsim
  generalize parsepipeFuel mem (strlen mem) (strlen mem - 0 + 1) 0 = r at hsim
  generalize lineT execcmd 0 (tokenize (mem.takeWhile (fun c => c != NUL))) = l at hsim
  cases r with
  | ok a =>
    cases l with
    | ok b =>
      obtain ⟨c, ps⟩ := a
      simp only [PResult.map, Sim] at hsim
      obtain ⟨rfl, -, s3, s4⟩ := hsim
      obtain ⟨-, -, -, -, p5⟩ := peek_tokens h s3 [] (by simp)
      simp only
      rw [if_neg (by simp [p5 s4])]
    | fail e => cases a; simp [PResult.map, Sim] at hsim
    | diverge => cases a; simp [PResult.map, Sim] at hsim
  | fail e =>
    cases l with
    | ok b => simp [PResult.map, Sim] at hsim
    | fail e1 =>
      simp only [PResult.map, Sim] at hsim
      rw [hsim]
    | diverge => simp [PResult.map, Sim] at hsim
  | diverge => simp [Sim] at hsim

theorem takeWhile_nonul (mem : List Char) (h : NUL ∉ mem) :
    mem.takeWhile (fun c => c != NUL) = mem := by
  rw [List.takeWhile_eq_self_iff]
  intro c hc
  simp only [bne_iff_ne, ne_eq]
  intro hh
  exact h (hh ▸ hc)

theorem parsecmd_eq_lineT_of_nonul (mem : List Char) (h : NUL ∉ mem) :
    parsecmd mem = lineT execcmd 0 (tokenize mem) := by
  rw [parsecmd_eq_lineT, takeWhile_nonul mem h]

/-! ### The shape of a parsed command -/

theorem storeArg_wrapRedirs (A : List (Option (List Char))) (rs : List Redir) (i : Nat)
    (v : Option (List Char)) :
    (wrapRedirs (Cmd.exec A) rs).storeArg i v = wrapRedirs (Cmd.exec (A.set i v)) rs := by
  induction rs using List.reverseRecOn with
  | nil => rfl
  | append_singleton rs r ih =>
    simp only [wrapRedirs, List.foldl_append, List.foldl_cons, List.foldl_nil] at ih ⊢
    rw [redircmd, Cmd.storeArg, ih, redircmd]

theorem wrapRedirs_snoc (c : Cmd) (rs : List Redir) (r : Redir) :
    wrapRedirs c (rs ++ [r]) = redircmd (wrapRedirs c rs) r.2 r.1 := by
  simp [wrapRedirs]

theorem argvOf_set_some (pre : List (List Char)) (w : List Char) (h : pre.length < MAXARGS) :
    (argvOf pre).set pre.length (some w) = argvOf (pre ++ [w]) := by
  unfold argvOf
  have : MAXARGS - pre.length = (MAXARGS - (pre ++ [w]).length) + 1 := by
    simp only [List.length_append, List.length_singleton]; omega
  rw [this, List.replicate_succ]
  rw [List.set_append_right _ _ (by simp)]
  simp

theorem argvOf_set_none (pre : List (List Char)) (h : pre.length < MAXARGS) :
    (argvOf pre).set pre.length none = argvOf pre := by
  unfold argvOf
  have : MAXARGS - pre.length = (MAXARGS - pre.length - 1) + 1 := by omega
  rw [this, List.replicate_succ]
  rw [List.set_append_right _ _ (by simp)]
  simp

/-- The tree of one command with well-formed redirections and few enough
arguments: the arguments in order in one `execcmd`, wrapped in the
redirections in the order in which they are written. -/
theorem lineT_shape (ts : List Tok) :
    ∀ (pre : List (List Char)) (rs : List Redir),
      Tok.bar ∉ ts → wfRedirs ts = true → pre.length + (argWords ts).length < MAXARGS →
      lineT (wrapRedirs (Cmd.exec (argvOf pre)) rs) pre.length ts
        = PResult.ok (wrapRedirs (Cmd.exec (argvOf (pre ++ argWords ts))) (rs ++ redirsOf ts)) := by
  induction ts using wfRedirs.induct with
  | case1 =>
    intro pre rs _ _ hlen
    simp only [argWords, List.length_nil, Nat.add_zero] at hlen
    simp [lineT, argWords, redirsOf, storeArg_wrapRedirs, argvOf_set_none pre hlen]
  | case2 w ts ih =>
    intro pre rs hbar hwf hlen
    simp only [wfRedirs] at hwf
    simp only [argWords] at hlen
    rw [lineT, ← wrapRedirs_snoc _ _ ('<', w), ih pre _ (by simp at hbar ⊢; exact hbar) hwf hlen]
    simp [argWords, redirsOf]
  | case3 w ts ih =>
    intro pre rs hbar hwf hlen
    simp only [wfRedirs] at hwf
    simp only [argWords] at hlen
    rw [lineT, ← wrapRedirs_snoc _ _ ('>', w), ih pre _ (by simp at hbar ⊢; exact hbar) hwf hlen]
    simp [argWords, redirsOf]
  | case4 tail hn =>
    intro pre rs _ hwf _
    rw [wfRedirs] at hwf
    · cases hwf
    · exact hn
  | case5 tail hn =>
    intro pre rs _ hwf _
    rw [wfRedirs] at hwf
    · cases hwf
    · exact hn
  | case6 t ts h1 h2 h3 h4 ih =>
    intro pre rs hbar hwf hlen
    cases t with
    | less => exact absurd rfl h3
    | greater => exact absurd rfl h4
    | bar => simp at hbar
    | word w =>
      simp only [wfRedirs] at hwf
      simp only [argWords, List.length_cons] at hlen
      rw [lineT, if_neg (by omega), storeArg_wrapRedirs, argvOf_set_some pre w (by omega)]
      have := ih (pre ++ [w]) rs (by simp at hbar ⊢; exact hbar) hwf
        (by simp only [List.length_append, List.length_singleton]; omega)
      simp only [List.length_append, List.length_singleton] at this
      rw [this]
      simp [argWords, redirsOf]

/-! ### Lines made of words -/

theorem isWord_of {w : List Char}
    (h : w ≠ [] ∧ ∀ c ∈ w, c ≠ NUL ∧ c ∉ whitespace ∧ c ∉ symbols) : isWord w = true := by
  simp only [isWord, Bool.and_eq_true, Bool.not_eq_true', List.isEmpty_eq_false,
    List.all_eq_true]
  exact ⟨by simpa using h.1, fun c hc => (isWordChar_iff c).2 (h.2 c hc)⟩

theorem isWord_nonul {w : List Char} (h : isWord w = true) : NUL ∉ w := by
  simp only [isWord, Bool.and_eq_true, List.all_eq_true] at h
  intro hin
  have := h.2 NUL hin
  simp [isWordChar, strchr] at this

theorem isWordChar_space : isWordChar ' ' = false := by decide

theorem tokenize_joinWords (ws : List (List Char)) (h : ∀ w ∈ ws, isWord w = true) :
    tokenize (joinWords ws) = ws.map Tok.word := by
  induction ws with
  | nil => rfl
  | cons w ws ih =>
    cases ws with
    | nil =>
      have := tokenize_word w [] (h w (by simp)) (by simp)
      simpa [joinWords] using this
    | cons w2 ws2 =>
      have hw := h w (by simp)
      have ih := ih (fun x hx => h x (by simp at hx ⊢; exact Or.inr hx))
      have hsp : strchr whitespace ' ' = true := by decide
      rw [joinWords, tokenize_word w _ hw (by
        intro c hc
        simp only [List.head?_cons, Option.some.injEq] at hc
        rw [← hc]; exact isWordChar_space), tokenize_ws _ _ hsp, ih]
      · rfl
      · simp

theorem joinWords_nonul (ws : List (List Char)) (h : ∀ w ∈ ws, isWord w = true) :
    NUL ∉ joinWords ws := by
  induction ws with
  | nil => simp [joinWords]
  | cons w ws ih =>
    cases ws with
    | nil => simpa [joinWords] using isWord_nonul (h w (by simp))
    | cons w2 ws2 =>
      have ih := ih (fun x hx => h x (by simp at hx ⊢; exact Or.inr hx))
      rw [joinWords]
      · simp only [List.mem_append, List.mem_cons, not_or]
        exact ⟨isWord_nonul (h w (by simp)), by decide, ih⟩
      · simp

theorem argWords_words (ws : List (List Char)) : argWords (ws.map Tok.word) = ws := by
  induction ws with
  | nil => rfl
  | cons w ws ih => simp [argWords, ih]

theorem redirsOf_words (ws : List (List Char)) : redirsOf (ws.map Tok.word) = [] := by
  induction ws with
  | nil => rfl
  | cons w ws ih => simp [redirsOf, ih]

theorem wfRedirs_words (ws : List (List Char)) : wfRedirs (ws.map Tok.word) = true := by
  induction ws with
  | nil => rfl
  | cons w ws ih => simp [wfRedirs, ih]

theorem bar_not_mem_words (ws : List (List Char)) : Tok.bar ∉ ws.map Tok.word := by
  simp

theorem argvList_argvOf (ws : List (List Char)) : argvList (argvOf ws) = ws := by
  unfold argvOf
  induction ws with
  | nil =>
    simp only [List.map_nil, List.length_nil, Nat.sub_zero, List.nil_append]
    rfl
  | cons w ws ih =>
    simp only [List.map_cons, List.cons_append, argvList, List.cons.injEq, true_and]
    have : ∀ n, argvList (List.map some ws ++ List.replicate n none) = ws := by
      intro n
      clear ih
      induction ws with
      | nil => cases n <;> rfl
      | cons w ws ih => simp [argvList, ih]
    exact this _

/-- The parse of a line made of at most nine words. -/
theorem parsecmd_words (words : List (List Char)) (hlen : words.length ≤ 9)
    (hw : ∀ w ∈ words, isWord w = true) :
    parsecmd (joinWords words) = PResult.ok (Cmd.exec (argvOf words)) := by
  rw [parsecmd_eq_lineT_of_nonul _ (joinWords_nonul words hw), tokenize_joinWords words hw]
  have := lineT_shape (words.map Tok.word) [] [] (bar_not_mem_words words)
    (wfRedirs_words words) (by rw [argWords_words]; simp [MAXARGS]; omega)
  simp only [argWords_words, redirsOf_words, List.nil_append, List.length_nil] at this
  exact this

/-- Claim C1: for every non-empty list of at most 9 words, each a non-empty
string without NUL, whitespace or one of the symbols `<`, `>`, `|`, `parsecmd`
of the words joined by spaces returns the `execcmd` node whose `argv` holds
exactly these words, in order, followed by null slots; and `runcmd` on that
node makes the one call `execvp(argv[0], argv)` and no `fork`, `pipe` or
`open`: what it adds to the log is that call, followed by the error message
and `exit(-1)` only when the call fails. -/
theorem parse_run_single_command (words : List (List Char)) (hne : words ≠ [])
    (hlen : words.length ≤ 9)
    (hw : ∀ w ∈ words, w ≠ [] ∧ ∀ c ∈ w, c ≠ NUL ∧ c ∉ whitespace ∧ c ∉ symbols)
    (o : Oracle) (w0 : World) :
    parsecmd (joinWords words) = PResult.ok (Cmd.exec (argvOf words)) ∧
    argvList (argvOf words) = words ∧
    runcmd o (Cmd.exec (argvOf words)) w0 =
      [if o w0 = true then
        Flow.halt { w0 with log := w0.log ++ [Event.execvp words.head? words true] }
       else
        Flow.halt { w0 with log := w0.log ++
          [Event.execvp words.head? words false,
           Event.fprintf ("Error executing " ++ String.mk (words.head?.getD []) ++ "\n"),
           Event.exit (-1)] }] := by
  refine ⟨parsecmd_words words hlen (fun w h => isWord_of (hw w h)), argvList_argvOf words, ?_⟩
  cases words with
  | nil => exact absurd rfl hne
  | cons w ws =>
    have h0 : (argvOf (w :: ws)).getD 0 none = some w := by simp [argvOf]
    simp only [runcmd, h0, handle_simple_cmd, sysExecvp, argvList_argvOf]
    by_cases ho : o w0 = true
    · simp [ho, andThen]
    · simp [ho, andThen, sysExit, fprintf]

theorem parse_run_single_command_witness :
    parsecmd (joinWords ["ls".toList, "-l".toList])
        = PResult.ok (Cmd.exec (argvOf ["ls".toList, "-l".toList])) ∧
    argvList (argvOf ["ls".toList, "-l".toList]) = ["ls".toList, "-l".toList] ∧
    runcmd Oracle.always (Cmd.exec (argvOf ["ls".toList, "-l".toList])) World.init =
      [if Oracle.always World.init = true then
        Flow.halt { World.init with log := World.init.log ++
          [Event.execvp ["ls".toList, "-l".toList].head? ["ls".toList, "-l".toList] true] }
       else
        Flow.halt { World.init with log := World.init.log ++
          [Event.execvp ["ls".toList, "-l".toList].head? ["ls".toList, "-l".toList] false,
           Event.fprintf ("Error executing " ++
             String.mk (["ls".toList, "-l".toList].head?.getD []) ++ "\n"),
           Event.exit (-1)] }] :=
  parse_run_single_command ["ls".toList, "-l".toList] (by decide) (by decide) (by decide)
    Oracle.always World.init

/-! ### Tokens of composed lines -/

/-- Tokens before a character that cannot be in a word do not depend on what
follows. -/
theorem tokenizeAux_append_break (x : List Char) :
    ∀ (cur : List Char) (c : Char) (y : List Char), isWordChar c = false →
      tokenizeAux cur (x ++ c :: y) = tokenizeAux cur x ++ tokenize (c :: y) := by
  induction x with
  | nil =>
    intro cur c y hc
    rw [List.nil_append, tokenizeAux_break _ _ _ hc]
    rfl
  | cons d x ih =>
    intro cur c y hc
    rw [List.cons_append]
    by_cases hw : strchr whitespace d = true
    · rw [tokenizeAux_ws _ _ _ hw, tokenizeAux_ws _ _ _ hw, tokenize, ih [] c y hc,
        List.append_assoc]
      rfl
    · have hw : strchr whitespace d = false := by simpa using hw
      by_cases hs : strchr symbols d = true
      · rw [tokenizeAux_sym _ _ _ hw hs, tokenizeAux_sym _ _ _ hw hs, tokenize, ih [] c y hc]
        simp only [List.append_assoc, List.cons_append]
        rfl
      · have hwc : isWordChar d = true := by simp [isWordChar, hw, hs]
        rw [tokenizeAux_wc _ _ _ hwc, tokenizeAux_wc _ _ _ hwc, ih _ c y hc]

theorem tokenize_append_break (x : List Char) (c : Char) (y : List Char)
    (hc : isWordChar c = false) :
    tokenize (x ++ c :: y) = tokenize x ++ tokenize (c :: y) :=
  tokenizeAux_append_break x [] c y hc

/-- Whitespace in front of a string has no tokens. -/
theorem tokenize_blanks (blanks y : List Char) (h : ∀ c ∈ blanks, c ∈ whitespace) :
    tokenize (blanks ++ y) = tokenize y := by
  induction blanks with
  | nil => rfl
  | cons b bs ih =>
    have hb : strchr whitespace b = true := by
      have := h b (by simp)
      simp [strchr, this]
    rw [List.cons_append, tokenize_ws _ _ hb]
    exact ih (fun c hc => h c (by simp [hc]))

theorem strchr_ws_of_symbol {c : Char} (h : c ∈ symbols) : strchr whitespace c = false := by
  simp only [symbols, List.mem_cons, List.mem_singleton, List.not_mem_nil, or_false] at h
  rcases h with h | h | h <;> subst h <;> decide

theorem strchr_sym_of_symbol {c : Char} (h : c ∈ symbols) : strchr symbols c = true := by
  simp [strchr, h]

theorem isWordChar_symbol {c : Char} (h : c ∈ symbols) : isWordChar c = false :=
  isWordChar_false_of (Or.inr h)

/-- A symbol between two strings is a token between their tokens. -/
theorem tokenize_append_symbol (x : List Char) (c : Char) (y : List Char) (hc : c ∈ symbols) :
    tokenize (x ++ c :: y) = tokenize x ++ symTok c :: tokenize y := by
  rw [tokenize_append_break x c y (isWordChar_symbol hc),
    tokenize_sym _ _ (strchr_ws_of_symbol hc) (strchr_sym_of_symbol hc)]

theorem Tok.text_isWord_or (t : Tok) :
    (∃ w, t = Tok.word w) ∨ (∃ c, c ∈ symbols ∧ t.text = [c] ∧ symTok c = t) := by
  cases t with
  | word w => exact Or.inl ⟨w, rfl⟩
  | less => exact Or.inr ⟨'<', by decide, rfl, rfl⟩
  | greater => exact Or.inr ⟨'>', by decide, rfl, rfl⟩
  | bar => exact Or.inr ⟨'|', by decide, rfl, rfl⟩

theorem tokenize_text (t : Tok) (y : List Char) (ht : ∀ w, t = Tok.word w → isWord w = true)
    (hy : ∀ c, y.head? = some c → isWordChar c = false) :
    tokenize (t.text ++ y) = t :: tokenize y := by
  rcases t.text_isWord_or with ⟨w, rfl⟩ | ⟨c, hc, htx, hst⟩
  · exact tokenize_word w y (ht w rfl) hy
  · rw [htx, List.singleton_append,
      tokenize_sym _ _ (strchr_ws_of_symbol hc) (strchr_sym_of_symbol hc), hst]

/-- Tokens written with spaces between them are read back. -/
theorem tokenize_render (ts : List Tok) (h : validToks ts) : tokenize (render ts) = ts := by
  unfold render
  induction ts with
  | nil => rfl
  | cons t ts ih =>
    have ht : ∀ w, t = Tok.word w → isWord w = true := fun w hw => h w (by simp [hw])
    have ih := ih (fun w hw => h w (by simp [hw]))
    cases ts with
    | nil =>
      have := tokenize_text t [] ht (by simp)
      simpa [joinWords] using this
    | cons t2 ts2 =>
      have hsp : strchr whitespace ' ' = true := by decide
      simp only [List.map_cons] at ih ⊢
      rw [joinWords, tokenize_text t _ ht (by
        intro c hc
        simp only [List.head?_cons, Option.some.injEq] at hc
        rw [← hc]; exact isWordChar_space), tokenize_ws _ _ hsp, ih]
      simp

theorem Tok.text_nonul (t : Tok) (ht : ∀ w, t = Tok.word w → isWord w = true) :
    NUL ∉ t.text := by
  cases t with
  | word w => exact isWord_nonul (ht w rfl)
  | less => decide
  | greater => decide
  | bar => decide

theorem render_nonul (ts : List Tok) (h : validToks ts) : NUL ∉ render ts := by
  unfold render
  induction ts with
  | nil => simp [joinWords]
  | cons t ts ih =>
    have ht : ∀ w, t = Tok.word w → isWord w = true := fun w hw => h w (by simp [hw])
    have ih := ih (fun w hw => h w (by simp [hw]))
    cases ts with
    | nil => simpa [joinWords] using t.text_nonul ht
    | cons t2 ts2 =>
      simp only [List.map_cons] at ih ⊢
      rw [joinWords]
      · simp only [List.mem_append, List.mem_cons, not_or]
        exact ⟨t.text_nonul ht, by decide, ih⟩
      · simp

/-- The parse of a line written token by token. -/
theorem parsecmd_render (ts : List Tok) (h : validToks ts) :
    parsecmd (render ts) = lineT execcmd 0 ts := by
  rw [parsecmd_eq_lineT_of_nonul _ (render_nonul ts h), tokenize_render ts h]

/-! ### Pipelines -/

theorem symTok_eq_bar {c : Char} (hc : c ∈ symbols) (h : symTok c = Tok.bar) : c = '|' := by
  simp only [symbols, List.mem_cons, List.mem_singleton, List.not_mem_nil, or_false] at hc
  rcases hc with rfl | rfl | rfl
  · simp [symTok] at h
  · rfl
  · simp [symTok] at h

theorem bar_not_mem_flushWord (cur : List Char) : Tok.bar ∉ flushWord cur := by
  unfold flushWord
  split <;> simp

theorem bar_not_mem_tokenizeAux (x : List Char) (hx : '|' ∉ x) :
    ∀ cur, Tok.bar ∉ tokenizeAux cur x := by
  induction x with
  | nil => intro cur; simpa [tokenizeAux] using bar_not_mem_flushWord cur
  | cons d x ih =>
    intro cur
    have hd : d ≠ '|' := fun h => hx (by simp [h])
    have ih := ih (fun h => hx (by simp [h]))
    by_cases hw : strchr whitespace d = true
    · rw [tokenizeAux_ws _ _ _ hw]
      simp only [List.mem_append, not_or]
      exact ⟨bar_not_mem_flushWord cur, ih []⟩
    · have hw : strchr whitespace d = false := by simpa using hw
      by_cases hs : strchr symbols d = true
      · rw [tokenizeAux_sym _ _ _ hw hs]
        simp only [List.mem_append, List.mem_cons, not_or]
        refine ⟨bar_not_mem_flushWord cur, ?_, ih []⟩
        intro h
        have hne : d ≠ NUL := by
          intro h0; rw [h0] at hw; simp [strchr] at hw
        exact hd (symTok_eq_bar ((strchr_iff _ _ hne).1 hs) h.symm)
      · have hwc : isWordChar d = true := by simp [isWordChar, hw, hs]
        rw [tokenizeAux_wc _ _ _ hwc]
        exact ih _

theorem bar_not_mem_tokenize (x : List Char) (hx : '|' ∉ x) : Tok.bar ∉ tokenize x :=
  bar_not_mem_tokenizeAux x hx []

/-- A pipeline whose first command is followed by a bar. -/
theorem lineT_append_bar (ret : Cmd) (argc : Nat) (A : List Tok) :
    ∀ B, Tok.bar ∉ A →
      lineT ret argc (A ++ Tok.bar :: B) =
        match lineT ret argc A with
        | PResult.ok c => (lineT execcmd 0 B).map (pipecmd c)
        | PResult.fail e => PResult.fail e
        | PResult.diverge => PResult.diverge := by
  induction ret, argc, A using lineT.induct with
  | case1 ret argc => intro B _; simp [lineT]
  | case2 ret argc ts ih => intro B h; simp at h
  | case3 ret argc w ts hge =>
    intro B _; rw [List.cons_append, lineT, lineT, if_pos hge, if_pos hge]
  | case4 ret argc w ts hge ih =>
    intro B h
    rw [List.cons_append, lineT, lineT, if_neg hge, if_neg hge]
    exact ih B (fun hh => h (by simp [hh]))
  | case5 ret argc w ts ih =>
    intro B h
    rw [List.cons_append, List.cons_append, lineT, lineT]
    exact ih B (fun hh => h (by simp [hh]))
  | case6 ret argc w ts ih =>
    intro B h
    rw [List.cons_append, List.cons_append, lineT, lineT]
    exact ih B (fun hh => h (by simp [hh]))
  | case7 ret argc tail hn =>
    intro B h
    have hn2 : ∀ w ts, tail ++ Tok.bar :: B = Tok.word w :: ts → False := by
      intro w ts hh
      cases tail with
      | nil => simp at hh
      | cons t tl =>
        simp only [List.cons_append, List.cons.injEq] at hh
        exact hn w tl (by rw [hh.1])
    rw [List.cons_append, lineT, lineT]
    · exact hn
    · exact hn2
  | case8 ret argc tail hn =>
    intro B h
    have hn2 : ∀ w ts, tail ++ Tok.bar :: B = Tok.word w :: ts → False := by
      intro w ts hh
      cases tail with
      | nil => simp at hh
      | cons t tl =>
        simp only [List.cons_append, List.cons.injEq] at hh
        exact hn w tl (by rw [hh.1])
    rw [List.cons_append, lineT, lineT]
    · exact hn
    · exact hn2

theorem hasPipe_storeArg (c : Cmd) (i : Nat) (v : Option (List Char)) :
    (c.storeArg i v).hasPipe = c.hasPipe := by
  induction c with
  | null => rfl
  | exec argv => rfl
  | redir t c f m fd ih => simpa [Cmd.storeArg, Cmd.hasPipe] using ih
  | pipe l r _ _ => rfl

theorem hasPipe_redircmd (c : Cmd) (f : List Char) (t : Char) :
    (redircmd c f t).hasPipe = c.hasPipe := rfl

/-- The tree of a command without a bar has no `pipecmd`. -/
theorem lineT_hasPipe (ret : Cmd) (argc : Nat) (A : List Tok) :
    Tok.bar ∉ A → ret.hasPipe = false → ∀ c, lineT ret argc A = PResult.ok c →
      c.hasPipe = false := by
  induction ret, argc, A using lineT.induct with
  | case1 ret argc =>
    intro _ hr c h
    simp only [lineT, PResult.ok.injEq] at h
    rw [← h, hasPipe_storeArg]; exact hr
  | case2 ret argc ts ih => intro h; simp at h
  | case3 ret argc w ts hge => intro _ _ c h; rw [lineT, if_pos hge] at h; cases h
  | case4 ret argc w ts hge ih =>
    intro hb hr c h
    rw [lineT, if_neg hge] at h
    exact ih (fun hh => hb (by simp [hh])) (by rw [hasPipe_storeArg]; exact hr) c h
  | case5 ret argc w ts ih =>
    intro hb hr c h
    rw [lineT] at h
    exact ih (fun hh => hb (by simp [hh])) (by rw [hasPipe_redircmd]; exact hr) c h
  | case6 ret argc w ts ih =>
    intro hb hr c h
    rw [lineT] at h
    exact ih (fun hh => hb (by simp [hh])) (by rw [hasPipe_redircmd]; exact hr) c h
  | case7 ret argc tail hn =>
    intro _ _ c h
    rw [lineT] at h
    · cases h
    · exact hn
  | case8 ret argc tail hn =>
    intro _ _ c h
    rw [lineT] at h
    · cases h
    · exact hn

theorem not_isPipe_of_not_hasPipe {c : Cmd} (h : c.hasPipe = false) : c.isPipe = false := by
  cases c <;> simp_all [Cmd.hasPipe, Cmd.isPipe]

theorem leftsNotPipe_of_not_hasPipe {c : Cmd} (h : c.hasPipe = false) :
    c.leftsNotPipe = true := by
  induction c with
  | null => rfl
  | exec argv => rfl
  | redir t c f m fd ih => exact ih h
  | pipe l r _ _ => simp [Cmd.hasPipe] at h

theorem leftsNotPipe_pipeTree (trees : List Cmd) (h : ∀ t ∈ trees, t.hasPipe = false) :
    (pipeTree trees).leftsNotPipe = true := by
  induction trees with
  | nil => rfl
  | cons t ts ih =>
    have ht := h t (by simp)
    have ih := ih (fun x hx => h x (by simp [hx]))
    cases ts with
    | nil => exact leftsNotPipe_of_not_hasPipe ht
    | cons t2 ts2 =>
      simp only [pipeTree, Cmd.leftsNotPipe, Bool.and_eq_true, Bool.not_eq_true']
      exact ⟨⟨not_isPipe_of_not_hasPipe ht, leftsNotPipe_of_not_hasPipe ht⟩, ih⟩

theorem joinPipes_nonul (as : List (List Char)) (h : ∀ a ∈ as, NUL ∉ a) :
    NUL ∉ joinPipes as := by
  induction as with
  | nil => simp [joinPipes]
  | cons a as ih =>
    have ih := ih (fun x hx => h x (by simp [hx]))
    cases as with
    | nil => simpa [joinPipes] using h a (by simp)
    | cons a2 as2 =>
      rw [joinPipes]
      · simp only [List.mem_append, List.mem_cons, not_or]
        exact ⟨h a (by simp), by decide, by decide, by decide, ih⟩
      · simp

theorem tokenize_joinPipes_cons (a b : List Char) (as : List (List Char)) :
    tokenize (joinPipes (a :: b :: as))
      = tokenize a ++ Tok.bar :: tokenize (joinPipes (b :: as)) := by
  have hsp : strchr whitespace ' ' = true := by decide
  rw [joinPipes, tokenize_append_break a ' ' _ isWordChar_space, tokenize_ws _ _ hsp,
    tokenize_sym '|' _ (by decide) (by decide), tokenize_ws _ _ hsp]
  · rfl
  · simp

theorem parsecmd_isOk {mem : List Char} (h : (parsecmd mem).isOk = true) :
    parsecmd mem = PResult.ok (treeOf (parsecmd mem)) := by
  cases hp : parsecmd mem with
  | ok t => rfl
  | fail e => rw [hp] at h; cases h
  | diverge => rw [hp] at h; cases h

/-- The parse of `a1 | ... | aN` for commands that parse alone. -/
theorem parsecmd_joinPipes (as : List (List Char)) (hne : as ≠ [])
    (hbar : ∀ a ∈ as, NUL ∉ a ∧ '|' ∉ a) (hok : ∀ a ∈ as, (parsecmd a).isOk = true) :
    parsecmd (joinPipes as)
      = PResult.ok (pipeTree (as.map (fun a => treeOf (parsecmd a)))) := by
  induction as with
  | nil => exact absurd rfl hne
  | cons a as ih =>
    cases as with
    | nil => simpa [joinPipes, pipeTree] using parsecmd_isOk (hok a (by simp))
    | cons b as2 =>
      have ih := ih (by simp) (fun x hx => hbar x (by simp [hx]))
        (fun x hx => hok x (by simp [hx]))
      have hnul : NUL ∉ joinPipes (a :: b :: as2) :=
        joinPipes_nonul _ (fun x hx => (hbar x hx).1)
      have hnul2 : NUL ∉ joinPipes (b :: as2) :=
        joinPipes_nonul _ (fun x hx => (hbar x (by simp [hx])).1)
      have ha := parsecmd_isOk (hok a (by simp))
      generalize treeOf (parsecmd a) = t at ha
      generalize hts : List.map (fun a => treeOf (parsecmd a)) (b :: as2) = trees at ih
      have hmap : List.map (fun a => treeOf (parsecmd a)) (a :: b :: as2) = t :: trees := by
        rw [List.map_cons, hts, ha]; rfl
      have htrees : ∃ t2 tl, trees = t2 :: tl := by
        rw [← hts]; exact ⟨_, _, rfl⟩
      rw [parsecmd_eq_lineT_of_nonul _ (hbar a (by simp)).1] at ha
      rw [parsecmd_eq_lineT_of_nonul _ hnul2] at ih
      rw [hmap, parsecmd_eq_lineT_of_nonul _ hnul, tokenize_joinPipes_cons,
        lineT_append_bar _ _ _ _ (bar_not_mem_tokenize a (hbar a (by simp)).2), ha, ih]
      obtain ⟨t2, tl, rfl⟩ := htrees
      rfl

/-- Claim C2: pipes associate to the right.  For N >= 2 commands `a1 .. aN`
(strings without NUL and without `|`) each of which parses alone to a tree
`Ti`, `parsecmd` of `a1 | a2 | ... | aN` returns
`Pipe(T1, Pipe(T2, ... Pipe(T(N-1), TN)))`; no `Ti` contains a `pipecmd`, so
no `pipecmd` of the result has a `pipecmd` as its left child, and the
commands appear from left to right. -/
theorem pipes_right_assoc (as : List (List Char)) (hN : 2 ≤ as.length)
    (hbar : ∀ a ∈ as, NUL ∉ a ∧ '|' ∉ a) (hok : ∀ a ∈ as, (parsecmd a).isOk = true) :
    parsecmd (joinPipes as)
      = PResult.ok (pipeTree (as.map (fun a => treeOf (parsecmd a)))) ∧
    (∀ a ∈ as, parsecmd a = PResult.ok (treeOf (parsecmd a)) ∧
      (treeOf (parsecmd a)).hasPipe = false) ∧
    (pipeTree (as.map (fun a => treeOf (parsecmd a)))).leftsNotPipe = true := by
  have hne : as ≠ [] := by
    intro h; rw [h] at hN; simp at hN
  have hT : ∀ a ∈ as, parsecmd a = PResult.ok (treeOf (parsecmd a)) ∧
      (treeOf (parsecmd a)).hasPipe = false := by
    intro a ha
    have h1 := parsecmd_isOk (hok a ha)
    refine ⟨h1, ?_⟩
    have h2 := h1
    generalize treeOf (parsecmd a) = t at h2 ⊢
    rw [parsecmd_eq_lineT_of_nonul _ (hbar a ha).1] at h2
    exact lineT_hasPipe execcmd 0 _ (bar_not_mem_tokenize a (hbar a ha).2) rfl t h2
  refine ⟨parsecmd_joinPipes as hne hbar hok, hT, ?_⟩
  apply leftsNotPipe_pipeTree
  intro t ht
  simp only [List.mem_map] at ht
  obtain ⟨a, ha, rfl⟩ := ht
  exact (hT a ha).2

/-! ### Redirections -/

theorem Redir.valid_iff (r : Redir) :
    r.valid = true ↔ (r.1 = '<' ∨ r.1 = '>') ∧ isWord r.2 = true := by
  simp [Redir.valid]

theorem argWords_word_append (ws : List (List Char)) (X : List Tok) :
    argWords (ws.map Tok.word ++ X) = ws ++ argWords X := by
  induction ws with
  | nil => rfl
  | cons w ws ih => simp [argWords, ih]

theorem redirsOf_word_append (ws : List (List Char)) (X : List Tok) :
    redirsOf (ws.map Tok.word ++ X) = redirsOf X := by
  induction ws with
  | nil => rfl
  | cons w ws ih => simp [redirsOf, ih]

theorem wfRedirs_word_append (ws : List (List Char)) (X : List Tok) :
    wfRedirs (ws.map Tok.word ++ X) = wfRedirs X := by
  induction ws with
  | nil => rfl
  | cons w ws ih => simp [wfRedirs, ih]

theorem redirToks_facts (rs : List Redir) (hr : ∀ r ∈ rs, r.valid = true) :
    argWords (redirToks rs) = [] ∧ redirsOf (redirToks rs) = rs ∧
    wfRedirs (redirToks rs) = true ∧ Tok.bar ∉ redirToks rs ∧ validToks (redirToks rs) := by
  induction rs with
  | nil => exact ⟨rfl, rfl, rfl, by simp [redirToks], fun w hw => by simp [redirToks] at hw⟩
  | cons r rs ih =>
    obtain ⟨i1, i2, i3, i4, i5⟩ := ih (fun x hx => hr x (by simp [hx]))
    obtain ⟨hop, hf⟩ := (Redir.valid_iff r).1 (hr r (by simp))
    obtain ⟨op, f⟩ := r
    simp only at hop hf
    rcases hop with rfl | rfl
    · refine ⟨by simpa [redirToks, symTok, argWords] using i1,
        by simp [redirToks, symTok, redirsOf, i2],
        by simpa [redirToks, symTok, wfRedirs] using i3,
        by simpa [redirToks, symTok] using i4, ?_⟩
      intro w hw
      simp only [redirToks, symTok, List.mem_cons, Tok.word.injEq, if_true] at hw
      rcases hw with hw | hw | hw
      · cases hw
      · rw [hw]; exact hf
      · exact i5 w hw
    · refine ⟨by simpa [redirToks, symTok, argWords] using i1,
        by simp [redirToks, symTok, redirsOf, i2],
        by simpa [redirToks, symTok, wfRedirs] using i3,
        by simpa [redirToks, symTok] using i4, ?_⟩
      intro w hw
      simp only [redirToks, symTok, List.mem_cons, Tok.word.injEq] at hw
      rcases hw with hw | hw | hw
      · simp at hw
      · rw [hw]; exact hf
      · exact i5 w hw

/-- The parse of a command written as its words followed by redirections. -/
theorem parsecmd_words_redirs (ws : List (List Char)) (rs : List Redir)
    (hlen : ws.length ≤ 9) (hw : ∀ w ∈ ws, isWord w = true)
    (hr : ∀ r ∈ rs, r.valid = true) :
    parsecmd (render (ws.map Tok.word ++ redirToks rs))
      = PResult.ok (wrapRedirs (Cmd.exec (argvOf ws)) rs) := by
  obtain ⟨f1, f2, f3, f4, f5⟩ := redirToks_facts rs hr
  have hv : validToks (ws.map Tok.word ++ redirToks rs) := by
    intro w hin
    simp only [List.mem_append, List.mem_map, Tok.word.injEq, exists_eq_right] at hin
    rcases hin with hin | hin
    · exact hw w hin
    · exact f5 w hin
  rw [parsecmd_render _ hv]
  have := lineT_shape (ws.map Tok.word ++ redirToks rs) [] []
    (by simp only [List.mem_append, not_or]; exact ⟨bar_not_mem_words ws, f4⟩)
    (by rw [wfRedirs_word_append]; exact f3)
    (by rw [argWords_word_append, f1]; simp [MAXARGS]; omega)
  simp only [argWords_word_append, f1, redirsOf_word_append, f2, List.nil_append,
    List.append_nil, List.length_nil] at this
  exact this

/-- Claim C3: each redirection wraps the node built so far, so the one
written last is outermost.  `a > out < in` parses to
`Redirect(<, in, fd 0, Redirect(>, out, fd 1, Exec[a]))`, and in general a
command written as at most 9 words followed by the redirections `r1 .. rk`
parses to `rk(...(r2(r1(Exec)))...)`: `wrapRedirs` applies `redircmd` from the
first redirection (innermost) to the last (outermost), and `redircmd` gives
`<` the descriptor 0 with `O_RDONLY` and `>` the descriptor 1 with
`O_WRONLY | O_CREAT | O_TRUNC`. -/
theorem redirs_wrap_in_order (ws : List (List Char)) (rs : List Redir)
    (hlen : ws.length ≤ 9) (hw : ∀ w ∈ ws, isWord w = true)
    (hr : ∀ r ∈ rs, r.valid = true) :
    parsecmd "a > out < in".toList
      = PResult.ok
          (Cmd.redir '<'
            (Cmd.redir '>' (Cmd.exec (argvOf ["a".toList])) "out".toList
              (O_WRONLY ||| O_CREAT ||| O_TRUNC) 1)
            "in".toList O_RDONLY 0) ∧
    parsecmd (render (ws.map Tok.word ++ redirToks rs))
      = PResult.ok (wrapRedirs (Cmd.exec (argvOf ws)) rs) ∧
    (∀ c, wrapRedirs c [] = c) ∧
    (∀ c rs1 op f, wrapRedirs c (rs1 ++ [(op, f)]) = redircmd (wrapRedirs c rs1) f op) ∧
    (∀ c f, redircmd c f '<' = Cmd.redir '<' c f O_RDONLY 0) ∧
    (∀ c f, redircmd c f '>' = Cmd.redir '>' c f (O_WRONLY ||| O_CREAT ||| O_TRUNC) 1) := by
  refine ⟨by decide, parsecmd_words_redirs ws rs hlen hw hr, fun _ => rfl, ?_,
    fun _ _ => rfl, fun _ _ => rfl⟩
  intro c rs1 op f
  exact wrapRedirs_snoc c rs1 (op, f)

theorem redirs_wrap_in_order_witness :
    parsecmd "a > out < in".toList
      = PResult.ok
          (Cmd.redir '<'
            (Cmd.redir '>' (Cmd.exec (argvOf ["a".toList])) "out".toList
              (O_WRONLY ||| O_CREAT ||| O_TRUNC) 1)
            "in".toList O_RDONLY 0) ∧
    parsecmd (render (["cat".toList, "-n".toList].map Tok.word
        ++ redirToks [('<', "in".toList), ('>', "out".toList), ('>', "log".toList)]))
      = PResult.ok (wrapRedirs (Cmd.exec (argvOf ["cat".toList, "-n".toList]))
          [('<', "in".toList), ('>', "out".toList), ('>', "log".toList)]) ∧
    (∀ c, wrapRedirs c [] = c) ∧
    (∀ c rs1 op f, wrapRedirs c (rs1 ++ [(op, f)]) = redircmd (wrapRedirs c rs1) f op) ∧
    (∀ c f, redircmd c f '<' = Cmd.redir '<' c f O_RDONLY 0) ∧
    (∀ c f, redircmd c f '>' = Cmd.redir '>' c f (O_WRONLY ||| O_CREAT ||| O_TRUNC) 1) :=
  redirs_wrap_in_order ["cat".toList, "-n".toList]
    [('<', "in".toList), ('>', "out".toList), ('>', "log".toList)]
    (by decide) (by decide) (by decide)

/-! ### Descriptor tables -/

theorem getD_fdSet (fds : List (Option Obj)) (i j : Nat) (o : Option Obj) :
    (fdSet fds i o).getD j none = if j = i then o else fds.getD j none := by
  unfold fdSet
  by_cases hi : i < fds.length
  · rw [if_pos hi]
    simp only [List.getD_eq_getElem?_getD, List.getElem?_set]
    by_cases hji : j = i
    · subst hji; simp [hi]
    · rw [if_neg hji, if_neg (fun h => hji h.symm)]
  · rw [if_neg hi]
    simp only [List.getD_eq_getElem?_getD]
    by_cases hji : j = i
    · subst hji
      rw [if_pos rfl, List.getElem?_append_right (by simp; omega)]
      simp
      have : fds.length + (j - fds.length) = j := by omega
      simp [this]
    · rw [if_neg hji]
      by_cases hj : j < fds.length
      · rw [List.append_assoc, List.getElem?_append_left hj]
      · rw [List.getElem?_eq_none (show fds.length ≤ j by omega)]
        by_cases hj2 : j < i
        · rw [List.getElem?_append_left (by simp; omega),
            List.getElem?_append_right (by omega)]
          simp only [List.getElem?_replicate]
          split <;> rfl
        · rw [List.getElem?_eq_none (by simp; omega)]

theorem getD_lowestFree (fds : List (Option Obj)) :
    fds.getD (lowestFree fds) none = none := by
  unfold lowestFree
  by_cases h : List.findIdx (fun o => o.isNone) fds < fds.length
  · have := @List.findIdx_getElem _ (fun o : Option Obj => o.isNone) fds h
    simp only [List.getD_eq_getElem?_getD, List.getElem?_eq_getElem h]
    simpa using this
  · simp only [List.getD_eq_getElem?_getD]
    rw [List.getElem?_eq_none (by omega)]
    rfl

theorem fdGet_nat (w : World) (n : Nat) : w.fdGet (n : Int) = w.fds.getD n none := by
  simp [World.fdGet]

/-! ### Running redirections -/

theorem andThen_allHalt {α : Type} (m : Procs α) (k : α → World → Procs α) (h : AllHalt m) :
    andThen m k = m := by
  induction m with
  | nil => rfl
  | cons f m ih =>
    obtain ⟨w, rfl⟩ := h f (by simp)
    simp only [andThen]
    rw [ih (fun g hg => h g (by simp [hg]))]

theorem sysExit_allHalt {α : Type} (code : Int) (w : World) :
    AllHalt ([sysExit code w] : Procs α) := by
  intro f hf
  simp only [List.mem_singleton] at hf
  exact ⟨_, hf⟩

theorem handle_simple_cmd_allHalt (o : Oracle) (argv : List (Option (List Char)))
    (w : World) : AllHalt (handle_simple_cmd o argv w) := by
  unfold handle_simple_cmd sysExecvp
  split
  · rename_i w1 heq
    intro f hf
    simp only [List.mem_singleton] at hf
    exact ⟨_, hf⟩
  · exact sysExit_allHalt _ _

theorem runcmd_exec_allHalt (o : Oracle) (argv : List (Option (List Char))) (w : World) :
    AllHalt (runcmd o (Cmd.exec argv) w) := by
  unfold runcmd
  split
  · exact sysExit_allHalt _ _
  · rw [andThen_allHalt _ _ (handle_simple_cmd_allHalt o argv w)]
    exact handle_simple_cmd_allHalt o argv w

/-- A redirection whose `open` and `dup2` succeed. -/
theorem handle_redirection_ok (o : Oracle) (file : List Char) (mode fd : Nat) (w : World)
    (h1 : o w = true) (h2 : ∀ w1 : World, w1.log.length = w.log.length + 1 → o w1 = true) :
    handle_redirection o file mode fd w = [Flow.ret () (afterRedir o file mode fd w)] ∧
    (afterRedir o file mode fd w).fdGet fd = some (Obj.file file mode) ∧
    (∀ j : Nat, j ≠ fd → (w.fdGet j).isSome = true →
      (afterRedir o file mode fd w).fdGet j = w.fdGet j) ∧
    (afterRedir o file mode fd w).log.length = w.log.length + 2 := by
  have a1 : (sysOpen o file mode 777 w).1 = ((lowestFree w.fds : Nat) : Int) := by
    simp [sysOpen, h1]
  have a2 : (sysOpen o file mode 777 w).2.fds
      = fdSet w.fds (lowestFree w.fds) (some (Obj.file file mode)) := by
    simp [sysOpen, h1]
  have a3 : (sysOpen o file mode 777 w).2.log.length = w.log.length + 1 := by
    simp [sysOpen, h1]
  have hafter : afterRedir o file mode fd w
      = (sysDup2 o (sysOpen o file mode 777 w).1 fd (sysOpen o file mode 777 w).2).2 := rfl
  have hhr : handle_redirection o file mode fd w
      = if (sysOpen o file mode 777 w).1 < 0 then
          [sysExit (-1)
            (fprintf ("could not open file  " ++ String.mk file ++ "\n")
              (sysOpen o file mode 777 w).2)]
        else if (sysDup2 o (sysOpen o file mode 777 w).1 fd (sysOpen o file mode 777 w).2).1 < 0
          then
            [sysExit (-1) (fprintf "failed to bind files\n"
              (sysClose (sysOpen o file mode 777 w).1
                (sysDup2 o (sysOpen o file mode 777 w).1 fd (sysOpen o file mode 777 w).2).2))]
          else
            [Flow.ret ()
              (sysDup2 o (sysOpen o file mode 777 w).1 fd (sysOpen o file mode 777 w).2).2] :=
    rfl
  rw [hafter, hhr]
  generalize sysOpen o file mode 777 w = r at a1 a2 a3
  obtain ⟨r1, w1⟩ := r
  simp only at a1 a2 a3
  subst a1
  have hget : w1.fdGet ((lowestFree w.fds : Nat) : Int) = some (Obj.file file mode) := by
    rw [fdGet_nat, a2, getD_fdSet, if_pos rfl]
  have ho2 := h2 w1 a3
  have b1 : (sysDup2 o ((lowestFree w.fds : Nat) : Int) (fd : Int) w1).1 = (fd : Int) := by
    simp [sysDup2, hget, ho2]
  have b2 : (sysDup2 o ((lowestFree w.fds : Nat) : Int) (fd : Int) w1).2.fds
      = fdSet w1.fds fd (some (Obj.file file mode)) := by
    simp [sysDup2, hget, ho2]
  have b3 : (sysDup2 o ((lowestFree w.fds : Nat) : Int) (fd : Int) w1).2.log.length
      = w1.log.length + 1 := by
    simp [sysDup2, hget, ho2]
  generalize sysDup2 o ((lowestFree w.fds : Nat) : Int) (fd : Int) w1 = r2 at b1 b2 b3
  obtain ⟨r21, w2⟩ := r2
  simp only at b1 b2 b3
  subst b1
  refine ⟨?_, ?_, ?_, ?_⟩
  · rw [if_neg (by omega), if_neg (by omega)]
  · rw [fdGet_nat, b2, getD_fdSet, if_pos rfl]
  · intro j hj hsome
    rw [fdGet_nat, fdGet_nat, b2, a2]
    rw [fdGet_nat] at hsome
    simp only [getD_fdSet, if_neg hj]
    rw [if_neg]
    intro hjl
    rw [hjl, getD_lowestFree] at hsome
    cases hsome
  · show w2.log.length = w.log.length + 2
    omega

theorem runcmd_redir_ok (o : Oracle) (t : Char) (c : Cmd) (file : List Char) (mode fd : Nat)
    (w : World) (ht : t = '>' ∨ t = '<') (h1 : o w = true)
    (h2 : ∀ w1 : World, w1.log.length = w.log.length + 1 → o w1 = true) :
    runcmd o (Cmd.redir t c file mode fd) w
      = andThen (runcmd o c (afterRedir o file mode fd w)) (fun _ w2 => [sysExit 0 w2]) := by
  rw [runcmd, if_pos ht, (handle_redirection_ok o file mode fd w h1 h2).1]
  simp [andThen]

/-- Two redirections around a command, both succeeding. -/
theorem runcmd_two_redirs (o : Oracle) (A : List (Option (List Char))) (t1 t2 : Char)
    (f1 f2 : List Char) (m1 m2 fd1 fd2 : Nat) (w0 : World)
    (ht1 : t1 = '>' ∨ t1 = '<') (ht2 : t2 = '>' ∨ t2 = '<') (hfd : fd1 ≠ fd2)
    (hok : ∀ w : World, w.log.length < w0.log.length + 4 → o w = true) :
    runcmd o (Cmd.redir t2 (Cmd.redir t1 (Cmd.exec A) f1 m1 fd1) f2 m2 fd2) w0
      = runcmd o (Cmd.exec A) (afterRedir o f1 m1 fd1 (afterRedir o f2 m2 fd2 w0)) ∧
    (afterRedir o f1 m1 fd1 (afterRedir o f2 m2 fd2 w0)).fdGet fd1 = some (Obj.file f1 m1) ∧
    (afterRedir o f1 m1 fd1 (afterRedir o f2 m2 fd2 w0)).fdGet fd2 = some (Obj.file f2 m2) := by
  have hA := handle_redirection_ok o f2 m2 fd2 w0 (hok w0 (by omega))
    (fun w1 h => hok w1 (by omega))
  have hlenA := hA.2.2.2
  have hB := handle_redirection_ok o f1 m1 fd1 (afterRedir o f2 m2 fd2 w0)
    (hok _ (by omega)) (fun w1 h => hok w1 (by omega))
  refine ⟨?_, hB.2.1, ?_⟩
  · rw [runcmd_redir_ok o t2 _ f2 m2 fd2 w0 ht2 (hok w0 (by omega))
        (fun w1 h => hok w1 (by omega)),
      runcmd_redir_ok o t1 _ f1 m1 fd1 _ ht1 (hok _ (by omega))
        (fun w1 h => hok w1 (by omega)),
      andThen_allHalt _ _ (runcmd_exec_allHalt o A _),
      andThen_allHalt _ _ (runcmd_exec_allHalt o A _)]
  · rw [hB.2.2.1 fd2 (fun h => hfd h.symm) (by rw [hA.2.1]; rfl), hA.2.1]

/-- Claim C4: redirection does not depend on the order of declaration.  For
a command `cmd` of at most 9 words and file names `fin` and `fout`, the
lines `cmd > fout < fin` and `cmd < fin > fout` parse to the two nestings of
the redirections, and when the two `open` and the two `dup2` calls succeed
(the first four system calls of the process), running either tree is
running the command's `execcmd` node in a state in which descriptor 0 is
bound to `fin` opened read-only and descriptor 1 to `fout` opened
write-only, create, truncate. -/
theorem redirection_order_independent (cmd : List (List Char)) (fin fout : List Char)
    (hlen : cmd.length ≤ 9) (hcmd : ∀ w ∈ cmd, isWord w = true)
    (hin : isWord fin = true) (hout : isWord fout = true)
    (o : Oracle) (w0 : World)
    (hok : ∀ w : World, w.log.length < w0.log.length + 4 → o w = true) :
    -- the two trees
    parsecmd (render (cmd.map Tok.word ++ [Tok.greater, Tok.word fout, Tok.less, Tok.word fin]))
      = PResult.ok (Cmd.redir '<'
          (Cmd.redir '>' (Cmd.exec (argvOf cmd)) fout (O_WRONLY ||| O_CREAT ||| O_TRUNC) 1)
          fin O_RDONLY 0) ∧
    parsecmd (render (cmd.map Tok.word ++ [Tok.less, Tok.word fin, Tok.greater, Tok.word fout]))
      = PResult.ok (Cmd.redir '>'
          (Cmd.redir '<' (Cmd.exec (argvOf cmd)) fin O_RDONLY 0)
          fout (O_WRONLY ||| O_CREAT ||| O_TRUNC) 1) ∧
    -- running either tree is running the command in a state reached by the redirections
    runcmd o (Cmd.redir '<'
          (Cmd.redir '>' (Cmd.exec (argvOf cmd)) fout (O_WRONLY ||| O_CREAT ||| O_TRUNC) 1)
          fin O_RDONLY 0) w0
      = runcmd o (Cmd.exec (argvOf cmd))
          (afterRedir o fout (O_WRONLY ||| O_CREAT ||| O_TRUNC) 1
            (afterRedir o fin O_RDONLY 0 w0)) ∧
    runcmd o (Cmd.redir '>'
          (Cmd.redir '<' (Cmd.exec (argvOf cmd)) fin O_RDONLY 0)
          fout (O_WRONLY ||| O_CREAT ||| O_TRUNC) 1) w0
      = runcmd o (Cmd.exec (argvOf cmd))
          (afterRedir o fin O_RDONLY 0
            (afterRedir o fout (O_WRONLY ||| O_CREAT ||| O_TRUNC) 1 w0)) ∧
    -- the standard descriptors in these two states
    (afterRedir o fout (O_WRONLY ||| O_CREAT ||| O_TRUNC) 1
        (afterRedir o fin O_RDONLY 0 w0)).fdGet 0 = some (Obj.file fin O_RDONLY) ∧
    (afterRedir o fout (O_WRONLY ||| O_CREAT ||| O_TRUNC) 1
        (afterRedir o fin O_RDONLY 0 w0)).fdGet 1
      = some (Obj.file fout (O_WRONLY ||| O_CREAT ||| O_TRUNC)) ∧
    (afterRedir o fin O_RDONLY 0
        (afterRedir o fout (O_WRONLY ||| O_CREAT ||| O_TRUNC) 1 w0)).fdGet 0
      = some (Obj.file fin O_RDONLY) ∧
    (afterRedir o fin O_RDONLY 0
        (afterRedir o fout (O_WRONLY ||| O_CREAT ||| O_TRUNC) 1 w0)).fdGet 1
      = some (Obj.file fout (O_WRONLY ||| O_CREAT ||| O_TRUNC)) := by
  have p1 := parsecmd_words_redirs cmd [('>', fout), ('<', fin)] hlen hcmd
    (by
      intro r hr
      simp only [List.mem_cons, List.mem_singleton, List.not_mem_nil, or_false] at hr
      rcases hr with rfl | rfl
      · simp [Redir.valid, hout]
      · simp [Redir.valid, hin])
  have p2 := parsecmd_words_redirs cmd [('<', fin), ('>', fout)] hlen hcmd
    (by
      intro r hr
      simp only [List.mem_cons, List.mem_singleton, List.not_mem_nil, or_false] at hr
      rcases hr with rfl | rfl
      · simp [Redir.valid, hin]
      · simp [Redir.valid, hout])
  have r1 := runcmd_two_redirs o (argvOf cmd) '>' '<' fout fin
    (O_WRONLY ||| O_CREAT ||| O_TRUNC) O_RDONLY 1 0 w0 (Or.inl rfl) (Or.inr rfl)
    (by decide) hok
  have r2 := runcmd_two_redirs o (argvOf cmd) '<' '>' fin fout
    O_RDONLY (O_WRONLY ||| O_CREAT ||| O_TRUNC) 0 1 w0 (Or.inr rfl) (Or.inl rfl)
    (by decide) hok
  exact ⟨p1, p2, r1.1, r2.1, r1.2.2, r1.2.1, r2.2.1, r2.2.2⟩

theorem redirection_order_independent_witness :
    parsecmd (render (["cmd".toList].map Tok.word
        ++ [Tok.greater, Tok.word "out".toList, Tok.less, Tok.word "in".toList]))
      = PResult.ok (Cmd.redir '<'
          (Cmd.redir '>' (Cmd.exec (argvOf ["cmd".toList])) "out".toList
            (O_WRONLY ||| O_CREAT ||| O_TRUNC) 1)
          "in".toList O_RDONLY 0) ∧
    parsecmd (render (["cmd".toList].map Tok.word
        ++ [Tok.less, Tok.word "in".toList, Tok.greater, Tok.word "out".toList]))
      = PResult.ok (Cmd.redir '>'
          (Cmd.redir '<' (Cmd.exec (argvOf ["cmd".toList])) "in".toList O_RDONLY 0)
          "out".toList (O_WRONLY ||| O_CREAT ||| O_TRUNC) 1) ∧
    runcmd Oracle.always (Cmd.redir '<'
          (Cmd.redir '>' (Cmd.exec (argvOf ["cmd".toList])) "out".toList
            (O_WRONLY ||| O_CREAT ||| O_TRUNC) 1)
          "in".toList O_RDONLY 0) World.init
      = runcmd Oracle.always (Cmd.exec (argvOf ["cmd".toList]))
          (afterRedir Oracle.always "out".toList (O_WRONLY ||| O_CREAT ||| O_TRUNC) 1
            (afterRedir Oracle.always "in".toList O_RDONLY 0 World.init)) ∧
    runcmd Oracle.always (Cmd.redir '>'
          (Cmd.redir '<' (Cmd.exec (argvOf ["cmd".toList])) "in".toList O_RDONLY 0)
          "out".toList (O_WRONLY ||| O_CREAT ||| O_TRUNC) 1) World.init
      = runcmd Oracle.always (Cmd.exec (argvOf ["cmd".toList]))
          (afterRedir Oracle.always "in".toList O_RDONLY 0
            (afterRedir Oracle.always "out".toList (O_WRONLY ||| O_CREAT ||| O_TRUNC) 1
              World.init)) ∧
    (afterRedir Oracle.always "out".toList (O_WRONLY ||| O_CREAT ||| O_TRUNC) 1
        (afterRedir Oracle.always "in".toList O_RDONLY 0 World.init)).fdGet 0
      = some (Obj.file "in".toList O_RDONLY) ∧
    (afterRedir Oracle.always "out".toList (O_WRONLY ||| O_CREAT ||| O_TRUNC) 1
        (afterRedir Oracle.always "in".toList O_RDONLY 0 World.init)).fdGet 1
      = some (Obj.file "out".toList (O_WRONLY ||| O_CREAT ||| O_TRUNC)) ∧
    (afterRedir Oracle.always "in".toList O_RDONLY 0
        (afterRedir Oracle.always "out".toList (O_WRONLY ||| O_CREAT ||| O_TRUNC) 1
          World.init)).fdGet 0
      = some (Obj.file "in".toList O_RDONLY) ∧
    (afterRedir Oracle.always "in".toList O_RDONLY 0
        (afterRedir Oracle.always "out".toList (O_WRONLY ||| O_CREAT ||| O_TRUNC) 1
          World.init)).fdGet 1
      = some (Obj.file "out".toList (O_WRONLY ||| O_CREAT ||| O_TRUNC)) :=
  redirection_order_independent ["cmd".toList] "in".toList "out".toList
    (by decide) (by decide) (by decide) (by decide) Oracle.always World.init
    (fun _ _ => rfl)

/-! ### Blank lines, trailing bars and missing file names -/

theorem not_NUL_of_ws {c : Char} (h : c ∈ whitespace) : c ≠ NUL := by
  intro h0; subst h0; revert h; decide

theorem blanks_nonul (blanks : List Char) (h : ∀ c ∈ blanks, c ∈ whitespace) :
    NUL ∉ blanks := fun hin => not_NUL_of_ws (h NUL hin) rfl

theorem runcmd_exec_empty (o : Oracle) (w : World) :
    runcmd o (Cmd.exec (List.replicate MAXARGS none)) w
      = [Flow.halt { w with log := w.log ++ [Event.exit 0] }] := by
  simp [runcmd, MAXARGS, List.replicate, sysExit]

theorem runcmd_null (o : Oracle) (w : World) :
    runcmd o Cmd.null w = [Flow.halt { w with log := w.log ++ [Event.exit 0] }] := by
  simp [runcmd, sysExit]

/-- Claim C7: for every line that consists of whitespace only (the empty
line included), `parsecmd` succeeds and returns an `execcmd` node whose
`argv` is empty (all slots null), and `runcmd` on that node, as on the null
tree, does nothing but `exit(0)`: no `fork`, `pipe`, `open` or `execvp`. -/
theorem blank_line_exits_zero (line : List Char) (hws : ∀ c ∈ line, c ∈ whitespace)
    (o : Oracle) (w : World) :
    parsecmd line = PResult.ok (Cmd.exec (List.replicate MAXARGS none)) ∧
    argvList (List.replicate MAXARGS none) = [] ∧
    runcmd o (Cmd.exec (List.replicate MAXARGS none)) w
      = [Flow.halt { w with log := w.log ++ [Event.exit 0] }] ∧
    runcmd o Cmd.null w = [Flow.halt { w with log := w.log ++ [Event.exit 0] }] := by
  refine ⟨?_, rfl, runcmd_exec_empty o w, runcmd_null o w⟩
  rw [parsecmd_eq_lineT_of_nonul _ (blanks_nonul line hws)]
  have := tokenize_blanks line [] hws
  rw [List.append_nil] at this
  rw [this]
  rfl

theorem blank_line_exits_zero_witness :
    parsecmd "  \t ".toList = PResult.ok (Cmd.exec (List.replicate MAXARGS none)) ∧
    argvList (List.replicate MAXARGS none) = [] ∧
    runcmd Oracle.always (Cmd.exec (List.replicate MAXARGS none)) World.init
      = [Flow.halt { World.init with log := World.init.log ++ [Event.exit 0] }] ∧
    runcmd Oracle.always Cmd.null World.init
      = [Flow.halt { World.init with log := World.init.log ++ [Event.exit 0] }] :=
  blank_line_exits_zero "  \t ".toList (by decide) Oracle.always World.init

/-- Claim C6 fails as stated: the line `ls | `, which ends with a pipe
operator with no command after it, is not rejected by `parsecmd`; it parses
to `Pipe(Exec[ls], Exec[])`. -/
theorem trailing_pipe_counterexample :
    parsecmd "ls | ".toList
      = PResult.ok (Cmd.pipe (Cmd.exec (argvOf ["ls".toList]))
          (Cmd.exec (List.replicate MAXARGS none))) ∧
    ¬ ∃ e, parsecmd "ls | ".toList = PResult.fail e := by
  have h : parsecmd "ls | ".toList
      = PResult.ok (Cmd.pipe (Cmd.exec (argvOf ["ls".toList]))
          (Cmd.exec (List.replicate MAXARGS none))) := by decide
  refine ⟨h, ?_⟩
  rintro ⟨e, he⟩
  rw [h] at he
  cases he

/-- Claim C6, amended: a line that ends with a pipe operator with no command
after it is accepted by `parsecmd`.  When the part `a` before the operator
(without `|`) parses alone to the tree `t`, the line parses to
`Pipe(t, Exec[])`, the right-hand side being an `execcmd` with empty `argv`,
on which `runcmd` exits with code 0 without calling `execvp`. -/
theorem trailing_pipe_accepted (a blanks : List Char) (t : Cmd)
    (ha : NUL ∉ a ∧ '|' ∉ a) (hb : ∀ c ∈ blanks, c ∈ whitespace)
    (ht : parsecmd a = PResult.ok t) (o : Oracle) (w : World) :
    parsecmd (a ++ '|' :: blanks)
      = PResult.ok (Cmd.pipe t (Cmd.exec (List.replicate MAXARGS none))) ∧
    runcmd o (Cmd.exec (List.replicate MAXARGS none)) w
      = [Flow.halt { w with log := w.log ++ [Event.exit 0] }] := by
  refine ⟨?_, runcmd_exec_empty o w⟩
  have hnul : NUL ∉ a ++ '|' :: blanks := by
    simp only [List.mem_append, List.mem_cons, not_or]
    exact ⟨ha.1, by decide, blanks_nonul blanks hb⟩
  rw [parsecmd_eq_lineT_of_nonul _ ha.1] at ht
  have hbl := tokenize_blanks blanks [] hb
  rw [List.append_nil] at hbl
  have hsym : symTok '|' = Tok.bar := rfl
  rw [parsecmd_eq_lineT_of_nonul _ hnul, tokenize_append_symbol a '|' blanks (by decide),
    hsym, lineT_append_bar _ _ _ _ (bar_not_mem_tokenize a ha.2), ht, hbl]
  rfl

theorem trailing_pipe_accepted_witness :
    parsecmd ("ls".toList ++ '|' :: " ".toList)
      = PResult.ok (Cmd.pipe (Cmd.exec (argvOf ["ls".toList]))
          (Cmd.exec (List.replicate MAXARGS none))) ∧
    runcmd Oracle.always (Cmd.exec (List.replicate MAXARGS none)) World.init
      = [Flow.halt { World.init with log := World.init.log ++ [Event.exit 0] }] :=
  trailing_pipe_accepted "ls".toList " ".toList (Cmd.exec (argvOf ["ls".toList]))
    (by decide) (by decide) (by decide) Oracle.always World.init

theorem isOk_map {α β : Type} (f : α → β) (r : PResult α) : (r.map f).isOk = r.isOk := by
  cases r <;> rfl

/-- A redirection operator that is not followed by a word makes the parse
fail, and with the message of the missing file if what precedes it parses. -/
theorem lineT_bad_redir (ret : Cmd) (argc : Nat) (A : List Tok) :
    ∀ (op : Tok) (B : List Tok), (op = Tok.less ∨ op = Tok.greater) →
      (∀ w ts, B = Tok.word w :: ts → False) →
      (lineT ret argc (A ++ op :: B) = PResult.fail PErr.missingFile ∨
        lineT ret argc (A ++ op :: B) = PResult.fail PErr.tooManyArgs) ∧
      ((lineT ret argc A).isOk = true →
        lineT ret argc (A ++ op :: B) = PResult.fail PErr.missingFile) := by
  induction ret, argc, A using lineT.induct with
  | case1 ret argc =>
    intro op B hop hB
    have : lineT ret argc ([] ++ op :: B) = PResult.fail PErr.missingFile := by
      rcases hop with rfl | rfl
      · rw [List.nil_append, lineT]; exact hB
      · rw [List.nil_append, lineT]; exact hB
    exact ⟨Or.inl this, fun _ => this⟩
  | case2 ret argc ts ih =>
    intro op B hop hB
    obtain ⟨i1, i2⟩ := ih op B hop hB
    rw [List.cons_append, lineT]
    constructor
    · rcases i1 with h | h
      · left; rw [h]; rfl
      · right; rw [h]; rfl
    · intro hok
      rw [lineT, isOk_map] at hok
      rw [i2 hok]; rfl
  | case3 ret argc w ts hge =>
    intro op B _ _
    rw [List.cons_append, lineT, if_pos hge]
    refine ⟨Or.inr rfl, ?_⟩
    intro hok
    rw [lineT, if_pos hge] at hok
    cases hok
  | case4 ret argc w ts hge ih =>
    intro op B hop hB
    rw [List.cons_append, lineT, lineT, if_neg hge, if_neg hge]
    exact ih op B hop hB
  | case5 ret argc w ts ih =>
    intro op B hop hB
    rw [List.cons_append, List.cons_append, lineT, lineT]
    exact ih op B hop hB
  | case6 ret argc w ts ih =>
    intro op B hop hB
    rw [List.cons_append, List.cons_append, lineT, lineT]
    exact ih op B hop hB
  | case7 ret argc tail hn =>
    intro op B hop hB
    have hn2 : ∀ w ts, tail ++ op :: B = Tok.word w :: ts → False := by
      intro w ts hh
      cases tail with
      | nil =>
        simp only [List.nil_append, List.cons.injEq] at hh
        rcases hop with h | h <;> rw [h] at hh <;> cases hh.1
      | cons t tl =>
        simp only [List.cons_append, List.cons.injEq] at hh
        exact hn w tl (by rw [hh.1])
    have : lineT ret argc (Tok.less :: tail ++ op :: B) = PResult.fail PErr.missingFile := by
      rw [List.cons_append, lineT]; exact hn2
    exact ⟨Or.inl this, fun _ => this⟩
  | case8 ret argc tail hn =>
    intro op B hop hB
    have hn2 : ∀ w ts, tail ++ op :: B = Tok.word w :: ts → False := by
      intro w ts hh
      cases tail with
      | nil =>
        simp only [List.nil_append, List.cons.injEq] at hh
        rcases hop with h | h <;> rw [h] at hh <;> cases hh.1
      | cons t tl =>
        simp only [List.cons_append, List.cons.injEq] at hh
        exact hn w tl (by rw [hh.1])
    have : lineT ret argc (Tok.greater :: tail ++ op :: B) = PResult.fail PErr.missingFile := by
      rw [List.cons_append, lineT]; exact hn2
    exact ⟨Or.inl this, fun _ => this⟩

theorem takeWhile_nonul_append (x y : List Char) (hx : NUL ∉ x) :
    (x ++ y).takeWhile (fun c => c != NUL) = x ++ y.takeWhile (fun c => c != NUL) := by
  apply List.takeWhile_append_of_pos
  intro c hc
  simp only [bne_iff_ne, ne_eq]
  intro h
  exact hx (h ▸ hc)

/-- The tokens of what follows the operator do not start with a word. -/
theorem tokenize_post_not_word (post : List Char)
    (hpost : post = [] ∨ ∃ c tl, post = c :: tl ∧ (c = NUL ∨ c ∈ symbols)) :
    ∀ w ts, tokenize (post.takeWhile (fun c => c != NUL)) = Tok.word w :: ts → False := by
  intro w ts h
  rcases hpost with rfl | ⟨c, tl, rfl, hc | hc⟩
  · simp [tokenize, tokenizeAux, flushWord] at h
  · subst hc
    simp [tokenize, tokenizeAux, flushWord] at h
  · have hne : c ≠ NUL := by
      intro h0; subst h0; revert hc; decide
    rw [List.takeWhile_cons_of_pos (by simpa using hne),
      tokenize_sym _ _ (strchr_ws_of_symbol hc) (strchr_sym_of_symbol hc)] at h
    simp only [List.cons.injEq] at h
    exact symTok_ne_word _ _ h.1

/-- Claim C5: a redirection operator that is not followed by a file name is
rejected.  For every line `pre op blanks post` in which `op` is `<` or `>`,
`blanks` is whitespace and `post` is empty or begins with the end of the
string (NUL) or with a symbol, `parsecmd` returns no tree: it fails with
"missing file for redirection", or with "too many args" when an earlier
part of the line has already failed so; and it fails with "missing file for
redirection" whenever what precedes the operator parses alone.  So does
`ls >`. -/
theorem missing_redirection_file (pre blanks post : List Char) (op : Char)
    (hop : op = '<' ∨ op = '>') (hpre : NUL ∉ pre) (hb : ∀ c ∈ blanks, c ∈ whitespace)
    (hpost : post = [] ∨ ∃ c tl, post = c :: tl ∧ (c = NUL ∨ c ∈ symbols)) :
    (parsecmd (pre ++ op :: (blanks ++ post)) = PResult.fail PErr.missingFile ∨
      parsecmd (pre ++ op :: (blanks ++ post)) = PResult.fail PErr.tooManyArgs) ∧
    ((parsecmd pre).isOk = true →
      parsecmd (pre ++ op :: (blanks ++ post)) = PResult.fail PErr.missingFile) ∧
    parsecmd "ls >".toList = PResult.fail PErr.missingFile := by
  have hopsym : op ∈ symbols := by rcases hop with rfl | rfl <;> decide
  have hopne : op ≠ NUL := by rcases hop with rfl | rfl <;> decide
  have htok : symTok op = Tok.less ∨ symTok op = Tok.greater := by
    rcases hop with rfl | rfl
    · exact Or.inl rfl
    · exact Or.inr rfl
  have hline : (pre ++ op :: (blanks ++ post)).takeWhile (fun c => c != NUL)
      = pre ++ op :: (blanks ++ post.takeWhile (fun c => c != NUL)) := by
    rw [takeWhile_nonul_append _ _ hpre, List.takeWhile_cons_of_pos (by simpa using hopne),
      takeWhile_nonul_append _ _ (blanks_nonul blanks hb)]
  have htoks : tokenize (pre ++ op :: (blanks ++ post.takeWhile (fun c => c != NUL)))
      = tokenize pre ++ symTok op :: tokenize (post.takeWhile (fun c => c != NUL)) := by
    rw [tokenize_append_symbol pre op _ hopsym, tokenize_blanks blanks _ hb]
  have key := lineT_bad_redir execcmd 0 (tokenize pre) (symTok op)
    (tokenize (post.takeWhile (fun c => c != NUL))) htok (tokenize_post_not_word post hpost)
  rw [parsecmd_eq_lineT, hline, htoks, parsecmd_eq_lineT_of_nonul pre hpre]
  exact ⟨key.1, key.2, by decide⟩

theorem missing_redirection_file_witness :
    (parsecmd ("cat a".toList ++ '<' :: ("  ".toList ++ "| wc".toList))
        = PResult.fail PErr.missingFile ∨
      parsecmd ("cat a".toList ++ '<' :: ("  ".toList ++ "| wc".toList))
        = PResult.fail PErr.tooManyArgs) ∧
    ((parsecmd "cat a".toList).isOk = true →
      parsecmd ("cat a".toList ++ '<' :: ("  ".toList ++ "| wc".toList))
        = PResult.fail PErr.missingFile) ∧
    parsecmd "ls >".toList = PResult.fail PErr.missingFile :=
  missing_redirection_file "cat a".toList "  ".toList "| wc".toList '<'
    (by decide) (by decide) (by decide)
    (Or.inr ⟨'|', " wc".toList, rfl, Or.inr (by decide)⟩)

/-! ### The bound on the number of arguments -/

theorem commands_ne_nil (ts : List Tok) : commands ts ≠ [] := by
  cases ts with
  | nil => simp [commands]
  | cons t ts =>
    cases t <;> simp only [commands] <;> first
      | (split <;> simp)
      | simp

theorem commands_cons (t : Tok) (ts : List Tok) (ht : t ≠ Tok.bar) :
    commands (t :: ts) = (t :: (commands ts).headD []) :: (commands ts).tail := by
  have hne := commands_ne_nil ts
  cases t with
  | bar => exact absurd rfl ht
  | word w =>
    simp only [commands]
    cases h : commands ts with
    | nil => exact absurd h hne
    | cons c cs => rfl
  | less =>
    simp only [commands]
    cases h : commands ts with
    | nil => exact absurd h hne
    | cons c cs => rfl
  | greater =>
    simp only [commands]
    cases h : commands ts with
    | nil => exact absurd h hne
    | cons c cs => rfl

theorem commands_eq (ts : List Tok) :
    commands ts = (commands ts).headD [] :: (commands ts).tail := by
  cases h : commands ts with
  | nil => exact absurd h (commands_ne_nil ts)
  | cons c cs => rfl

theorem map_eq_fail {α β : Type} (f : α → β) (r : PResult α) (e : PErr) :
    r.map f = PResult.fail e ↔ r = PResult.fail e := by
  cases r <;> simp [PResult.map]

/-- When the parse on tokens fails for too many arguments. -/
theorem lineT_tooMany (ret : Cmd) (argc : Nat) (ts : List Tok) :
    wfRedirs ts = true → argc < MAXARGS →
      (lineT ret argc ts = PResult.fail PErr.tooManyArgs ↔
        (MAXARGS ≤ argc + (argWords ((commands ts).headD [])).length ∨
          ∃ c ∈ (commands ts).tail, MAXARGS ≤ (argWords c).length)) := by
  induction ret, argc, ts using lineT.induct with
  | case1 ret argc =>
    intro _ hlt
    simp only [lineT, commands, List.headD_cons, argWords, List.length_nil, Nat.add_zero,
      List.tail_cons, List.not_mem_nil, false_and, exists_false, or_false]
    constructor
    · intro h; cases h
    · intro h; omega
  | case2 ret argc ts ih =>
    intro hwf hlt
    simp only [wfRedirs] at hwf
    have ih := ih hwf (by decide)
    rw [lineT, map_eq_fail, ih]
    simp only [commands, List.headD_cons, argWords, List.length_nil, Nat.add_zero,
      List.tail_cons, Nat.zero_add]
    constructor
    · intro h
      right
      rw [commands_eq ts]
      rcases h with h | ⟨c, hc, h⟩
      · exact ⟨_, by simp, h⟩
      · exact ⟨c, by simp [hc], h⟩
    · intro h
      rcases h with h | ⟨c, hc, h⟩
      · omega
      · rw [commands_eq ts] at hc
        simp only [List.mem_cons] at hc
        rcases hc with rfl | hc
        · exact Or.inl h
        · exact Or.inr ⟨c, hc, h⟩
  | case3 ret argc w ts hge =>
    intro _ hlt
    rw [lineT, if_pos hge, commands_cons _ _ (by simp)]
    simp only [List.headD_cons, argWords, List.length_cons, List.tail_cons, true_iff]
    left; omega
  | case4 ret argc w ts hge ih =>
    intro hwf hlt
    simp only [wfRedirs] at hwf
    rw [lineT, if_neg hge, ih hwf (by omega), commands_cons _ _ (by simp)]
    simp only [List.headD_cons, argWords, List.length_cons, List.tail_cons]
    constructor
    · rintro (h | h)
      · left; omega
      · exact Or.inr h
    · rintro (h | h)
      · left; omega
      · exact Or.inr h
  | case5 ret argc w ts ih =>
    intro hwf hlt
    simp only [wfRedirs] at hwf
    rw [lineT, ih hwf hlt, commands_cons _ _ (by simp), commands_cons _ _ (by simp)]
    simp only [List.headD_cons, argWords, List.tail_cons]
  | case6 ret argc w ts ih =>
    intro hwf hlt
    simp only [wfRedirs] at hwf
    rw [lineT, ih hwf hlt, commands_cons _ _ (by simp), commands_cons _ _ (by simp)]
    simp only [List.headD_cons, argWords, List.tail_cons]
  | case7 ret argc tail hn =>
    intro hwf _
    rw [wfRedirs] at hwf
    · cases hwf
    · exact hn
  | case8 ret argc tail hn =>
    intro hwf _
    rw [wfRedirs] at hwf
    · cases hwf
    · exact hn

theorem execNodes_wrapRedirs (A : List (Option (List Char))) (rs : List Redir) :
    execNodes (wrapRedirs (Cmd.exec A) rs) = [A] := by
  induction rs using List.reverseRecOn with
  | nil => rfl
  | append_singleton rs r ih =>
    rw [wrapRedirs_snoc, redircmd, execNodes, ih]

/-- The `execcmd` nodes of a parsed tree hold at most nine arguments. -/
theorem lineT_execNodes (ret : Cmd) (argc : Nat) (ts : List Tok) :
    (∃ pre rs, ret = wrapRedirs (Cmd.exec (argvOf pre)) rs ∧ pre.length = argc ∧
      argc < MAXARGS) →
    ∀ t, lineT ret argc ts = PResult.ok t →
      ∀ argv ∈ execNodes t, ∃ ws : List (List Char), ws.length ≤ 9 ∧ argv = argvOf ws := by
  induction ret, argc, ts using lineT.induct with
  | case1 ret argc =>
    rintro ⟨pre, rs, rfl, rfl, hlt⟩ t h argv hargv
    simp only [lineT, PResult.ok.injEq] at h
    rw [← h, storeArg_wrapRedirs, argvOf_set_none pre hlt, execNodes_wrapRedirs] at hargv
    simp only [List.mem_singleton] at hargv
    exact ⟨pre, by simp only [MAXARGS] at hlt; omega, hargv⟩
  | case2 ret argc ts ih =>
    rintro ⟨pre, rs, rfl, rfl, hlt⟩ t h argv hargv
    rw [lineT] at h
    cases hr : lineT execcmd 0 ts with
    | ok r =>
      rw [hr] at h
      simp only [PResult.map, PResult.ok.injEq] at h
      rw [← h, pipecmd, execNodes, storeArg_wrapRedirs, argvOf_set_none pre hlt,
        execNodes_wrapRedirs] at hargv
      simp only [List.singleton_append, List.mem_cons] at hargv
      rcases hargv with rfl | hargv
      · exact ⟨pre, by simp only [MAXARGS] at hlt; omega, rfl⟩
      · exact ih ⟨[], [], rfl, rfl, by decide⟩ r hr argv hargv
    | fail e => rw [hr] at h; cases h
    | diverge => rw [hr] at h; cases h
  | case3 ret argc w ts hge =>
    intro _ t h
    rw [lineT, if_pos hge] at h
    cases h
  | case4 ret argc w ts hge ih =>
    rintro ⟨pre, rs, rfl, rfl, hlt⟩ t h
    rw [lineT, if_neg hge, storeArg_wrapRedirs, argvOf_set_some pre w hlt] at h
    exact ih ⟨pre ++ [w], rs, by rw [storeArg_wrapRedirs, argvOf_set_some pre w hlt],
      by simp, by omega⟩ t (by
        rw [storeArg_wrapRedirs, argvOf_set_some pre w hlt]; exact h)
  | case5 ret argc w ts ih =>
    rintro ⟨pre, rs, rfl, rfl, hlt⟩ t h
    rw [lineT] at h
    exact ih ⟨pre, rs ++ [('<', w)], by rw [wrapRedirs_snoc], rfl, hlt⟩ t h
  | case6 ret argc w ts ih =>
    rintro ⟨pre, rs, rfl, rfl, hlt⟩ t h
    rw [lineT] at h
    exact ih ⟨pre, rs ++ [('>', w)], by rw [wrapRedirs_snoc], rfl, hlt⟩ t h
  | case7 ret argc tail hn =>
    intro _ t h
    rw [lineT] at h
    · cases h
    · exact hn
  | case8 ret argc tail hn =>
    intro _ t h
    rw [lineT] at h
    · cases h
    · exact hn

theorem argvOf_length (ws : List (List Char)) (h : ws.length ≤ 9) :
    (argvOf ws).length = MAXARGS ∧ (argvOf ws).getD ws.length none = none ∧
    argvList (argvOf ws) = ws := by
  refine ⟨?_, ?_, argvList_argvOf ws⟩
  · simp only [argvOf, List.length_append, List.length_map, List.length_replicate, MAXARGS]
    omega
  · have : (argvOf ws).set ws.length none = argvOf ws :=
      argvOf_set_none ws (by simp only [MAXARGS]; omega)
    have hl : ws.length < (argvOf ws).length := by
      simp only [argvOf, List.length_append, List.length_map, List.length_replicate, MAXARGS]
      omega
    rw [← this, List.getD_eq_getElem?_getD, List.getElem?_set_self (by simpa using hl)]
    rfl

/-- Claim C8: the bound on arguments is `MAXARGS = 10` slots, one of them for
the terminator.  For every line whose redirection operators are each
followed by a word, `parsecmd` fails with "too many args" if and only if
some command of the pipeline has at least 10 argument words, the file names
of redirections not being counted; and every `execcmd` node of a returned
tree has an `argv` of `MAXARGS` slots that holds at most 9 arguments
followed by a null slot. -/
theorem too_many_args_iff (mem : List Char)
    (hwf : wfRedirs (tokenize (mem.takeWhile (fun c => c != NUL))) = true) :
    MAXARGS = 10 ∧
    (parsecmd mem = PResult.fail PErr.tooManyArgs ↔
      ∃ c ∈ commands (tokenize (mem.takeWhile (fun c => c != NUL))),
        10 ≤ (argWords c).length) ∧
    (∀ t, parsecmd mem = PResult.ok t → ∀ argv ∈ execNodes t,
      ∃ ws : List (List Char), ws.length ≤ 9 ∧ argv = argvOf ws ∧
        argv.length = MAXARGS ∧ argv.getD ws.length none = none ∧ argvList argv = ws) := by
  refine ⟨rfl, ?_, ?_⟩
  · rw [parsecmd_eq_lineT, lineT_tooMany execcmd 0 _ hwf (by decide)]
    generalize tokenize (mem.takeWhile (fun c => c != NUL)) = ts
    simp only [Nat.zero_add, MAXARGS]
    constructor
    · intro h
      rw [commands_eq ts]
      rcases h with h | ⟨c, hc, h⟩
      · exact ⟨_, by simp, h⟩
      · exact ⟨c, by simp [hc], h⟩
    · rintro ⟨c, hc, h⟩
      rw [commands_eq ts] at hc
      simp only [List.mem_cons] at hc
      rcases hc with rfl | hc
      · exact Or.inl h
      · exact Or.inr ⟨c, hc, h⟩
  · intro t ht argv hargv
    rw [parsecmd_eq_lineT] at ht
    obtain ⟨ws, hws, rfl⟩ :=
      lineT_execNodes execcmd 0 _ ⟨[], [], rfl, rfl, by decide⟩ t ht argv hargv
    obtain ⟨l1, l2, l3⟩ := argvOf_length ws hws
    exact ⟨ws, hws, rfl, l1, l2, l3⟩

/-! ### The tokenizer -/

/-- Claim C9: on a buffer without NUL before the end boundary `es` (where
the terminating NUL is) and a cursor `ps <= es`, `gettoken` skips leading
whitespace up to `q`; returns the end token 0 exactly when `q = es`; returns
the symbol itself, with `eq = q + 1`, when the character at `q` is `|`, `<`
or `>`; otherwise returns `'a'` with `[q, eq)` the non-empty maximal run of
characters that are neither whitespace nor symbols; and leaves the cursor
after the token and the whitespace that follows it, at the boundary or on a
character that is not whitespace. -/
theorem gettoken_spec (mem : List Char) (ps es : Nat)
    (hnul : ∀ i, i < es → deref mem i ≠ NUL) (hend : deref mem es = NUL) (hps : ps ≤ es) :
    -- leading whitespace is skipped
    ps ≤ (gettoken mem ps es).q ∧ (gettoken mem ps es).q ≤ es ∧
    (∀ i, ps ≤ i → i < (gettoken mem ps es).q → deref mem i ∈ whitespace) ∧
    ((gettoken mem ps es).q < es → deref mem (gettoken mem ps es).q ∉ whitespace) ∧
    -- the end token, exactly at the boundary
    ((gettoken mem ps es).ret = NUL ↔ (gettoken mem ps es).q = es) ∧
    ((gettoken mem ps es).q = es → (gettoken mem ps es).eq = es) ∧
    -- a symbol
    ((gettoken mem ps es).q < es → deref mem (gettoken mem ps es).q ∈ symbols →
      (gettoken mem ps es).ret = deref mem (gettoken mem ps es).q ∧
      (gettoken mem ps es).eq = (gettoken mem ps es).q + 1) ∧
    -- a word
    ((gettoken mem ps es).q < es → deref mem (gettoken mem ps es).q ∉ symbols →
      (gettoken mem ps es).ret = 'a' ∧
      (gettoken mem ps es).q < (gettoken mem ps es).eq ∧ (gettoken mem ps es).eq ≤ es ∧
      (∀ i, (gettoken mem ps es).q ≤ i → i < (gettoken mem ps es).eq →
        deref mem i ∉ whitespace ∧ deref mem i ∉ symbols) ∧
      ((gettoken mem ps es).eq < es →
        deref mem (gettoken mem ps es).eq ∈ whitespace ∨
        deref mem (gettoken mem ps es).eq ∈ symbols)) ∧
    -- trailing whitespace is skipped
    (gettoken mem ps es).eq ≤ (gettoken mem ps es).ps ∧ (gettoken mem ps es).ps ≤ es ∧
    (∀ i, (gettoken mem ps es).eq ≤ i → i < (gettoken mem ps es).ps →
      deref mem i ∈ whitespace) ∧
    ((gettoken mem ps es).ps < es → deref mem (gettoken mem ps es).ps ∉ whitespace) := by
  have hC : CStr mem es := ⟨hnul, hend⟩
  obtain ⟨a1, a2, a3, a4, a5, a6, a7, a8, a9, a10, a11, a12⟩ :=
    gettoken_facts mem ps es hC.1 hC.2 hps
  exact ⟨a1, a2, a3, a4, a5, a6, a7, a8, a9, a10, a11, a12⟩

/-- Claim C10: `peek` does not consume a token.  On a buffer without NUL
before the end boundary `es` and a cursor `ps <= es`, `peek` moves the cursor
only past whitespace, to the first character that is not whitespace or to
the boundary; it answers true exactly when that position is before the
boundary and its character is in `toks`; and `gettoken` from the new cursor
returns the same token, bounds and cursor as `gettoken` from the old one. -/
theorem peek_spec (mem : List Char) (ps es : Nat) (toks : List Char)
    (hnul : ∀ i, i < es → deref mem i ≠ NUL) (hend : deref mem es = NUL) (hps : ps ≤ es) :
    -- the cursor moves only past whitespace, to the first non-blank position
    ps ≤ (peek mem ps es toks).2 ∧ (peek mem ps es toks).2 ≤ es ∧
    (∀ i, ps ≤ i → i < (peek mem ps es toks).2 → deref mem i ∈ whitespace) ∧
    ((peek mem ps es toks).2 < es → deref mem (peek mem ps es toks).2 ∉ whitespace) ∧
    -- the answer
    ((peek mem ps es toks).1 = true ↔
      ((peek mem ps es toks).2 < es ∧ deref mem (peek mem ps es toks).2 ∈ toks)) ∧
    -- the next token is untouched
    gettoken mem (peek mem ps es toks).2 es = gettoken mem ps es := by
  have hC : CStr mem es := ⟨hnul, hend⟩
  obtain ⟨a1, a2, a3, a4, a5, a6⟩ := peek_facts mem ps es toks hC.1 hC.2 hps
  exact ⟨a1, a2, a3, a4, a5, a6⟩

theorem pipes_right_assoc_witness :
    parsecmd (joinPipes ["ls -l".toList, "grep x > out".toList, "wc".toList])
      = PResult.ok (pipeTree (["ls -l".toList, "grep x > out".toList, "wc".toList].map
          (fun a => treeOf (parsecmd a)))) ∧
    (∀ a ∈ ["ls -l".toList, "grep x > out".toList, "wc".toList],
      parsecmd a = PResult.ok (treeOf (parsecmd a)) ∧
      (treeOf (parsecmd a)).hasPipe = false) ∧
    (pipeTree (["ls -l".toList, "grep x > out".toList, "wc".toList].map
      (fun a => treeOf (parsecmd a)))).leftsNotPipe = true :=
  pipes_right_assoc ["ls -l".toList, "grep x > out".toList, "wc".toList]
    (by decide) (by decide) (by decide)

theorem too_many_args_iff_witness :
    MAXARGS = 10 ∧
    (parsecmd "a b c d e f g h i j | x > f".toList = PResult.fail PErr.tooManyArgs ↔
      ∃ c ∈ commands (tokenize
          ("a b c d e f g h i j | x > f".toList.takeWhile (fun c => c != NUL))),
        10 ≤ (argWords c).length) ∧
    (∀ t, parsecmd "a b c d e f g h i j | x > f".toList = PResult.ok t →
      ∀ argv ∈ execNodes t,
      ∃ ws : List (List Char), ws.length ≤ 9 ∧ argv = argvOf ws ∧
        argv.length = MAXARGS ∧ argv.getD ws.length none = none ∧ argvList argv = ws) :=
  too_many_args_iff "a b c d e f g h i j | x > f".toList (by decide)

theorem peek_spec_witness :
    0 ≤ (peek "  | wc".toList 0 6 ['|']).2 ∧ (peek "  | wc".toList 0 6 ['|']).2 ≤ 6 ∧
    (∀ i, 0 ≤ i → i < (peek "  | wc".toList 0 6 ['|']).2 →
      deref "  | wc".toList i ∈ whitespace) ∧
    ((peek "  | wc".toList 0 6 ['|']).2 < 6 →
      deref "  | wc".toList (peek "  | wc".toList 0 6 ['|']).2 ∉ whitespace) ∧
    ((peek "  | wc".toList 0 6 ['|']).1 = true ↔
      ((peek "  | wc".toList 0 6 ['|']).2 < 6 ∧
        deref "  | wc".toList (peek "  | wc".toList 0 6 ['|']).2 ∈ ['|'])) ∧
    gettoken "  | wc".toList (peek "  | wc".toList 0 6 ['|']).2 6
      = gettoken "  | wc".toList 0 6 :=
  peek_spec "  | wc".toList 0 6 ['|'] (by decide) (by decide) (by decide)

theorem gettoken_spec_witness :
    -- leading whitespace is skipped
    0 ≤ (gettoken "  ls -l|x".toList 0 9).q ∧ (gettoken "  ls -l|x".toList 0 9).q ≤ 9 ∧
    (∀ i, 0 ≤ i → i < (gettoken "  ls -l|x".toList 0 9).q → deref "  ls -l|x".toList i ∈ whitespace) ∧
    ((gettoken "  ls -l|x".toList 0 9).q < 9 → deref "  ls -l|x".toList (gettoken "  ls -l|x".toList 0 9).q ∉ whitespace) ∧
    -- the end token, exactly at the boundary
    ((gettoken "  ls -l|x".toList 0 9).ret = NUL ↔ (gettoken "  ls -l|x".toList 0 9).q = 9) ∧
    ((gettoken "  ls -l|x".toList 0 9).q = 9 → (gettoken "  ls -l|x".toList 0 9).eq = 9) ∧
    -- a symbol
    ((gettoken "  ls -l|x".toList 0 9).q < 9 → deref "  ls -l|x".toList (gettoken "  ls -l|x".toList 0 9).q ∈ symbols →
      (gettoken "  ls -l|x".toList 0 9).ret = deref "  ls -l|x".toList (gettoken "  ls -l|x".toList 0 9).q ∧
      (gettoken "  ls -l|x".toList 0 9).eq = (gettoken "  ls -l|x".toList 0 9).q + 1) ∧
    -- a word
    ((gettoken "  ls -l|x".toList 0 9).q < 9 → deref "  ls -l|x".toList (gettoken "  ls -l|x".toList 0 9).q ∉ symbols →
      (gettoken "  ls -l|x".toList 0 9).ret = 'a' ∧
      (gettoken "  ls -l|x".toList 0 9).q < (gettoken "  ls -l|x".toList 0 9).eq ∧ (gettoken "  ls -l|x".toList 0 9).eq ≤ 9 ∧
      (∀ i, (gettoken "  ls -l|x".toList 0 9).q ≤ i → i < (gettoken "  ls -l|x".toList 0 9).eq →
        deref "  ls -l|x".toList i ∉ whitespace ∧ deref "  ls -l|x".toList i ∉ symbols) ∧
      ((gettoken "  ls -l|x".toList 0 9).eq < 9 →
        deref "  ls -l|x".toList (gettoken "  ls -l|x".toList 0 9).eq ∈ whitespace ∨
        deref "  ls -l|x".toList (gettoken "  ls -l|x".toList 0 9).eq ∈ symbols)) ∧
    -- trailing whitespace is skipped
    (gettoken "  ls -l|x".toList 0 9).eq ≤ (gettoken "  ls -l|x".toList 0 9).ps ∧ (gettoken "  ls -l|x".toList 0 9).ps ≤ 9 ∧
    (∀ i, (gettoken "  ls -l|x".toList 0 9).eq ≤ i → i < (gettoken "  ls -l|x".toList 0 9).ps →
      deref "  ls -l|x".toList i ∈ whitespace) ∧
    ((gettoken "  ls -l|x".toList 0 9).ps < 9 → deref "  ls -l|x".toList (gettoken "  ls -l|x".toList 0 9).ps ∉ whitespace) :=
  gettoken_spec "  ls -l|x".toList 0 9 (by decide) (by decide) (by decide)

/-! ### A redirection among the words of a command -/

theorem symTok_redir_facts {op : Char} (hop : op = '<' ∨ op = '>') (f : List Char)
    (ts : List Tok) :
    argWords (symTok op :: Tok.word f :: ts) = argWords ts ∧
    redirsOf (symTok op :: Tok.word f :: ts) = (op, f) :: redirsOf ts ∧
    wfRedirs (symTok op :: Tok.word f :: ts) = wfRedirs ts ∧
    symTok op ≠ Tok.bar ∧ (∀ w, symTok op ≠ Tok.word w) := by
  rcases hop with rfl | rfl
  · exact ⟨rfl, rfl, rfl, by decide, fun w => by simp [symTok]⟩
  · exact ⟨rfl, rfl, rfl, by decide, fun w => by simp [symTok]⟩

/-- The parse of a command with one redirection written after its first `i`
words. -/
theorem parsecmd_redir_at (ws : List (List Char)) (f : List Char) (op : Char) (i : Nat)
    (hlen : ws.length ≤ 9) (hw : ∀ w ∈ ws, isWord w = true) (hf : isWord f = true)
    (hop : op = '<' ∨ op = '>') :
    parsecmd (render ((ws.take i).map Tok.word
        ++ symTok op :: Tok.word f :: (ws.drop i).map Tok.word))
      = PResult.ok (redircmd (Cmd.exec (argvOf ws)) f op) := by
  obtain ⟨s1, s2, s3, s4, s5⟩ := symTok_redir_facts hop f ((ws.drop i).map Tok.word)
  have hv : validToks ((ws.take i).map Tok.word
      ++ symTok op :: Tok.word f :: (ws.drop i).map Tok.word) := by
    intro w hin
    simp only [List.mem_append, List.mem_map, Tok.word.injEq, exists_eq_right,
      List.mem_cons] at hin
    rcases hin with hin | hin | hin | hin
    · exact hw w (List.mem_of_mem_take hin)
    · exact absurd hin.symm (s5 w)
    · rw [hin]; exact hf
    · exact hw w (List.mem_of_mem_drop hin)
  rw [parsecmd_render _ hv]
  have hargs : argWords ((ws.take i).map Tok.word
      ++ symTok op :: Tok.word f :: (ws.drop i).map Tok.word) = ws := by
    rw [argWords_word_append, s1, argWords_words, List.take_append_drop]
  have hred : redirsOf ((ws.take i).map Tok.word
      ++ symTok op :: Tok.word f :: (ws.drop i).map Tok.word) = [(op, f)] := by
    rw [redirsOf_word_append, s2, redirsOf_words]
  have := lineT_shape ((ws.take i).map Tok.word
      ++ symTok op :: Tok.word f :: (ws.drop i).map Tok.word) [] []
    (by
      simp only [List.mem_append, List.mem_cons, not_or]
      exact ⟨bar_not_mem_words _, fun h => s4 h.symm, by simp, bar_not_mem_words _⟩)
    (by rw [wfRedirs_word_append, s3, wfRedirs_words])
    (by rw [hargs]; simp [MAXARGS]; omega)
  rw [hargs, hred] at this
  simpa [wrapRedirs] using this

/-- Claim C16: the position of a redirection among the words of a command
does not change the tree.  For words `w1 .. wk` (k <= 9), a file name `f`, an
operator `op` that is `<` or `>` and any insertion point `i`, `parsecmd` of
`w1 .. wi op f w(i+1) .. wk` returns `Redirect(op, f, Exec[w1 .. wk])`: the
same tree for every `i`, with all the words, those before and those after the
redirection, in order in the `argv` of the one `execcmd` node. -/
theorem redirection_position_irrelevant (ws : List (List Char)) (f : List Char) (op : Char)
    (i : Nat) (hlen : ws.length ≤ 9) (hw : ∀ w ∈ ws, isWord w = true)
    (hf : isWord f = true) (hop : op = '<' ∨ op = '>') :
    parsecmd (render ((ws.take i).map Tok.word
        ++ symTok op :: Tok.word f :: (ws.drop i).map Tok.word))
      = PResult.ok (redircmd (Cmd.exec (argvOf ws)) f op) ∧
    redircmd (Cmd.exec (argvOf ws)) f op
      = Cmd.redir op (Cmd.exec (argvOf ws)) f
          (if op = '<' then O_RDONLY else O_WRONLY ||| O_CREAT ||| O_TRUNC)
          (if op = '<' then 0 else 1) ∧
    execNodes (redircmd (Cmd.exec (argvOf ws)) f op) = [argvOf ws] ∧
    argvList (argvOf ws) = ws := by
  refine ⟨parsecmd_redir_at ws f op i hlen hw hf hop, rfl, rfl, argvList_argvOf ws⟩

theorem redirection_position_irrelevant_witness :
    parsecmd (render ((["grep".toList, "-n".toList, "x".toList].take 1).map Tok.word
        ++ symTok '<' :: Tok.word "in".toList
          :: (["grep".toList, "-n".toList, "x".toList].drop 1).map Tok.word))
      = PResult.ok (redircmd (Cmd.exec (argvOf ["grep".toList, "-n".toList, "x".toList]))
          "in".toList '<') ∧
    redircmd (Cmd.exec (argvOf ["grep".toList, "-n".toList, "x".toList])) "in".toList '<'
      = Cmd.redir '<' (Cmd.exec (argvOf ["grep".toList, "-n".toList, "x".toList])) "in".toList
          (if '<' = '<' then O_RDONLY else O_WRONLY ||| O_CREAT ||| O_TRUNC)
          (if '<' = '<' then 0 else 1) ∧
    execNodes (redircmd (Cmd.exec (argvOf ["grep".toList, "-n".toList, "x".toList]))
        "in".toList '<')
      = [argvOf ["grep".toList, "-n".toList, "x".toList]] ∧
    argvList (argvOf ["grep".toList, "-n".toList, "x".toList])
      = ["grep".toList, "-n".toList, "x".toList] :=
  redirection_position_irrelevant ["grep".toList, "-n".toList, "x".toList] "in".toList '<' 1
    (by decide) (by decide) (by decide) (by decide)

/-! ### The failures of the parser and its termination -/

/-- The parse on tokens returns a tree or fails for a missing file name or
for too many arguments. -/
theorem lineT_cases (ret : Cmd) (argc : Nat) (ts : List Tok) :
    (∃ t, lineT ret argc ts = PResult.ok t) ∨
    lineT ret argc ts = PResult.fail PErr.missingFile ∨
    lineT ret argc ts = PResult.fail PErr.tooManyArgs := by
  induction ret, argc, ts using lineT.induct with
  | case1 ret argc => exact Or.inl ⟨_, by rw [lineT]⟩
  | case2 ret argc ts ih =>
    rw [lineT]
    rcases ih with ⟨t, h⟩ | h | h
    · exact Or.inl ⟨_, by rw [h]; rfl⟩
    · right; left; rw [h]; rfl
    · right; right; rw [h]; rfl
  | case3 ret argc w ts hge => right; right; rw [lineT, if_pos hge]
  | case4 ret argc w ts hge ih => rw [lineT, if_neg hge]; exact ih
  | case5 ret argc w ts ih => rw [lineT]; exact ih
  | case6 ret argc w ts ih => rw [lineT]; exact ih
  | case7 ret argc tail hn =>
    right; left
    rw [lineT]; exact hn
  | case8 ret argc tail hn =>
    right; left
    rw [lineT]; exact hn

theorem cmdT_cases (ret : Cmd) (argc : Nat) (ts : List Tok) :
    (∃ t, cmdT ret argc ts = PResult.ok t) ∨
    cmdT ret argc ts = PResult.fail PErr.missingFile ∨
    cmdT ret argc ts = PResult.fail PErr.tooManyArgs := by
  induction ret, argc, ts using cmdT.induct with
  | case1 ret argc => exact Or.inl ⟨_, by rw [cmdT]⟩
  | case2 ret argc ts => exact Or.inl ⟨_, by rw [cmdT]⟩
  | case3 ret argc w ts hge => right; right; rw [cmdT, if_pos hge]
  | case4 ret argc w ts hge ih => rw [cmdT, if_neg hge]; exact ih
  | case5 ret argc w ts ih => rw [cmdT]; exact ih
  | case6 ret argc w ts ih => rw [cmdT]; exact ih
  | case7 ret argc tail hn =>
    right; left
    rw [cmdT]; exact hn
  | case8 ret argc tail hn =>
    right; left
    rw [cmdT]; exact hn

theorem redirsT_cases (cmd : Cmd) (ts : List Tok) :
    (∃ t, redirsT cmd ts = PResult.ok t) ∨ redirsT cmd ts = PResult.fail PErr.missingFile := by
  induction cmd, ts using redirsT.induct with
  | case1 cmd w ts ih => rw [redirsT]; exact ih
  | case2 cmd w ts ih => rw [redirsT]; exact ih
  | case3 cmd tail hn => right; rw [redirsT]; exact hn
  | case4 cmd tail hn => right; rw [redirsT]; exact hn
  | case5 cmd ts h1 h2 h3 h4 =>
    left
    refine ⟨(cmd, ts), ?_⟩
    rw [redirsT]
    · exact h1
    · exact h2
    · exact h3
    · exact h4

/-- What a simulation by a result on tokens that is a value or one of the
two failures says of the result of the program. -/
theorem Sim.cases {mem : List Char} {es ps : Nat} {r : PResult (Cmd × Nat)}
    {t : PResult (Cmd × List Tok)} (h : Sim mem es ps r t)
    (ht : (∃ a, t = PResult.ok a) ∨ t = PResult.fail PErr.missingFile ∨
      t = PResult.fail PErr.tooManyArgs) :
    (∃ c s ts, r = PResult.ok (c, s) ∧ t = PResult.ok (c, ts) ∧ ps ≤ s ∧ s ≤ es ∧
      tokenize (rest mem es s) = ts) ∨
    (r = PResult.fail PErr.missingFile ∧ t = PResult.fail PErr.missingFile) ∨
    (r = PResult.fail PErr.tooManyArgs ∧ t = PResult.fail PErr.tooManyArgs) := by
  cases r with
  | ok a =>
    cases t with
    | ok b =>
      obtain ⟨c, s⟩ := a
      obtain ⟨c1, ts⟩ := b
      simp only [Sim] at h
      obtain ⟨rfl, h2, h3, h4⟩ := h
      exact Or.inl ⟨c, s, ts, rfl, rfl, h2, h3, h4⟩
    | fail e => cases a; simp [Sim] at h
    | diverge => cases a; simp [Sim] at h
  | fail e =>
    cases t with
    | ok b => simp [Sim] at h
    | fail e1 =>
      simp only [Sim] at h
      subst h
      rcases ht with ⟨a, ha⟩ | ha | ha
      · cases ha
      · right; left
        simp only [PResult.fail.injEq] at ha
        subst ha
        exact ⟨rfl, rfl⟩
      · right; right
        simp only [PResult.fail.injEq] at ha
        subst ha
        exact ⟨rfl, rfl⟩
    | diverge => simp [Sim] at h
  | diverge => simp [Sim] at h

theorem map_cases {α β : Type} (f : α → β) {r : PResult α}
    (h : (∃ t, r = PResult.ok t) ∨ r = PResult.fail PErr.missingFile ∨
      r = PResult.fail PErr.tooManyArgs) :
    (∃ t, r.map f = PResult.ok t) ∨ r.map f = PResult.fail PErr.missingFile ∨
      r.map f = PResult.fail PErr.tooManyArgs := by
  rcases h with ⟨t, rfl⟩ | rfl | rfl
  · exact Or.inl ⟨_, rfl⟩
  · exact Or.inr (Or.inl rfl)
  · exact Or.inr (Or.inr rfl)

/-- The cursor that `parsepipe` returns is not on whitespace before the
boundary: the whitespace loop does not move it. -/
theorem parsepipeFuel_cursor (mem : List Char) (es : Nat) :
    ∀ f ps c s, parsepipeFuel mem es f ps = PResult.ok (c, s) → skipws mem es s = s := by
  intro f
  induction f with
  | zero => intro ps c s h; simp [parsepipeFuel] at h
  | succ f ih =>
    intro ps c s h
    simp only [parsepipeFuel] at h
    cases hp : parseexec mem ps es with
    | ok a =>
      obtain ⟨c1, ps1⟩ := a
      rw [hp] at h
      simp only at h
      by_cases hpk : (peek mem ps1 es ['|']).1 = true
      · rw [if_pos hpk] at h
        cases hr : parsepipeFuel mem es f (gettoken mem (peek mem ps1 es ['|']).2 es).ps with
        | ok b =>
          obtain ⟨c2, s2⟩ := b
          rw [hr] at h
          simp only [PResult.ok.injEq, Prod.mk.injEq] at h
          rw [← h.2]
          exact ih _ c2 s2 hr
        | fail e => rw [hr] at h; cases h
        | diverge => rw [hr] at h; cases h
      · rw [if_neg hpk] at h
        simp only [PResult.ok.injEq, Prod.mk.injEq] at h
        rw [← h.2]
        exact skipws_idem mem es ps1
    | fail e => rw [hp] at h; cases h
    | diverge => rw [hp] at h; cases h

/-- The results of `parsepipe`: a tree with the cursor at the end boundary,
or one of the two failures; the same for every sufficient fuel. -/
theorem parsepipeFuel_cases {mem : List Char} {es : Nat} (h : CStr mem es) (f ps : Nat)
    (hps : ps ≤ es) (hf : es - ps < f) :
    (∃ c, parsepipeFuel mem es f ps = PResult.ok (c, es) ∧
      lineT execcmd 0 (tokenize (rest mem es ps)) = PResult.ok c) ∨
    (parsepipeFuel mem es f ps = PResult.fail PErr.missingFile ∧
      lineT execcmd 0 (tokenize (rest mem es ps)) = PResult.fail PErr.missingFile) ∨
    (parsepipeFuel mem es f ps = PResult.fail PErr.tooManyArgs ∧
      lineT execcmd 0 (tokenize (rest mem es ps)) = PResult.fail PErr.tooManyArgs) := by
  have hsim := parsepipeFuel_sim h f ps hps hf
  have hc := map_cases (fun c => (c, ([] : List Tok)))
    (lineT_cases execcmd 0 (tokenize (rest mem es ps)))
  rcases hsim.cases hc with ⟨c, s, ts, h1, h2, h3, h4, h5⟩ | ⟨h1, h2⟩ | ⟨h1, h2⟩
  · left
    have hts : ts = [] ∧ lineT execcmd 0 (tokenize (rest mem es ps)) = PResult.ok c := by
      cases hl : lineT execcmd 0 (tokenize (rest mem es ps)) with
      | ok c2 =>
        rw [hl] at h2
        simp only [PResult.map, PResult.ok.injEq, Prod.mk.injEq] at h2
        exact ⟨h2.2.symm, by rw [h2.1]⟩
      | fail e => rw [hl] at h2; cases h2
      | diverge => rw [hl] at h2; cases h2
    have hcur := parsepipeFuel_cursor mem es f ps c s h1
    obtain ⟨-, -, -, -, p5⟩ := peek_tokens h h4 [] (by simp)
    have hse : s = es := by
      have := p5 (by rw [h5]; exact hts.1)
      rw [← hcur]
      exact this
    rw [hse] at h1
    exact ⟨c, h1, hts.2⟩
  · right; left
    refine ⟨h1, ?_⟩
    cases hl : lineT execcmd 0 (tokenize (rest mem es ps)) with
    | ok c2 => rw [hl] at h2; cases h2
    | fail e => rw [hl] at h2; simpa [PResult.map] using h2
    | diverge => rw [hl] at h2; cases h2
  · right; right
    refine ⟨h1, ?_⟩
    cases hl : lineT execcmd 0 (tokenize (rest mem es ps)) with
    | ok c2 => rw [hl] at h2; cases h2
    | fail e => rw [hl] at h2; simpa [PResult.map] using h2
    | diverge => rw [hl] at h2; cases h2

theorem Sim.ne_diverge {mem : List Char} {es ps : Nat} {r : PResult (Cmd × Nat)}
    {t : PResult (Cmd × List Tok)} (h : Sim mem es ps r t) : r ≠ PResult.diverge := by
  intro hr
  subst hr
  simp [Sim] at h

theorem parseexec_not_syntaxError {mem : List Char} {es : Nat} (h : CStr mem es) (ps : Nat)
    (hps : ps ≤ es) : parseexec mem ps es ≠ PResult.fail PErr.syntaxError := by
  intro hr
  have hsim := parseexec_sim h ps hps
  rcases hsim.cases (cmdT_cases execcmd 0 _) with ⟨c, s, ts, h1, -⟩ | ⟨h1, -⟩ | ⟨h1, -⟩ <;>
    rw [hr] at h1 <;> cases h1

/-- The loop of `parseexec` does not run out of fuel, from any state. -/
theorem parseexecLoop_ne_diverge {mem : List Char} {es : Nat} (h : CStr mem es)
    (f : Nat) (ret : Cmd) (argc ps : Nat) (hps : ps ≤ es) (hf : es - ps < f) :
    parseexecLoop mem es f ret argc ps ≠ PResult.diverge := by
  by_cases hnr : peekT (tokenize (rest mem es ps)) ['<', '>'] = false
  · exact (parseexecLoop_sim h f ret argc ps hps hf hnr).ne_diverge
  · cases f with
    | zero => omega
    | succ f =>
      obtain ⟨p1, p2, p3, p4, -⟩ := peek_tokens h hps ['|'] bar_toks_symbols
      simp only [parseexecLoop]
      rw [p4]
      generalize (peek mem ps es ['|']).2 = s at p1 p2 p3
      generalize tokenize (rest mem es ps) = ts at p3 hnr
      cases ts with
      | nil => simp [peekT] at hnr
      | cons tk ts1 =>
        obtain ⟨g1, -⟩ := gettoken_cons h p2 p3
        cases tk with
        | word w => simp [peekT] at hnr
        | bar => simp [peekT, Tok.code] at hnr
        | less =>
          have hpk : peekT (Tok.less :: ts1) ['|'] = false := rfl
          simp only [hpk, g1, Tok.code]
          rw [if_pos (by decide), if_neg (by decide), if_pos (by decide)]
          intro hh; cases hh
        | greater =>
          have hpk : peekT (Tok.greater :: ts1) ['|'] = false := rfl
          simp only [hpk, g1, Tok.code]
          rw [if_pos (by decide), if_neg (by decide), if_pos (by decide)]
          intro hh; cases hh

/-- Claim C18: the branches "syntax error" and "leftovers" of the parser are
never taken.  For every buffer, `parsecmd` either returns a tree, `parseline`
having returned with the cursor equal to the end boundary (the whole line is
consumed), or fails with "missing file for redirection" or with "too many
args"; `parseexec`, from any cursor up to the boundary, never fails with
"syntax error", that is, the token read in its loop is a word or the end of
the input; and whenever `parseline` returns, the cursor is at the end of the
line. -/
theorem parser_dead_branches (mem : List Char) :
    ((∃ t, parsecmd mem = PResult.ok t ∧
        parseline mem 0 (strlen mem) = PResult.ok (t, strlen mem)) ∨
      parsecmd mem = PResult.fail PErr.missingFile ∨
      parsecmd mem = PResult.fail PErr.tooManyArgs) ∧
    parsecmd mem ≠ PResult.fail PErr.syntaxError ∧
    parsecmd mem ≠ PResult.fail PErr.leftovers ∧
    (∀ ps, ps ≤ strlen mem →
      parseexec mem ps (strlen mem) ≠ PResult.fail PErr.syntaxError) ∧
    (∀ t s, parseline mem 0 (strlen mem) = PResult.ok (t, s) → s = strlen mem) := by
  have h := CStr_strlen mem
  have hc := parsepipeFuel_cases h (strlen mem - 0 + 1) 0 (Nat.zero_le _) (by omega)
  have hline : parseline mem 0 (strlen mem)
      = parsepipeFuel mem (strlen mem) (strlen mem - 0 + 1) 0 := rfl
  rw [rest_zero, ← parsecmd_eq_lineT] at hc
  have first : (∃ t, parsecmd mem = PResult.ok t ∧
        parseline mem 0 (strlen mem) = PResult.ok (t, strlen mem)) ∨
      parsecmd mem = PResult.fail PErr.missingFile ∨
      parsecmd mem = PResult.fail PErr.tooManyArgs := by
    rcases hc with ⟨c, h1, h2⟩ | ⟨-, h2⟩ | ⟨-, h2⟩
    · exact Or.inl ⟨c, h2, by rw [hline]; exact h1⟩
    · exact Or.inr (Or.inl h2)
    · exact Or.inr (Or.inr h2)
  refine ⟨first, ?_, ?_, fun ps hps => parseexec_not_syntaxError h ps hps, ?_⟩
  · intro hh
    rcases first with ⟨t, h1, -⟩ | h1 | h1 <;> rw [hh] at h1 <;> cases h1
  · intro hh
    rcases first with ⟨t, h1, -⟩ | h1 | h1 <;> rw [hh] at h1 <;> cases h1
  · intro t s hts
    rw [hline] at hts
    rcases hc with ⟨c, h1, -⟩ | ⟨h1, -⟩ | ⟨h1, -⟩
    · rw [h1] at hts
      simp only [PResult.ok.injEq, Prod.mk.injEq] at hts
      exact hts.2.symm
    · rw [h1] at hts; cases hts
    · rw [h1] at hts; cases hts

/-- Claim C19: parsing terminates on every input.  With `es = strlen(mem)`,
`parsecmd` always produces a result (a tree or a failure), and so do, from
every cursor up to the boundary and with any fuel above the distance to the
boundary, the loops of `parseredirs` and `parseexec` and the recursion of
`parsepipe`, whose result does not depend on that fuel; this is so because
`gettoken` never moves the cursor past the boundary and strictly advances it
whenever it returns a word or a symbol, and `peek` never moves it past the
boundary either. -/
theorem parsing_terminates (mem : List Char) :
    parsecmd mem ≠ PResult.diverge ∧
    (∀ ps f cmd, ps ≤ strlen mem → strlen mem - ps < f →
      parseredirsLoop mem (strlen mem) f cmd ps ≠ PResult.diverge) ∧
    (∀ ps f ret argc, ps ≤ strlen mem → strlen mem - ps < f →
      parseexecLoop mem (strlen mem) f ret argc ps ≠ PResult.diverge) ∧
    (∀ ps, ps ≤ strlen mem → parseexec mem ps (strlen mem) ≠ PResult.diverge) ∧
    (∀ ps f, ps ≤ strlen mem → strlen mem - ps < f →
      parsepipeFuel mem (strlen mem) f ps ≠ PResult.diverge ∧
      parsepipeFuel mem (strlen mem) f ps = parsepipe mem ps (strlen mem)) ∧
    (∀ ps, ps ≤ strlen mem →
      (gettoken mem ps (strlen mem)).ps ≤ strlen mem ∧
      ((gettoken mem ps (strlen mem)).ret ≠ NUL → ps < (gettoken mem ps (strlen mem)).ps)) ∧
    (∀ ps toks, ps ≤ strlen mem → (peek mem ps (strlen mem) toks).2 ≤ strlen mem) := by
  have h := CStr_strlen mem
  refine ⟨?_, ?_, ?_, ?_, ?_, ?_, ?_⟩
  · rw [parsecmd_eq_lineT]
    intro hh
    rcases lineT_cases execcmd 0 (tokenize (mem.takeWhile (fun c => c != NUL)))
      with ⟨t, h1⟩ | h1 | h1 <;> rw [hh] at h1 <;> cases h1
  · intro ps f cmd hps hf
    exact (parseredirsLoop_sim h f cmd ps hps hf).ne_diverge
  · intro ps f ret argc hps hf
    exact parseexecLoop_ne_diverge h f ret argc ps hps hf
  · intro ps hps
    exact (parseexec_sim h ps hps).ne_diverge
  · intro ps f hps hf
    refine ⟨(parsepipeFuel_sim h f ps hps hf).ne_diverge, ?_⟩
    have a := parsepipeFuel_cases h f ps hps hf
    have b := parsepipeFuel_cases h (strlen mem - ps + 1) ps hps (by omega)
    unfold parsepipe
    rcases a with ⟨c, a1, a2⟩ | ⟨a1, a2⟩ | ⟨a1, a2⟩ <;>
      rcases b with ⟨c2, b1, b2⟩ | ⟨b1, b2⟩ | ⟨b1, b2⟩ <;>
      rw [a2] at b2 <;> first
        | (cases b2; rw [a1, b1])
        | cases b2
  · intro ps hps
    obtain ⟨g1, g2⟩ := gettoken_tokens h hps
    refine ⟨g1, ?_⟩
    intro hne
    rcases g2 with ⟨t1, -, -⟩ | ⟨tk, -, -, t3, -⟩
    · exact absurd t1 hne
    · exact t3
  · intro ps toks hps
    exact (skipws_spec mem (strlen mem) ps).2.1 hps

/-! ### Two redirections of the same stream -/

/-- The calls of a redirection whose `open` and `dup2` succeed. -/
theorem afterRedir_log (o : Oracle) (file : List Char) (mode fd : Nat) (w : World)
    (h1 : o w = true) (h2 : ∀ w1 : World, w1.log.length = w.log.length + 1 → o w1 = true) :
    (afterRedir o file mode fd w).log
      = w.log ++ [Event.open file mode 777 (lowestFree w.fds),
          Event.dup2 (lowestFree w.fds) fd fd] := by
  have a1 : (sysOpen o file mode 777 w).1 = ((lowestFree w.fds : Nat) : Int) := by
    simp [sysOpen, h1]
  have a2 : (sysOpen o file mode 777 w).2.fds
      = fdSet w.fds (lowestFree w.fds) (some (Obj.file file mode)) := by
    simp [sysOpen, h1]
  have a3 : (sysOpen o file mode 777 w).2.log
      = w.log ++ [Event.open file mode 777 (lowestFree w.fds)] := by
    simp [sysOpen, h1]
  unfold afterRedir
  generalize sysOpen o file mode 777 w = r at a1 a2 a3
  obtain ⟨r1, w1⟩ := r
  simp only at a1 a2 a3
  subst a1
  have hget : w1.fdGet ((lowestFree w.fds : Nat) : Int) = some (Obj.file file mode) := by
    rw [fdGet_nat, a2, getD_fdSet, if_pos rfl]
  have ho2 := h2 w1 (by rw [a3]; simp)
  simp [sysDup2, hget, ho2, a3]

/-- Two redirections around a command, both succeeding, whatever their
descriptors. -/
theorem runcmd_two_redirs_log (o : Oracle) (A : List (Option (List Char))) (t1 t2 : Char)
    (f1 f2 : List Char) (m1 m2 fd1 fd2 : Nat) (w0 : World)
    (ht1 : t1 = '>' ∨ t1 = '<') (ht2 : t2 = '>' ∨ t2 = '<')
    (hok : ∀ w : World, w.log.length < w0.log.length + 4 → o w = true) :
    runcmd o (Cmd.redir t2 (Cmd.redir t1 (Cmd.exec A) f1 m1 fd1) f2 m2 fd2) w0
      = runcmd o (Cmd.exec A) (afterRedir o f1 m1 fd1 (afterRedir o f2 m2 fd2 w0)) ∧
    (afterRedir o f1 m1 fd1 (afterRedir o f2 m2 fd2 w0)).fdGet fd1 = some (Obj.file f1 m1) ∧
    (afterRedir o f1 m1 fd1 (afterRedir o f2 m2 fd2 w0)).log
      = w0.log ++ [Event.open f2 m2 777 (lowestFree w0.fds),
          Event.dup2 (lowestFree w0.fds) fd2 fd2,
          Event.open f1 m1 777 (lowestFree (afterRedir o f2 m2 fd2 w0).fds),
          Event.dup2 (lowestFree (afterRedir o f2 m2 fd2 w0).fds) fd1 fd1] := by
  have hA := handle_redirection_ok o f2 m2 fd2 w0 (hok w0 (by omega))
    (fun w1 h => hok w1 (by omega))
  have hlenA := hA.2.2.2
  have hB := handle_redirection_ok o f1 m1 fd1 (afterRedir o f2 m2 fd2 w0)
    (hok _ (by omega)) (fun w1 h => hok w1 (by omega))
  have lA := afterRedir_log o f2 m2 fd2 w0 (hok w0 (by omega)) (fun w1 h => hok w1 (by omega))
  have lB := afterRedir_log o f1 m1 fd1 (afterRedir o f2 m2 fd2 w0)
    (hok _ (by omega)) (fun w1 h => hok w1 (by omega))
  refine ⟨?_, hB.2.1, ?_⟩
  · rw [runcmd_redir_ok o t2 _ f2 m2 fd2 w0 ht2 (hok w0 (by omega))
        (fun w1 h => hok w1 (by omega)),
      runcmd_redir_ok o t1 _ f1 m1 fd1 _ ht1 (hok _ (by omega))
        (fun w1 h => hok w1 (by omega)),
      andThen_allHalt _ _ (runcmd_exec_allHalt o A _),
      andThen_allHalt _ _ (runcmd_exec_allHalt o A _)]
  · rw [lB, lA]
    simp

/-- Claim C20: when a command redirects the same standard stream twice, the
redirection written first wins.  For a command `cmd` of at most 9 words and
file names `x` and `y`, and when the two `open` and the two `dup2` calls
succeed, running the tree of `cmd > x > y` opens `y` (create, truncate) and
binds it to descriptor 1, then opens `x` and binds it to descriptor 1, and
runs the command's `execcmd` node with descriptor 1 bound to `x`;
symmetrically, `cmd < x < y` opens `y` and then `x` and runs the command with
descriptor 0 bound to `x`. -/
theorem first_redirection_wins (cmd : List (List Char)) (x y : List Char)
    (hlen : cmd.length ≤ 9) (hcmd : ∀ w ∈ cmd, isWord w = true)
    (hx : isWord x = true) (hy : isWord y = true) (o : Oracle) (w0 : World)
    (hok : ∀ w : World, w.log.length < w0.log.length + 4 → o w = true) :
    -- output
    parsecmd (render (cmd.map Tok.word
        ++ [Tok.greater, Tok.word x, Tok.greater, Tok.word y]))
      = PResult.ok (Cmd.redir '>'
          (Cmd.redir '>' (Cmd.exec (argvOf cmd)) x (O_WRONLY ||| O_CREAT ||| O_TRUNC) 1)
          y (O_WRONLY ||| O_CREAT ||| O_TRUNC) 1) ∧
    runcmd o (Cmd.redir '>'
          (Cmd.redir '>' (Cmd.exec (argvOf cmd)) x (O_WRONLY ||| O_CREAT ||| O_TRUNC) 1)
          y (O_WRONLY ||| O_CREAT ||| O_TRUNC) 1) w0
      = runcmd o (Cmd.exec (argvOf cmd))
          (afterRedir o x (O_WRONLY ||| O_CREAT ||| O_TRUNC) 1
            (afterRedir o y (O_WRONLY ||| O_CREAT ||| O_TRUNC) 1 w0)) ∧
    (afterRedir o x (O_WRONLY ||| O_CREAT ||| O_TRUNC) 1
        (afterRedir o y (O_WRONLY ||| O_CREAT ||| O_TRUNC) 1 w0)).fdGet 1
      = some (Obj.file x (O_WRONLY ||| O_CREAT ||| O_TRUNC)) ∧
    (∃ fdy fdx : Int,
      (afterRedir o x (O_WRONLY ||| O_CREAT ||| O_TRUNC) 1
        (afterRedir o y (O_WRONLY ||| O_CREAT ||| O_TRUNC) 1 w0)).log
      = w0.log ++ [Event.open y (O_WRONLY ||| O_CREAT ||| O_TRUNC) 777 fdy,
          Event.dup2 fdy 1 1,
          Event.open x (O_WRONLY ||| O_CREAT ||| O_TRUNC) 777 fdx,
          Event.dup2 fdx 1 1]) ∧
    -- input
    parsecmd (render (cmd.map Tok.word ++ [Tok.less, Tok.word x, Tok.less, Tok.word y]))
      = PResult.ok (Cmd.redir '<'
          (Cmd.redir '<' (Cmd.exec (argvOf cmd)) x O_RDONLY 0) y O_RDONLY 0) ∧
    runcmd o (Cmd.redir '<'
          (Cmd.redir '<' (Cmd.exec (argvOf cmd)) x O_RDONLY 0) y O_RDONLY 0) w0
      = runcmd o (Cmd.exec (argvOf cmd))
          (afterRedir o x O_RDONLY 0 (afterRedir o y O_RDONLY 0 w0)) ∧
    (afterRedir o x O_RDONLY 0 (afterRedir o y O_RDONLY 0 w0)).fdGet 0
      = some (Obj.file x O_RDONLY) ∧
    (∃ fdy fdx : Int,
      (afterRedir o x O_RDONLY 0 (afterRedir o y O_RDONLY 0 w0)).log
      = w0.log ++ [Event.open y O_RDONLY 777 fdy, Event.dup2 fdy 0 0,
          Event.open x O_RDONLY 777 fdx, Event.dup2 fdx 0 0]) := by
  have p1 := parsecmd_words_redirs cmd [('>', x), ('>', y)] hlen hcmd
    (by
      intro r hr
      simp only [List.mem_cons, List.mem_singleton, List.not_mem_nil, or_false] at hr
      rcases hr with rfl | rfl
      · simp [Redir.valid, hx]
      · simp [Redir.valid, hy])
  have p2 := parsecmd_words_redirs cmd [('<', x), ('<', y)] hlen hcmd
    (by
      intro r hr
      simp only [List.mem_cons, List.mem_singleton, List.not_mem_nil, or_false] at hr
      rcases hr with rfl | rfl
      · simp [Redir.valid, hx]
      · simp [Redir.valid, hy])
  have r1 := runcmd_two_redirs_log o (argvOf cmd) '>' '>' x y
    (O_WRONLY ||| O_CREAT ||| O_TRUNC) (O_WRONLY ||| O_CREAT ||| O_TRUNC) 1 1 w0
    (Or.inl rfl) (Or.inl rfl) hok
  have r2 := runcmd_two_redirs_log o (argvOf cmd) '<' '<' x y O_RDONLY O_RDONLY 0 0 w0
    (Or.inr rfl) (Or.inr rfl) hok
  exact ⟨p1, r1.1, r1.2.1, ⟨_, _, r1.2.2⟩, p2, r2.1, r2.2.1, ⟨_, _, r2.2.2⟩⟩

theorem first_redirection_wins_witness :
    -- output
    parsecmd (render (["sort".toList, "-r".toList].map Tok.word
        ++ [Tok.greater, Tok.word "first".toList, Tok.greater, Tok.word "second".toList]))
      = PResult.ok (Cmd.redir '>'
          (Cmd.redir '>' (Cmd.exec (argvOf ["sort".toList, "-r".toList])) "first".toList (O_WRONLY ||| O_CREAT ||| O_TRUNC) 1)
          "second".toList (O_WRONLY ||| O_CREAT ||| O_TRUNC) 1) ∧
    runcmd Oracle.always (Cmd.redir '>'
          (Cmd.redir '>' (Cmd.exec (argvOf ["sort".toList, "-r".toList])) "first".toList (O_WRONLY ||| O_CREAT ||| O_TRUNC) 1)
          "second".toList (O_WRONLY ||| O_CREAT ||| O_TRUNC) 1) World.init
      = runcmd Oracle.always (Cmd.exec (argvOf ["sort".toList, "-r".toList]))
          (afterRedir Oracle.always "first".toList (O_WRONLY ||| O_CREAT ||| O_TRUNC) 1
            (afterRedir Oracle.always "second".toList (O_WRONLY ||| O_CREAT ||| O_TRUNC) 1 World.init)) ∧
    (afterRedir Oracle.always "first".toList (O_WRONLY ||| O_CREAT ||| O_TRUNC) 1
        (afterRedir Oracle.always "second".toList (O_WRONLY ||| O_CREAT ||| O_TRUNC) 1 World.init)).fdGet 1
      = some (Obj.file "first".toList (O_WRONLY ||| O_CREAT ||| O_TRUNC)) ∧
    (∃ fdy fdx : Int,
      (afterRedir Oracle.always "first".toList (O_WRONLY ||| O_CREAT ||| O_TRUNC) 1
        (afterRedir Oracle.always "second".toList (O_WRONLY ||| O_CREAT ||| O_TRUNC) 1 World.init)).log
      = World.init.log ++ [Event.open "second".toList (O_WRONLY ||| O_CREAT ||| O_TRUNC) 777 fdy,
          Event.dup2 fdy 1 1,
          Event.open "first".toList (O_WRONLY ||| O_CREAT ||| O_TRUNC) 777 fdx,
          Event.dup2 fdx 1 1]) ∧
    -- input
    parsecmd (render (["sort".toList, "-r".toList].map Tok.word ++ [Tok.less, Tok.word "first".toList, Tok.less, Tok.word "second".toList]))
      = PResult.ok (Cmd.redir '<'
          (Cmd.redir '<' (Cmd.exec (argvOf ["sort".toList, "-r".toList])) "first".toList O_RDONLY 0) "second".toList O_RDONLY 0) ∧
    runcmd Oracle.always (Cmd.redir '<'
          (Cmd.redir '<' (Cmd.exec (argvOf ["sort".toList, "-r".toList])) "first".toList O_RDONLY 0) "second".toList O_RDONLY 0) World.init
      = runcmd Oracle.always (Cmd.exec (argvOf ["sort".toList, "-r".toList]))
          (afterRedir Oracle.always "first".toList O_RDONLY 0 (afterRedir Oracle.always "second".toList O_RDONLY 0 World.init)) ∧
    (afterRedir Oracle.always "first".toList O_RDONLY 0 (afterRedir Oracle.always "second".toList O_RDONLY 0 World.init)).fdGet 0
      = some (Obj.file "first".toList O_RDONLY) ∧
    (∃ fdy fdx : Int,
      (afterRedir Oracle.always "first".toList O_RDONLY 0 (afterRedir Oracle.always "second".toList O_RDONLY 0 World.init)).log
      = World.init.log ++ [Event.open "second".toList O_RDONLY 777 fdy, Event.dup2 fdy 0 0,
          Event.open "first".toList O_RDONLY 777 fdx, Event.dup2 fdx 0 0]) :=
  first_redirection_wins ["sort".toList, "-r".toList] "first".toList "second".toList
    (by decide) (by decide) (by decide) (by decide) Oracle.always World.init (fun _ _ => rfl)

/-! ### Invariants of the flows of the executor -/

theorem mem_andThen {α β : Type} {m : Procs α} {k : α → World → Procs β} {f : Flow β}
    (h : f ∈ andThen m k) :
    (∃ w, Flow.halt w ∈ m ∧ f = Flow.halt w) ∨ (∃ a w, Flow.ret a w ∈ m ∧ f ∈ k a w) := by
  induction m with
  | nil => simp [andThen] at h
  | cons g m ih =>
    cases g with
    | ret a w =>
      simp only [andThen, List.mem_append] at h
      rcases h with h | h
      · exact Or.inr ⟨a, w, by simp, h⟩
      · rcases ih h with ⟨w1, h1, h2⟩ | ⟨a1, w1, h1, h2⟩
        · exact Or.inl ⟨w1, by simp [h1], h2⟩
        · exact Or.inr ⟨a1, w1, by simp [h1], h2⟩
    | halt w =>
      simp only [andThen, List.mem_cons] at h
      rcases h with h | h
      · exact Or.inl ⟨w, by simp, h⟩
      · rcases ih h with ⟨w1, h1, h2⟩ | ⟨a1, w1, h1, h2⟩
        · exact Or.inl ⟨w1, by simp [h1], h2⟩
        · exact Or.inr ⟨a1, w1, by simp [h1], h2⟩

/-- An invariant of the flows of `m` that every continuation keeps is an
invariant of the sequence. -/
theorem inv_andThen {α β : Type} {R H : World → Prop} {m : Procs α}
    {k : α → World → Procs β} (hm : Inv R H m)
    (hk : ∀ a w, Flow.ret a w ∈ m → Inv R H (k a w)) : Inv R H (andThen m k) := by
  constructor
  · intro b w1 hf
    rcases mem_andThen hf with ⟨w, h1, h2⟩ | ⟨a, w, h1, h2⟩
    · cases h2
    · exact (hk a w h1).1 b w1 h2
  · intro w1 hf
    rcases mem_andThen hf with ⟨w, h1, h2⟩ | ⟨a, w, h1, h2⟩
    · cases h2; exact hm.2 _ h1
    · exact (hk a w h1).2 w1 h2

theorem Inv.ret {α : Type} {R H : World → Prop} {a : α} {w : World} (h : R w) :
    Inv R H [Flow.ret a w] := by
  constructor
  · intro b w1 hf
    simp only [List.mem_singleton, Flow.ret.injEq] at hf
    rw [hf.2]; exact h
  · intro w1 hf
    simp at hf

theorem Inv.halt {α : Type} {R H : World → Prop} {w : World} (h : H w) :
    Inv R H ([Flow.halt w] : Procs α) := by
  constructor
  · intro b w1 hf
    simp at hf
  · intro w1 hf
    simp only [List.mem_singleton, Flow.halt.injEq] at hf
    rw [hf]; exact h

theorem Inv.exit {α : Type} {o : Oracle} {R H : World → Prop} (hc : Closed o R H) (code : Int)
    {w : World} (h : R w) : Inv R H ([sysExit code w] : Procs α) :=
  Inv.halt (hc.exitH code w h)

/-- A sequence whose continuations all halt halts. -/
theorem allHalt_andThen {α β : Type} (m : Procs α) (k : α → World → Procs β)
    (hk : ∀ a w, AllHalt (k a w)) : AllHalt (andThen m k) := by
  intro f hf
  rcases mem_andThen hf with ⟨w, -, rfl⟩ | ⟨a, w, -, h2⟩
  · exact ⟨w, rfl⟩
  · exact hk a w f h2

/-- Every path through `runcmd` ends the process. -/
theorem runcmd_allHalt (o : Oracle) (c : Cmd) (w : World) : AllHalt (runcmd o c w) := by
  cases c with
  | null => rw [runcmd]; exact sysExit_allHalt _ _
  | exec argv => exact runcmd_exec_allHalt o argv w
  | redir t c f m fd =>
    rw [runcmd]
    split
    · apply allHalt_andThen
      intro _ w1
      apply allHalt_andThen
      intro _ w2
      exact sysExit_allHalt _ _
    · exact sysExit_allHalt _ _
  | pipe l r =>
    rw [runcmd]
    apply allHalt_andThen
    intro _ w1
    exact sysExit_allHalt _ _

theorem fork1_inv {o : Oracle} {R H : World → Prop} (hc : Closed o R H) {w : World}
    (h : R w) : Inv R H (fork1 o w) := by
  unfold fork1
  apply inv_andThen (hc.forkR w h)
  intro p_id w1 hin
  have hw1 := (hc.forkR w h).1 p_id w1 hin
  split
  · split
    · exact Inv.ret hw1
    · exact Inv.exit hc _ (hc.printR _ _ hw1)
  · exact Inv.ret hw1

theorem handle_simple_cmd_inv {o : Oracle} {R H : World → Prop} (hc : Closed o R H)
    (argv : List (Option (List Char))) {w : World} (h : R w) :
    Inv R H (handle_simple_cmd o argv w) := by
  unfold handle_simple_cmd
  have he := hc.execR (argv.getD 0 none) argv w h
  split
  · rename_i w1 heq
    rw [heq] at he
    exact Inv.halt (he.2 w1 (by simp))
  · rename_i a w1 heq
    rw [heq] at he
    exact Inv.exit hc _ (hc.printR _ _ (he.1 a w1 (by simp)))

theorem handle_redirection_inv {o : Oracle} {R H : World → Prop} (hc : Closed o R H)
    (file : List Char) (mode fd : Nat) {w : World} (h : R w) :
    Inv R H (handle_redirection o file mode fd w) := by
  unfold handle_redirection
  have h1 := hc.openR file mode w h
  simp only
  split
  · exact Inv.exit hc _ (hc.printR _ _ h1)
  · have h2 := hc.dup2R (sysOpen o file mode 777 w).1 fd _ h1
    split
    · exact Inv.exit hc _ (hc.printR _ _ (hc.closeR _ _ h2))
    · exact Inv.ret h2

theorem handle_pipe_inv {o : Oracle} {R H : World → Prop} (hc : Closed o R H)
    (left right : World → Procs Unit) (hl : ∀ w, R w → Inv R H (left w))
    (hr : ∀ w, R w → Inv R H (right w)) {w : World} (h : R w) :
    Inv R H (handle_pipe o left right w) := by
  unfold handle_pipe
  have h1 := hc.pipeR w h
  simp only
  split
  · exact Inv.exit hc _ (hc.printR _ _ h1)
  · apply inv_andThen (fork1_inv hc h1)
    intro pid1 w1 hin1
    have hw1 := (fork1_inv hc h1).1 pid1 w1 hin1
    have hfirst : Inv R H
        (if pid1 = 0 then
          left (sysDup2 o (sysPipe o w).2.1.2 STDOUT_FILENO
            (sysClose (sysPipe o w).2.1.1 w1)).2
         else [Flow.ret () w1]) := by
      split
      · exact hl _ (hc.dup2R _ _ _ (hc.closeR _ _ hw1))
      · exact Inv.ret hw1
    apply inv_andThen hfirst
    intro _ w2 hin2
    have hw2 := hfirst.1 _ w2 hin2
    apply inv_andThen (fork1_inv hc hw2)
    intro pid2 w3 hin3
    have hw3 := (fork1_inv hc hw2).1 pid2 w3 hin3
    have hsecond : Inv R H
        (if pid2 = 0 then
          right (sysDup2 o (sysPipe o w).2.1.1 STDIN_FILENO
            (sysClose (sysPipe o w).2.1.2 w3)).2
         else [Flow.ret () w3]) := by
      split
      · exact hr _ (hc.dup2R _ _ _ (hc.closeR _ _ hw3))
      · exact Inv.ret hw3
    apply inv_andThen hsecond
    intro _ w4 hin4
    have hw4 := hsecond.1 _ w4 hin4
    exact Inv.ret (hc.waitR _ (hc.waitR _ (hc.closeR _ _ (hc.closeR _ _ hw4))))

/-- An invariant that the system calls keep is kept by `runcmd`. -/
theorem runcmd_inv {o : Oracle} {R H : World → Prop} (hc : Closed o R H) (c : Cmd) :
    ∀ w, R w → Inv R H (runcmd o c w) := by
  induction c with
  | null => intro w h; rw [runcmd]; exact Inv.exit hc _ h
  | exec argv =>
    intro w h
    rw [runcmd]
    split
    · exact Inv.exit hc _ h
    · apply inv_andThen (handle_simple_cmd_inv hc argv h)
      intro _ w1 hin
      exact Inv.exit hc _ ((handle_simple_cmd_inv hc argv h).1 _ w1 hin)
  | redir t c f m fd ih =>
    intro w h
    rw [runcmd]
    split
    · apply inv_andThen (handle_redirection_inv hc f m fd h)
      intro _ w1 hin
      have hw1 := (handle_redirection_inv hc f m fd h).1 _ w1 hin
      apply inv_andThen (ih w1 hw1)
      intro _ w2 hin2
      exact Inv.exit hc _ ((ih w1 hw1).1 _ w2 hin2)
    · exact Inv.exit hc _ (hc.printR _ _ h)
  | pipe l r ihl ihr =>
    intro w h
    rw [runcmd]
    apply inv_andThen (handle_pipe_inv hc _ _ ihl ihr h)
    intro _ w1 hin
    exact Inv.exit hc _ ((handle_pipe_inv hc _ _ ihl ihr h).1 _ w1 hin)

/-! ### The permission argument of `open` -/

theorem closed_permOk (o : Oracle) :
    Closed o (fun w => w.log.all Event.permOk = true)
      (fun w => w.log.all Event.permOk = true) where
  openR := by
    intro file mode w h
    unfold sysOpen
    split <;> simp [Event.permOk] <;> simpa using h
  dup2R := by
    intro a b w h
    unfold sysDup2
    split <;> simp [Event.permOk] <;> simpa using h
  closeR := by
    intro fd w h
    simp [sysClose, Event.permOk]; simpa using h
  pipeR := by
    intro w h
    unfold sysPipe
    split <;> simp [Event.permOk] <;> simpa using h
  forkR := by
    intro w h
    unfold sysFork
    split
    · constructor
      · intro a w1 hin
        simp only [List.mem_cons, Flow.ret.injEq, List.mem_singleton, List.not_mem_nil,
          or_false] at hin
        rcases hin with ⟨-, rfl⟩ | ⟨-, rfl⟩
        · simp [Event.permOk]; simpa using h
        · simp [Event.permOk]
      · intro w1 hin; simp at hin
    · constructor
      · intro a w1 hin
        simp only [List.mem_singleton, Flow.ret.injEq] at hin
        obtain ⟨-, rfl⟩ := hin
        simp [Event.permOk]; simpa using h
      · intro w1 hin; simp at hin
  waitR := by
    intro w h
    simp [sysWait, Event.permOk]; simpa using h
  printR := by
    intro msg w h
    simp [fprintf, Event.permOk]; simpa using h
  execR := by
    intro file argv w h
    unfold sysExecvp
    split
    · apply Inv.halt
      simp [Event.permOk]; simpa using h
    · apply Inv.ret
      simp [Event.permOk]; simpa using h
  exitH := by
    intro code w h
    simp [Event.permOk]; simpa using h

theorem handle_redirection_open (o : Oracle) (file : List Char) (mode fd : Nat) (w : World) :
    ∀ f ∈ handle_redirection o file mode fd w,
      ∃ res tail, f.world.log = w.log ++ Event.open file mode 777 res :: tail := by
  intro f hf
  unfold handle_redirection at hf
  have hopen : ∃ res, (sysOpen o file mode 777 w).2.log
      = w.log ++ [Event.open file mode 777 res] := by
    unfold sysOpen
    split
    · exact ⟨_, rfl⟩
    · exact ⟨_, rfl⟩
  obtain ⟨res, hres⟩ := hopen
  have hdup : ∃ e, (sysDup2 o (sysOpen o file mode 777 w).1 fd
      (sysOpen o file mode 777 w).2).2.log = (sysOpen o file mode 777 w).2.log ++ [e] := by
    unfold sysDup2
    split
    · exact ⟨_, rfl⟩
    · exact ⟨_, rfl⟩
  obtain ⟨e, he⟩ := hdup
  simp only at hf
  split at hf
  · simp only [List.mem_singleton] at hf
    subst hf
    refine ⟨res, [Event.fprintf ("could not open file  " ++ String.mk file ++ "\n"),
      Event.exit (-1)], ?_⟩
    simp [sysExit, fprintf, Flow.world, hres]
  · split at hf
    · simp only [List.mem_singleton] at hf
      subst hf
      refine ⟨res, [e, Event.close (sysOpen o file mode 777 w).1,
        Event.fprintf "failed to bind files\n", Event.exit (-1)], ?_⟩
      simp [sysExit, fprintf, sysClose, Flow.world, he, hres]
    · simp only [List.mem_singleton] at hf
      subst hf
      refine ⟨res, [e], ?_⟩
      simp [Flow.world, he, hres]

/-- Claim C17: the permission argument that `handle_redirection` passes to
`open` for every redirection target is the decimal number 777, not the octal
file mode 0777.  In every run of `runcmd`, from a state whose log has no other
kind of `open`, every `open` in the log of every process has 777 as its third
argument, and `handle_redirection` begins with such a call; as mode bits 777
is octal 1411 (1*512 + 4*64 + 1*8 + 1), which is not octal 777 and contains
neither the owner-write bit 0200 nor any of the group and other read and
write bits 066. -/
theorem open_permission_is_decimal_777 (o : Oracle) (c : Cmd) (w : World)
    (hw : w.log.all Event.permOk = true) :
    (∀ f ∈ runcmd o c w, ∀ file mode perm res,
      Event.open file mode perm res ∈ f.world.log → perm = 777) ∧
    (∀ file mode fd w1, ∀ f ∈ handle_redirection o file mode fd w1,
      ∃ res tail, f.world.log = w1.log ++ Event.open file mode 777 res :: tail) ∧
    (777 : Nat) = 1 * 512 + 4 * 64 + 1 * 8 + 1 ∧ (777 : Nat) = 0o1411 ∧
    (777 : Nat) ≠ 0o777 ∧ (777 : Nat) &&& 0o200 = 0 ∧ (777 : Nat) &&& 0o066 = 0 := by
  refine ⟨?_, fun file mode fd w1 => handle_redirection_open o file mode fd w1,
    by decide, by decide, by decide, by decide, by decide⟩
  have hinv := runcmd_inv (closed_permOk o) c w hw
  intro f hf file mode perm res hin
  have hall : f.world.log.all Event.permOk = true := by
    cases f with
    | ret a w1 => exact hinv.1 a w1 hf
    | halt w1 => exact hinv.2 w1 hf
  rw [List.all_eq_true] at hall
  have := hall _ hin
  simpa [Event.permOk] using this

theorem open_permission_is_decimal_777_witness :
    (∀ f ∈ runcmd Oracle.always
        (Cmd.redir '>' (Cmd.exec (argvOf ["ls".toList])) "out".toList
          (O_WRONLY ||| O_CREAT ||| O_TRUNC) 1) World.init,
      ∀ file mode perm res, Event.open file mode perm res ∈ f.world.log → perm = 777) ∧
    (∀ file mode fd w1, ∀ f ∈ handle_redirection Oracle.always file mode fd w1,
      ∃ res tail, f.world.log = w1.log ++ Event.open file mode 777 res :: tail) ∧
    (777 : Nat) = 1 * 512 + 4 * 64 + 1 * 8 + 1 ∧ (777 : Nat) = 0o1411 ∧
    (777 : Nat) ≠ 0o777 ∧ (777 : Nat) &&& 0o200 = 0 ∧ (777 : Nat) &&& 0o066 = 0 :=
  open_permission_is_decimal_777 Oracle.always
    (Cmd.redir '>' (Cmd.exec (argvOf ["ls".toList])) "out".toList
      (O_WRONLY ||| O_CREAT ||| O_TRUNC) 1) World.init (by decide)

/-! ### `runcmd` never returns -/

theorem ended_snoc_exit (log : List Event) (code : Int) (w : World) :
    ({ w with log := log ++ [Event.exit code] } : World).ended = true := by
  simp [World.ended]

theorem closed_ended (o : Oracle) :
    Closed o (fun _ => True) (fun w => w.ended = true) where
  openR := fun _ _ _ _ => trivial
  dup2R := fun _ _ _ _ => trivial
  closeR := fun _ _ _ => trivial
  pipeR := fun _ _ => trivial
  forkR := by
    intro w _
    constructor
    · intro _ _ _; trivial
    · intro w1 hin
      unfold sysFork at hin
      split at hin <;> simp at hin
  waitR := fun _ _ => trivial
  printR := fun _ _ _ => trivial
  execR := by
    intro file argv w _
    unfold sysExecvp
    split
    · apply Inv.halt
      simp [World.ended]
    · exact Inv.ret trivial
  exitH := by
    intro code w _
    simp [World.ended]

/-- Claim C11: `runcmd` never returns to its caller.  For every tree, every
starting state and every outcome of the system calls (the oracle is
arbitrary), every flow of control that leaves `runcmd` is over, its process
having ended with `exit` or with an `execvp` that replaced its image; hence
the code that follows a call of `runcmd` is never run, whatever it is: in
particular a child forked by `handle_pipe` ends inside its recursive `runcmd`
and never goes on to the second `fork1` or to the `wait` calls. -/
theorem runcmd_never_returns (o : Oracle) (c : Cmd) (w : World) :
    (∀ f ∈ runcmd o c w, ∃ w1, f = Flow.halt w1 ∧ w1.ended = true) ∧
    (∀ k : Unit → World → Procs Unit, andThen (runcmd o c w) k = runcmd o c w) ∧
    (∀ (l r : Cmd) (w1 : World) (k : Unit → World → Procs Unit),
      andThen (runcmd o l w1) k = runcmd o l w1 ∧
      andThen (runcmd o r w1) k = runcmd o r w1) := by
  refine ⟨?_, fun k => andThen_allHalt _ k (runcmd_allHalt o c w), ?_⟩
  · intro f hf
    obtain ⟨w1, rfl⟩ := runcmd_allHalt o c w f hf
    exact ⟨w1, rfl, (runcmd_inv (closed_ended o) c w trivial).2 w1 hf⟩
  · intro l r w1 k
    exact ⟨andThen_allHalt _ k (runcmd_allHalt o l w1),
      andThen_allHalt _ k (runcmd_allHalt o r w1)⟩

/-! ### The flows of a pipe node -/

theorem sysFork_ok (o : Oracle) (w : World) (h : o w = true) :
    sysFork o w = [Flow.ret ((w.nforks : Int) + 1) (parentOf w), Flow.ret 0 (childOf w)] := by
  simp [sysFork, h, parentOf, childOf]

theorem fork1_ok (o : Oracle) (w : World) (h : o w = true) :
    fork1 o w = [Flow.ret ((w.nforks : Int) + 1) (parentOf w), Flow.ret 0 (childOf w)] := by
  unfold fork1
  rw [sysFork_ok o w h]
  have h1 : ((w.nforks : Int) + 1) ≠ 0 := by omega
  have h2 : ((w.nforks : Int) + 1) > 0 := by omega
  simp [andThen, h1, h2]

theorem fork1_fail (o : Oracle) (w : World) (h : o w = false) :
    fork1 o w = [Flow.halt (exited (-1) (fprintf "Fork function not implemented\n"
      { w with log := w.log ++ [Event.fork (-1)] }))] := by
  simp [fork1, sysFork, h, andThen, sysExit, exited]

theorem sysPipe_ok (o : Oracle) (w : World) (h : o w = true) : (sysPipe o w).1 = 0 := by
  simp [sysPipe, h]

theorem sysExit_eq {α : Type} (code : Int) (w : World) :
    (sysExit code w : Flow α) = Flow.halt (exited code w) := rfl

/-- The flows of `handle_pipe` when `pipe` and both `fork` calls succeed: the
parent, which returns, then the flows of the second child and those of the
first child, which are the flows of their calls of `runcmd`. -/
theorem handle_pipe_forks (o : Oracle) (left right : World → Procs Unit) (w : World)
    (h1 : o w = true) (h2 : o (sysPipe o w).2.2 = true)
    (h3 : o (parentOf (sysPipe o w).2.2) = true)
    (hl : ∀ w1, AllHalt (left w1)) (hr : ∀ w1, AllHalt (right w1)) :
    handle_pipe o left right w
      = Flow.ret () (pipeParent o w) :: (right (pipeRight o w) ++ left (pipeLeft o w)) := by
  unfold handle_pipe
  simp only
  rw [if_neg (by rw [sysPipe_ok o w h1]; decide), fork1_ok o _ h2]
  have hn1 : (((sysPipe o w).2.2.nforks : Int) + 1 = 0) = False := by
    apply eq_false; omega
  have hn2 : ((((parentOf (sysPipe o w).2.2).nforks : Nat) : Int) + 1 = 0) = False := by
    apply eq_false; omega
  simp only [andThen, hn1, if_false, if_true, List.append_nil]
  rw [fork1_ok o _ h3]
  simp only [andThen, hn2, if_false, if_true, List.append_nil]
  rw [andThen_allHalt _ _ (hr _), andThen_allHalt _ _ (hl _)]
  rfl

/-- The flows of `runcmd` on a pipe node when `pipe` and both `fork` calls
succeed. -/
theorem runcmd_pipe_forks (o : Oracle) (l r : Cmd) (w : World)
    (h1 : o w = true) (h2 : o (sysPipe o w).2.2 = true)
    (h3 : o (parentOf (sysPipe o w).2.2) = true) :
    runcmd o (Cmd.pipe l r) w
      = Flow.halt (exited 0 (pipeParent o w))
          :: (runcmd o r (pipeRight o w) ++ runcmd o l (pipeLeft o w)) := by
  rw [runcmd, handle_pipe_forks o _ _ w h1 h2 h3 (runcmd_allHalt o l) (runcmd_allHalt o r)]
  simp only [andThen, sysExit_eq, List.singleton_append]
  rw [andThen_allHalt]
  intro f hf
  simp only [List.mem_append] at hf
  rcases hf with hf | hf
  · exact runcmd_allHalt o r _ f hf
  · exact runcmd_allHalt o l _ f hf

/-- The flow of `runcmd` on a pipe node when `pipe` fails. -/
theorem runcmd_pipe_nopipe (o : Oracle) (l r : Cmd) (w : World) (h1 : o w = false) :
    runcmd o (Cmd.pipe l r) w
      = [Flow.halt (exited (-1) (fprintf "failed to stabilish pipe comunication\n"
          { w with log := w.log ++ [Event.pipe (-1) 0 0] }))] := by
  simp [runcmd, handle_pipe, sysPipe, h1, andThen, sysExit, exited]

/-- The flow of `runcmd` on a pipe node when the first `fork` fails. -/
theorem runcmd_pipe_nofork (o : Oracle) (l r : Cmd) (w : World)
    (h1 : o w = true) (h2 : o (sysPipe o w).2.2 = false) :
    runcmd o (Cmd.pipe l r) w
      = [Flow.halt (exited (-1) (fprintf "Fork function not implemented\n"
          { (sysPipe o w).2.2 with log := (sysPipe o w).2.2.log ++ [Event.fork (-1)] }))] := by
  rw [runcmd]
  unfold handle_pipe
  simp only
  rw [if_neg (by rw [sysPipe_ok o w h1]; decide), fork1_fail o _ h2]
  simp [andThen]

/-- The flows of `runcmd` on a pipe node when the second `fork` fails: the
parent exits and the first child runs the left command. -/
theorem runcmd_pipe_nofork2 (o : Oracle) (l r : Cmd) (w : World)
    (h1 : o w = true) (h2 : o (sysPipe o w).2.2 = true)
    (h3 : o (parentOf (sysPipe o w).2.2) = false) :
    runcmd o (Cmd.pipe l r) w
      = Flow.halt (exited (-1) (fprintf "Fork function not implemented\n"
          { parentOf (sysPipe o w).2.2 with
            log := (parentOf (sysPipe o w).2.2).log ++ [Event.fork (-1)] }))
        :: runcmd o l (pipeLeft o w) := by
  rw [runcmd]
  unfold handle_pipe
  simp only
  rw [if_neg (by rw [sysPipe_ok o w h1]; decide), fork1_ok o _ h2]
  have hn1 : (((sysPipe o w).2.2.nforks : Int) + 1 = 0) = False := by
    apply eq_false; omega
  simp only [andThen, hn1, if_false, if_true, List.append_nil]
  rw [fork1_fail o _ h3]
  simp only [andThen, List.singleton_append]
  have hnil : ∀ X : Procs Unit, ([] : Procs Unit).append X = X := fun _ => rfl
  rw [andThen_allHalt _ _ (runcmd_allHalt o l _), hnil,
    andThen_allHalt _ _ (runcmd_allHalt o l _)]
  rfl

/-! ### The states of the processes of a pipe node -/

theorem lowestFree_ne_of_isSome (fds : List (Option Obj)) (j : Nat)
    (h : (fds.getD j none).isSome = true) : lowestFree fds ≠ j := by
  intro hj
  rw [← hj, getD_lowestFree] at h
  cases h

theorem sysClose_nat (n : Nat) (w : World) (h : (w.fds.getD n none).isSome = true) :
    sysClose (n : Int) w
      = { w with fds := fdSet w.fds n none, log := w.log ++ [Event.close n] } := by
  unfold sysClose
  rw [fdGet_nat, if_pos h]
  rfl

theorem sysDup2_nat (o : Oracle) (a b : Nat) (w : World)
    (h : (w.fds.getD a none).isSome = true) (ho : o w = true) :
    sysDup2 o (a : Int) (b : Int) w
      = ((b : Int), { w with fds := fdSet w.fds b (w.fds.getD a none),
                             log := w.log ++ [Event.dup2 a b b] }) := by
  unfold sysDup2
  rw [fdGet_nat, h, ho]
  have : decide ((0 : Int) ≤ (b : Int)) = true := by simp
  rw [this]
  rfl

/-- The states of the three processes of a pipe node, when every system call
succeeds and the descriptors 0 and 1 are in use. -/
theorem pipe_worlds (o : Oracle) (ho : ∀ w, o w = true) (w : World)
    (h0 : (w.fdGet 0).isSome = true) (h1 : (w.fdGet 1).isSome = true) :
    ∃ p0 p1 : Nat,
      -- the first child
      (pipeLeft o w).pid = w.pid ++ [w.nforks] ∧
      (pipeLeft o w).log = [Event.fork 0, Event.close p0, Event.dup2 p1 1 1] ∧
      (pipeLeft o w).fdGet 0 = w.fdGet 0 ∧
      (pipeLeft o w).fdGet 1 = some (Obj.pipeWrite w.pid w.log.length) ∧
      -- the second child
      (pipeRight o w).pid = w.pid ++ [w.nforks + 1] ∧
      (pipeRight o w).log = [Event.fork 0, Event.close p1, Event.dup2 p0 0 0] ∧
      (pipeRight o w).fdGet 0 = some (Obj.pipeRead w.pid w.log.length) ∧
      (pipeRight o w).fdGet 1 = w.fdGet 1 ∧
      -- the parent
      (pipeParent o w).pid = w.pid ∧
      (pipeParent o w).log = w.log ++ [Event.pipe 0 p0 p1, Event.fork (w.nforks + 1),
        Event.fork (w.nforks + 2), Event.close p0, Event.close p1, Event.wait, Event.wait] := by
  have g0 : (w.fds.getD 0 none).isSome = true := by
    have := h0; rw [show (0 : Int) = ((0 : Nat) : Int) from rfl, fdGet_nat] at this; exact this
  have g1 : (w.fds.getD 1 none).isSome = true := by
    have := h1; rw [show (1 : Int) = ((1 : Nat) : Int) from rfl, fdGet_nat] at this; exact this
  have hw0 : w.fdGet 0 = w.fds.getD 0 none := by
    rw [show (0 : Int) = ((0 : Nat) : Int) from rfl, fdGet_nat]
  have hw1 : w.fdGet 1 = w.fds.getD 1 none := by
    rw [show (1 : Int) = ((1 : Nat) : Int) from rfl, fdGet_nat]
  -- the two ends
  generalize hp0 : lowestFree w.fds = p0
  generalize hf1 : fdSet w.fds p0 (some (Obj.pipeRead w.pid w.log.length)) = fds1
  generalize hp1 : lowestFree fds1 = p1
  generalize hf2 : fdSet fds1 p1 (some (Obj.pipeWrite w.pid w.log.length)) = fds2
  have n00 : p0 ≠ 0 := by rw [← hp0]; exact lowestFree_ne_of_isSome _ _ g0
  have n01 : p0 ≠ 1 := by rw [← hp0]; exact lowestFree_ne_of_isSome _ _ g1
  have e1 : ∀ j, fds1.getD j none
      = if j = p0 then some (Obj.pipeRead w.pid w.log.length) else w.fds.getD j none := by
    intro j; rw [← hf1, getD_fdSet]
  have n10 : p1 ≠ 0 := by
    rw [← hp1]; apply lowestFree_ne_of_isSome
    rw [e1, if_neg (fun h => n00 h.symm)]; exact g0
  have n11 : p1 ≠ 1 := by
    rw [← hp1]; apply lowestFree_ne_of_isSome
    rw [e1, if_neg (fun h => n01 h.symm)]; exact g1
  have n1p : p1 ≠ p0 := by
    rw [← hp1]; apply lowestFree_ne_of_isSome
    rw [e1, if_pos rfl]; rfl
  have e2 : ∀ j, fds2.getD j none
      = if j = p1 then some (Obj.pipeWrite w.pid w.log.length) else fds1.getD j none := by
    intro j; rw [← hf2, getD_fdSet]
  have hpipe : sysPipe o w
      = (0, ((p0 : Int), (p1 : Int)),
          { w with fds := fds2, log := w.log ++ [Event.pipe 0 p0 p1] }) := by
    simp [sysPipe, ho w, hp0, hf1, hp1, hf2]
  have c0 : fds2.getD p0 none = some (Obj.pipeRead w.pid w.log.length) := by
    rw [e2, if_neg (fun h => n1p h.symm), e1, if_pos rfl]
  have c1 : fds2.getD p1 none = some (Obj.pipeWrite w.pid w.log.length) := by
    rw [e2, if_pos rfl]
  have hL : pipeLeft o w
      = ⟨w.pid ++ [w.nforks], 0,
          fdSet (fdSet fds2 p0 none) 1 (some (Obj.pipeWrite w.pid w.log.length)),
          [Event.fork 0, Event.close p0, Event.dup2 p1 1 1]⟩ := by
    unfold pipeLeft
    rw [hpipe]
    simp only [childOf]
    rw [sysClose_nat p0 _ (by simp only; rw [c0]; rfl),
      sysDup2_nat o p1 STDOUT_FILENO _
        (by simp only; rw [getD_fdSet, if_neg n1p, c1]; rfl) (ho _)]
    simp only [getD_fdSet, if_neg n1p, c1]
    rfl
  have hR : pipeRight o w
      = ⟨w.pid ++ [w.nforks + 1], 0,
          fdSet (fdSet fds2 p1 none) 0 (some (Obj.pipeRead w.pid w.log.length)),
          [Event.fork 0, Event.close p1, Event.dup2 p0 0 0]⟩ := by
    unfold pipeRight
    rw [hpipe]
    simp only [childOf, parentOf]
    rw [sysClose_nat p1 _ (by simp only; rw [c1]; rfl),
      sysDup2_nat o p0 STDIN_FILENO _
        (by simp only; rw [getD_fdSet, if_neg (fun h => n1p h.symm), c0]; rfl) (ho _)]
    simp only [getD_fdSet, if_neg (fun h : p0 = p1 => n1p h.symm), c0]
    rfl
  refine ⟨p0, p1, ?_, ?_, ?_, ?_, ?_, ?_, ?_, ?_, ?_, ?_⟩
  · rw [hL]
  · rw [hL]
  · rw [hL, hw0, show (0 : Int) = ((0 : Nat) : Int) from rfl, fdGet_nat]
    simp only
    rw [getD_fdSet, if_neg (by decide), getD_fdSet, if_neg (fun h => n00 h.symm), e2,
      if_neg (fun h => n10 h.symm), e1, if_neg (fun h => n00 h.symm)]
  · rw [hL, show (1 : Int) = ((1 : Nat) : Int) from rfl, fdGet_nat]
    simp only
    rw [getD_fdSet, if_pos rfl]
  · rw [hR]
  · rw [hR]
  · rw [hR, show (0 : Int) = ((0 : Nat) : Int) from rfl, fdGet_nat]
    simp only
    rw [getD_fdSet, if_pos rfl]
  · rw [hR, hw1, show (1 : Int) = ((1 : Nat) : Int) from rfl, fdGet_nat]
    simp only
    rw [getD_fdSet, if_neg (by decide), getD_fdSet, if_neg (fun h => n11 h.symm), e2,
      if_neg (fun h => n11 h.symm), e1, if_neg (fun h => n01 h.symm)]
  · simp [pipeParent, hpipe, parentOf, sysWait, sysClose]
  · simp [pipeParent, hpipe, parentOf, sysWait, sysClose]
    omega

/-! ### The processes of a pipeline -/

theorem runcmd_exec_ok (o : Oracle) (a : List (List Char)) (w : World) (ha : a ≠ [])
    (ho : o w = true) :
    runcmd o (Cmd.exec (argvOf a)) w
      = [Flow.halt { w with log := w.log ++ [Event.execvp a.head? a true] }] := by
  cases a with
  | nil => exact absurd rfl ha
  | cons x xs =>
    have h0 : (argvOf (x :: xs)).getD 0 none = some x := by simp [argvOf]
    simp only [runcmd, h0, handle_simple_cmd, sysExecvp, argvList_argvOf]
    simp [ho, andThen]

theorem countEv_cons (P : Event → Bool) (f : Flow Unit) (m : Procs Unit) :
    countEv P (f :: m) = f.world.log.countP P + countEv P m := by
  simp [countEv]

theorem countEv_append (P : Event → Bool) (m1 m2 : Procs Unit) :
    countEv P (m1 ++ m2) = countEv P m1 + countEv P m2 := by
  simp [countEv]

theorem countEv_nil (P : Event → Bool) : countEv P [] = 0 := rfl

theorem execInfo_exec (w : World) (file : Option (List Char)) (a : List (List Char)) :
    execInfo (Flow.halt { w with log := w.log ++ [Event.execvp file a true] })
      = some (a, w.fdGet 0, w.fdGet 1) := by
  simp [execInfo, Flow.world, World.fdGet]

theorem execInfo_exited (code : Int) (w : World) :
    execInfo (Flow.halt (exited code w)) = none := by
  simp [execInfo, Flow.world, exited]

theorem simpleTree_cons (a b : List (List Char)) (rest : List (List (List Char))) :
    simpleTree (a :: b :: rest)
      = Cmd.pipe (Cmd.exec (argvOf a)) (simpleTree (b :: rest)) := rfl

theorem simpleTree_single (a : List (List Char)) :
    simpleTree [a] = Cmd.exec (argvOf a) := rfl

theorem prefix_length_le {α : Type} {l1 l2 : List α} (h : l1 <+: l2) :
    l1.length ≤ l2.length := by
  obtain ⟨t, rfl⟩ := h
  simp

theorem isFork_succ (n : Nat) : Event.isFork (Event.fork ((n : Int) + 1)) = true := by
  simp only [Event.isFork, decide_eq_true_eq]; omega

theorem isFork_succ2 (n : Nat) : Event.isFork (Event.fork ((n : Int) + 2)) = true := by
  simp only [Event.isFork, decide_eq_true_eq]; omega

theorem isFork_zero : Event.isFork (Event.fork 0) = false := by
  simp [Event.isFork]

/-- The flows of a pipeline of simple commands when every system call
succeeds. -/
theorem pipeline_flows (o : Oracle) (ho : ∀ w, o w = true)
    (cmds : List (List (List Char))) :
    cmds ≠ [] → (∀ a ∈ cmds, a ≠ []) → ∀ w : World,
      (w.fdGet 0).isSome = true → (w.fdGet 1).isSome = true →
      ∃ pipes : List PipeId,
        pipes.length = cmds.length - 1 ∧ pipes.Nodup ∧ (∀ p ∈ pipes, w.pid <+: p.1) ∧
        ((runcmd o (simpleTree cmds) w).filterMap execInfo).reverse
          = wiringOf (w.fdGet 0) (w.fdGet 1) cmds pipes ∧
        (runcmd o (simpleTree cmds) w).length = 2 * cmds.length - 1 ∧
        countEv Event.isPipe (runcmd o (simpleTree cmds) w)
          = w.log.countP Event.isPipe + (cmds.length - 1) ∧
        countEv Event.isFork (runcmd o (simpleTree cmds) w)
          = w.log.countP Event.isFork + 2 * (cmds.length - 1) ∧
        (w.log.countP Event.isWait = w.log.countP Event.isFork →
          ∀ f ∈ runcmd o (simpleTree cmds) w,
            f.world.log.countP Event.isWait = f.world.log.countP Event.isFork) := by
  induction cmds with
  | nil => intro h; exact absurd rfl h
  | cons a cmds ih =>
    intro _ hne w h0 h1
    have ha : a ≠ [] := hne a (by simp)
    cases cmds with
    | nil =>
      refine ⟨[], rfl, List.nodup_nil, by simp, ?_, ?_, ?_, ?_, ?_⟩
      · rw [simpleTree_single, runcmd_exec_ok o a w ha (ho w)]
        simp [execInfo_exec, wiringOf]
      · rw [simpleTree_single, runcmd_exec_ok o a w ha (ho w)]; rfl
      · rw [simpleTree_single, runcmd_exec_ok o a w ha (ho w)]
        simp [countEv, Flow.world, Event.isPipe]
      · rw [simpleTree_single, runcmd_exec_ok o a w ha (ho w)]
        simp [countEv, Flow.world, Event.isFork]
      · intro hq f hf
        rw [simpleTree_single, runcmd_exec_ok o a w ha (ho w)] at hf
        simp only [List.mem_singleton] at hf
        subst hf
        simp [Flow.world, Event.isWait, Event.isFork, hq]
    | cons b rest =>
      obtain ⟨p0, p1, l1, l2, l3, l4, r1, r2, r3, r4, q1, q2⟩ := pipe_worlds o ho w h0 h1
      obtain ⟨pipes, i1, i2, i3, i4, i5, i6, i7, i8⟩ :=
        ih (by simp) (fun x hx => hne x (by simp [hx])) (pipeRight o w)
          (by rw [r3]; rfl) (by rw [r4]; exact h1)
      have hrun := runcmd_pipe_forks o (Cmd.exec (argvOf a)) (simpleTree (b :: rest)) w
        (ho _) (ho _) (ho _)
      have hleft := runcmd_exec_ok o a (pipeLeft o w) ha (ho _)
      rw [simpleTree_cons, hrun, hleft]
      have cR : ∀ P : Event → Bool, (pipeRight o w).log.countP P
          = [Event.fork 0, Event.close p1, Event.dup2 p0 0 0].countP P := by
        intro P; rw [r2]
      have cL : ∀ P : Event → Bool, (pipeLeft o w).log.countP P
          = [Event.fork 0, Event.close p0, Event.dup2 p1 1 1].countP P := by
        intro P; rw [l2]
      refine ⟨(w.pid, w.log.length) :: pipes, ?_, ?_, ?_, ?_, ?_, ?_, ?_, ?_⟩
      · simp only [List.length_cons] at i1 ⊢
        omega
      · rw [List.nodup_cons]
        refine ⟨?_, i2⟩
        intro hin
        have := prefix_length_le (i3 _ hin)
        rw [r1] at this
        simp at this
      · intro p hp
        simp only [List.mem_cons] at hp
        rcases hp with rfl | hp
        · exact List.prefix_refl _
        · have := i3 p hp
          rw [r1] at this
          exact List.IsPrefix.trans (List.prefix_append _ _) this
      · simp only [List.filterMap_cons, execInfo_exited, List.filterMap_append,
          execInfo_exec, List.filterMap_nil, List.reverse_append, List.reverse_cons,
          List.reverse_nil, List.nil_append, List.singleton_append]
        rw [i4, l3, l4, r3, r4]
        rfl
      · simp only [List.length_cons, List.length_append, List.length_nil] at i5 ⊢
        omega
      · rw [countEv_cons, countEv_append, i6, cR]
        simp only [Flow.world, exited, q2, List.length_cons]
        simp [countEv, Flow.world, Event.isPipe, l2]
        omega
      · rw [countEv_cons, countEv_append, i7, cR]
        simp only [Flow.world, exited, q2, List.length_cons]
        simp only [List.countP_append, List.countP_cons, List.countP_nil, isFork_succ,
          isFork_succ2, isFork_zero, countEv, List.map_cons, List.map_nil, List.sum_cons,
          List.sum_nil, Flow.world, l2]
        simp [Event.isFork]
        omega
      · intro hq f hf
        simp only [List.mem_cons, List.mem_append, List.mem_singleton, List.not_mem_nil,
          or_false] at hf
        rcases hf with rfl | hf | rfl
        · simp only [Flow.world, exited, q2, List.countP_append, List.countP_cons,
            List.countP_nil, isFork_succ, isFork_succ2, hq]
          simp [Event.isWait, Event.isFork]
        · exact i8 (by rw [cR, cR]; rfl) f hf
        · simp [Flow.world, l2, Event.isWait, Event.isFork]

/-! ### Descriptors at the end of a process -/

set_option maxRecDepth 100000 in
/-- Claim C14: the descriptors created by the executor are not all closed.
The process of `cmd > out` reaches its `execvp` with descriptor 3, the one
returned by `open`, still bound to the file next to descriptor 1, although
the path on which `dup2` fails does close it before the exit; and in the
pipeline `a | b` the process of `a` reaches its `execvp` with descriptor 4,
the write end returned by `pipe`, still open next to descriptor 1, and the
process of `b` with descriptor 3, the read end, still open next to
descriptor 0, although their parent closes both ends before it waits. -/
theorem descriptors_left_open :
    (runline Oracle.always "cmd > out".toList World.init).map Flow.snapshot
      = [([], true, [(0, Obj.inherited 0), (1, Obj.file "out".toList 577),
          (2, Obj.inherited 2), (3, Obj.file "out".toList 577)])] ∧
    (runline Oracle.secondCallFails "cmd > out".toList World.init).map Flow.world
      = [⟨[], 0, [some (Obj.inherited 0), some (Obj.inherited 1), some (Obj.inherited 2),
            none],
          [Event.open "out".toList 577 777 3, Event.dup2 3 1 (-1), Event.close 3,
            Event.fprintf "failed to bind files\n", Event.exit (-1)]⟩] ∧
    (runline Oracle.always "a | b".toList World.init).map Flow.snapshot
      = [([], true, [(0, Obj.inherited 0), (1, Obj.inherited 1), (2, Obj.inherited 2)]),
         ([1], true, [(0, Obj.pipeRead [] 0), (1, Obj.inherited 1), (2, Obj.inherited 2),
            (3, Obj.pipeRead [] 0)]),
         ([0], true, [(0, Obj.inherited 0), (1, Obj.pipeWrite [] 0), (2, Obj.inherited 2),
            (4, Obj.pipeWrite [] 0)])] ∧
    (runline Oracle.always "a | b".toList World.init).map (fun f => f.world.log)
      = [[Event.pipe 0 3 4, Event.fork 1, Event.fork 2, Event.close 3, Event.close 4,
           Event.wait, Event.wait, Event.exit 0],
         [Event.fork 0, Event.close 4, Event.dup2 3 0 0,
           Event.execvp (some "b".toList) ["b".toList] true],
         [Event.fork 0, Event.close 3, Event.dup2 4 1 1,
           Event.execvp (some "a".toList) ["a".toList] true]] := by
  refine ⟨?_, ?_, ?_, ?_⟩ <;> decide

/-! ### Pipelines of simple commands -/

theorem isWord_nobar {w : List Char} (h : isWord w = true) : '|' ∉ w := by
  simp only [isWord, Bool.and_eq_true, List.all_eq_true] at h
  intro hin
  have := h.2 '|' hin
  revert this
  decide

theorem joinWords_nobar (ws : List (List Char)) (h : ∀ w ∈ ws, isWord w = true) :
    '|' ∉ joinWords ws := by
  induction ws with
  | nil => simp [joinWords]
  | cons w ws ih =>
    cases ws with
    | nil => simpa [joinWords] using isWord_nobar (h w (by simp))
    | cons w2 ws2 =>
      have ih := ih (fun x hx => h x (by simp at hx ⊢; exact Or.inr hx))
      rw [joinWords]
      · simp only [List.mem_append, List.mem_cons, not_or]
        exact ⟨isWord_nobar (h w (by simp)), by decide, ih⟩
      · simp

/-- The parse of a pipeline of simple commands. -/
theorem parsecmd_simple_pipeline (cmds : List (List (List Char))) (hne : cmds ≠ [])
    (hcmd : ∀ a ∈ cmds, a.length ≤ 9 ∧ ∀ w ∈ a, isWord w = true) :
    parsecmd (joinPipes (cmds.map joinWords)) = PResult.ok (simpleTree cmds) := by
  have h := parsecmd_joinPipes (cmds.map joinWords) (by simpa using hne)
    (by
      intro x hx
      simp only [List.mem_map] at hx
      obtain ⟨a, ha, rfl⟩ := hx
      exact ⟨joinWords_nonul a (hcmd a ha).2, joinWords_nobar a (hcmd a ha).2⟩)
    (by
      intro x hx
      simp only [List.mem_map] at hx
      obtain ⟨a, ha, rfl⟩ := hx
      rw [parsecmd_words a (hcmd a ha).1 (hcmd a ha).2]
      rfl)
  rw [h, simpleTree, List.map_map]
  congr 2
  apply List.map_congr_left
  intro a ha
  simp only [Function.comp, parsecmd_words a (hcmd a ha).1 (hcmd a ha).2, treeOf]

set_option maxRecDepth 100000 in
/-- Claim C12, as stated, fails on the code: for the pipeline `a | b | c` of
N = 3 commands, with every system call succeeding, executing the parsed tree
creates 2 pipes but 4 processes, not 3, and the run has 5 processes in all:
the one that runs the tree, the two children of the outer pipe node and the
two children of the inner pipe node, forked by the second child. -/
theorem pipeline_forks_counterexample :
    parsecmd "a | b | c".toList
      = PResult.ok (simpleTree [["a".toList], ["b".toList], ["c".toList]]) ∧
    countEv Event.isPipe
      (runcmd Oracle.always (simpleTree [["a".toList], ["b".toList], ["c".toList]])
        World.init) = 2 ∧
    countEv Event.isFork
      (runcmd Oracle.always (simpleTree [["a".toList], ["b".toList], ["c".toList]])
        World.init) = 4 ∧
    countEv Event.isFork
      (runcmd Oracle.always (simpleTree [["a".toList], ["b".toList], ["c".toList]])
        World.init) ≠ [["a".toList], ["b".toList], ["c".toList]].length ∧
    (runcmd Oracle.always (simpleTree [["a".toList], ["b".toList], ["c".toList]])
        World.init).map (fun f => (f.world.pid, f.world.log.getLast?))
      = [([], some (Event.exit 0)),
         ([1], some (Event.exit 0)),
         ([1, 1], some (Event.execvp (some "c".toList) ["c".toList] true)),
         ([1, 0], some (Event.execvp (some "b".toList) ["b".toList] true)),
         ([0], some (Event.execvp (some "a".toList) ["a".toList] true))] := by
  refine ⟨?_, ?_, ?_, ?_, ?_⟩ <;> decide

/-- Claim C12, amended: for every pipeline of N >= 1 simple commands
`a1 | a2 | ... | aN`, each of one to nine words, executing the parsed tree
with every system call succeeding and descriptors 0 and 1 in use creates
exactly N-1 pipes and exactly 2(N-1) processes, so that the run has 2N-1
processes, of which exactly N replace their image, one for each command and
in the order of the commands read from the last flow to the first: the i-th
command runs with its standard output bound to the write end of pipe i
(except the last, which keeps the standard output of the start) and its
standard input bound to the read end of pipe i-1 (except the first, which
keeps the standard input of the start), the N-1 pipes being distinct; and in
every process the number of calls of `wait` is the number of processes it
forked, if that holds at the start. -/
theorem pipeline_processes (cmds : List (List (List Char))) (hne : cmds ≠ [])
    (hcmd : ∀ a ∈ cmds, a ≠ [] ∧ a.length ≤ 9 ∧ ∀ w ∈ a, isWord w = true)
    (o : Oracle) (ho : ∀ w, o w = true) (w : World)
    (h0 : (w.fdGet 0).isSome = true) (h1 : (w.fdGet 1).isSome = true) :
    parsecmd (joinPipes (cmds.map joinWords)) = PResult.ok (simpleTree cmds) ∧
    ∃ pipes : List PipeId,
      pipes.length = cmds.length - 1 ∧ pipes.Nodup ∧ (∀ p ∈ pipes, w.pid <+: p.1) ∧
      ((runcmd o (simpleTree cmds) w).filterMap execInfo).reverse
        = wiringOf (w.fdGet 0) (w.fdGet 1) cmds pipes ∧
      (runcmd o (simpleTree cmds) w).length = 2 * cmds.length - 1 ∧
      countEv Event.isPipe (runcmd o (simpleTree cmds) w)
        = w.log.countP Event.isPipe + (cmds.length - 1) ∧
      countEv Event.isFork (runcmd o (simpleTree cmds) w)
        = w.log.countP Event.isFork + 2 * (cmds.length - 1) ∧
      (w.log.countP Event.isWait = w.log.countP Event.isFork →
        ∀ f ∈ runcmd o (simpleTree cmds) w,
          f.world.log.countP Event.isWait = f.world.log.countP Event.isFork) :=
  ⟨parsecmd_simple_pipeline cmds hne (fun a ha => (hcmd a ha).2),
    pipeline_flows o ho cmds hne (fun a ha => (hcmd a ha).1) w h0 h1⟩

theorem pipeline_processes_witness :
    parsecmd (joinPipes ([["ls".toList, "-l".toList], ["wc".toList]].map joinWords)) = PResult.ok (simpleTree [["ls".toList, "-l".toList], ["wc".toList]]) ∧
    ∃ pipes : List PipeId,
      pipes.length = [["ls".toList, "-l".toList], ["wc".toList]].length - 1 ∧ pipes.Nodup ∧ (∀ p ∈ pipes, World.init.pid <+: p.1) ∧
      ((runcmd Oracle.always (simpleTree [["ls".toList, "-l".toList], ["wc".toList]]) World.init).filterMap execInfo).reverse
        = wiringOf (World.init.fdGet 0) (World.init.fdGet 1) [["ls".toList, "-l".toList], ["wc".toList]] pipes ∧
      (runcmd Oracle.always (simpleTree [["ls".toList, "-l".toList], ["wc".toList]]) World.init).length = 2 * [["ls".toList, "-l".toList], ["wc".toList]].length - 1 ∧
      countEv Event.isPipe (runcmd Oracle.always (simpleTree [["ls".toList, "-l".toList], ["wc".toList]]) World.init)
        = World.init.log.countP Event.isPipe + ([["ls".toList, "-l".toList], ["wc".toList]].length - 1) ∧
      countEv Event.isFork (runcmd Oracle.always (simpleTree [["ls".toList, "-l".toList], ["wc".toList]]) World.init)
        = World.init.log.countP Event.isFork + 2 * ([["ls".toList, "-l".toList], ["wc".toList]].length - 1) ∧
      (World.init.log.countP Event.isWait = World.init.log.countP Event.isFork →
        ∀ f ∈ runcmd Oracle.always (simpleTree [["ls".toList, "-l".toList], ["wc".toList]]) World.init,
          f.world.log.countP Event.isWait = f.world.log.countP Event.isFork) :=
  pipeline_processes [["ls".toList, "-l".toList], ["wc".toList]] (by decide) (by decide)
    Oracle.always (fun _ => rfl) World.init (by decide) (by decide)

/-! ### The exit code of the process of a line -/

theorem sysOpen_facts (o : Oracle) (file : List Char) (mode perm : Nat) (w : World) :
    (sysOpen o file mode perm w).2.pid = w.pid ∧
    (sysOpen o file mode perm w).2.log
      = w.log ++ [Event.open file mode perm (sysOpen o file mode perm w).1] := by
  unfold sysOpen
  split <;> exact ⟨rfl, rfl⟩

theorem sysDup2_facts (o : Oracle) (oldfd newfd : Int) (w : World) :
    (sysDup2 o oldfd newfd w).2.pid = w.pid ∧
    (sysDup2 o oldfd newfd w).2.log
      = w.log ++ [Event.dup2 oldfd newfd (sysDup2 o oldfd newfd w).1] := by
  unfold sysDup2
  split <;> exact ⟨rfl, rfl⟩

/-- The two ways in which `handle_redirection` ends: the process exits with
code -1, or the call returns after an `open` and a `dup2`. -/
theorem handle_redirection_cases (o : Oracle) (file : List Char) (mode fd : Nat) (w : World) :
    (∃ w1 new, handle_redirection o file mode fd w = [Flow.halt w1] ∧ w1.pid = w.pid ∧
      w1.log = w.log ++ new ∧ new.getLast? = some (Event.exit (-1)) ∧
      ∀ f a b, Event.execvp f a b ∉ new) ∨
    (∃ w1 new, handle_redirection o file mode fd w = [Flow.ret () w1] ∧ w1.pid = w.pid ∧
      w1.log = w.log ++ new ∧ ∀ f a b, Event.execvp f a b ∉ new) := by
  obtain ⟨a1, a2⟩ := sysOpen_facts o file mode 777 w
  obtain ⟨b1, b2⟩ := sysDup2_facts o (sysOpen o file mode 777 w).1 fd (sysOpen o file mode 777 w).2
  unfold handle_redirection
  simp only []
  split
  · left
    refine ⟨_, [Event.open file mode 777 (sysOpen o file mode 777 w).1,
      Event.fprintf ("could not open file  " ++ String.mk file ++ "\n"), Event.exit (-1)],
      rfl, ?_, ?_, rfl, ?_⟩
    · simp [fprintf, a1]
    · simp [fprintf, a2]
    · intro f a b hin; simp at hin
  · split
    · left
      refine ⟨_, [Event.open file mode 777 (sysOpen o file mode 777 w).1,
        Event.dup2 (sysOpen o file mode 777 w).1 fd
          (sysDup2 o (sysOpen o file mode 777 w).1 fd (sysOpen o file mode 777 w).2).1,
        Event.close (sysOpen o file mode 777 w).1,
        Event.fprintf "failed to bind files\n", Event.exit (-1)],
        rfl, ?_, ?_, rfl, ?_⟩
      · simp [fprintf, sysClose, a1, b1]
      · simp [fprintf, sysClose, a2, b2]
      · intro f a b hin; simp at hin
    · right
      refine ⟨_, [Event.open file mode 777 (sysOpen o file mode 777 w).1,
        Event.dup2 (sysOpen o file mode 777 w).1 fd
          (sysDup2 o (sysOpen o file mode 777 w).1 fd (sysOpen o file mode 777 w).2).1],
        rfl, ?_, ?_, ?_⟩
      · rw [b1, a1]
      · rw [b2, a2]; simp
      · intro f a b hin; simp at hin

/-- A tree without a pipe node is run by one process, which ends by replacing
its image or by `exit(0)` or `exit(-1)`, and by `exit(-1)` when an `execvp`
failed. -/
theorem runcmd_nopipe (o : Oracle) (c : Cmd) :
    c.hasPipe = false → ∀ w : World, ∃ w1 new, runcmd o c w = [Flow.halt w1] ∧
      w1.pid = w.pid ∧ w1.log = w.log ++ new ∧
      (new.getLast? = some (Event.exit 0) ∨ new.getLast? = some (Event.exit (-1)) ∨
        ∃ file argv, new.getLast? = some (Event.execvp file argv true)) ∧
      (∀ file argv, Event.execvp file argv false ∈ new →
        new.getLast? = some (Event.exit (-1))) := by
  induction c with
  | null =>
    intro _ w
    refine ⟨_, [Event.exit 0], runcmd_null o w, rfl, rfl, Or.inl rfl, ?_⟩
    intro f a hin; simp at hin
  | exec argv =>
    intro _ w
    rw [runcmd]
    split
    · refine ⟨_, [Event.exit 0], rfl, rfl, rfl, Or.inl rfl, ?_⟩
      intro f a hin; simp at hin
    · unfold handle_simple_cmd sysExecvp
      split
      · rename_i w1 heq
        split at heq
        · simp only [Flow.halt.injEq] at heq
          subst heq
          refine ⟨_, [Event.execvp (argv.getD 0 none) (argvList argv) true], rfl, rfl, rfl,
            Or.inr (Or.inr ⟨_, _, rfl⟩), ?_⟩
          intro f a hin; simp at hin
        · cases heq
      · rename_i x w1 heq
        split at heq
        · cases heq
        · simp only [Flow.ret.injEq] at heq
          obtain ⟨_, rfl⟩ := heq
          refine ⟨_, [Event.execvp (argv.getD 0 none) (argvList argv) false,
            Event.fprintf ("Error executing " ++ String.mk ((argv.getD 0 none).getD []) ++ "\n"),
            Event.exit (-1)], rfl, rfl, ?_, Or.inr (Or.inl rfl), fun _ _ _ => rfl⟩
          simp [fprintf]
  | redir t c file mode fd ih =>
    intro hp w
    have hp2 : c.hasPipe = false := by simpa [Cmd.hasPipe] using hp
    rw [runcmd]
    split
    · rcases handle_redirection_cases o file mode fd w with
        ⟨w1, new, e1, e2, e3, e4, e5⟩ | ⟨w1, new, e1, e2, e3, e5⟩
      · rw [e1]
        refine ⟨w1, new, rfl, e2, e3, Or.inr (Or.inl e4), fun _ _ _ => e4⟩
      · rw [e1]
        obtain ⟨w2, new2, g1, g2, g3, g4, g5⟩ := ih hp2 w1
        refine ⟨w2, new ++ new2, ?_, ?_, ?_, ?_, ?_⟩
        · simp [andThen, g1]
        · rw [g2, e2]
        · rw [g3, e3, List.append_assoc]
        · have hne : new2 ≠ [] := by
            intro h; subst h
            rcases g4 with h | h | ⟨_, _, h⟩ <;> simp at h
          rw [List.getLast?_append_of_ne_nil _ hne]
          exact g4
        · intro f a hin
          have hne : new2 ≠ [] := by
            intro h; subst h
            rcases g4 with h | h | ⟨_, _, h⟩ <;> simp at h
          rw [List.getLast?_append_of_ne_nil _ hne]
          rcases List.mem_append.1 hin with h | h
          · exact absurd h (e5 f a false)
          · exact g5 f a h
    · refine ⟨_, [Event.fprintf "Unknown command type\n", Event.exit (-1)], rfl, rfl, ?_,
        Or.inr (Or.inl rfl), fun _ _ _ => rfl⟩
      simp [fprintf]
  | pipe l r _ _ =>
    intro hp
    simp [Cmd.hasPipe] at hp

theorem sysPipe_pid (o : Oracle) (w : World) : (sysPipe o w).2.2.pid = w.pid := by
  unfold sysPipe
  split <;> rfl

theorem pipeLeft_pid (o : Oracle) (w : World) : (pipeLeft o w).pid = w.pid ++ [w.nforks] := by
  unfold pipeLeft
  rw [(sysDup2_facts _ _ _ _).1]
  show (sysPipe o w).2.2.pid ++ [(sysPipe o w).2.2.nforks] = _
  rw [sysPipe_pid]
  unfold sysPipe
  split <;> rfl

theorem pipeRight_pid (o : Oracle) (w : World) :
    (pipeRight o w).pid = w.pid ++ [w.nforks + 1] := by
  unfold pipeRight
  rw [(sysDup2_facts _ _ _ _).1]
  show (sysPipe o w).2.2.pid ++ [(sysPipe o w).2.2.nforks + 1] = _
  rw [sysPipe_pid]
  unfold sysPipe
  split <;> rfl

theorem pipeParent_pid (o : Oracle) (w : World) : (pipeParent o w).pid = w.pid := by
  show (sysPipe o w).2.2.pid = _
  exact sysPipe_pid o w

/-- The processes that descend from the process `base` by one or more
`fork` calls stay such descendants. -/
theorem closed_descendant (o : Oracle) (base : List Nat) :
    Closed o (fun w => ∃ t, t ≠ [] ∧ w.pid = base ++ t)
      (fun w => ∃ t, t ≠ [] ∧ w.pid = base ++ t) where
  openR := by
    intro file mode w h
    rw [(sysOpen_facts o file mode 777 w).1]; exact h
  dup2R := by
    intro a b w h
    rw [(sysDup2_facts o a b w).1]; exact h
  closeR := fun _ _ h => h
  pipeR := by
    intro w h
    rw [sysPipe_pid]; exact h
  forkR := by
    intro w h
    obtain ⟨t, ht, hp⟩ := h
    constructor
    · intro a w1 hin
      unfold sysFork at hin
      split at hin
      · simp only [List.mem_cons, Flow.ret.injEq, List.mem_singleton, List.not_mem_nil,
          or_false] at hin
        rcases hin with ⟨_, rfl⟩ | ⟨_, rfl⟩
        · exact ⟨t, ht, hp⟩
        · exact ⟨t ++ [w.nforks], by simp, by simp [hp]⟩
      · simp only [List.mem_singleton, Flow.ret.injEq] at hin
        obtain ⟨_, rfl⟩ := hin
        exact ⟨t, ht, hp⟩
    · intro w1 hin
      unfold sysFork at hin
      split at hin <;> simp at hin
  waitR := fun _ h => h
  printR := fun _ _ h => h
  execR := by
    intro file argv w h
    unfold sysExecvp
    split
    · exact Inv.halt h
    · exact Inv.ret h
  exitH := fun _ _ h => h

theorem runcmd_descendant (o : Oracle) (c : Cmd) (base t : List Nat) (w : World)
    (ht : t ≠ []) (hw : w.pid = base ++ t) :
    ∀ f ∈ runcmd o c w, f.world.pid ≠ base := by
  intro f hf
  have hinv := runcmd_inv (closed_descendant o base) c w ⟨t, ht, hw⟩
  have : ∃ t, t ≠ [] ∧ f.world.pid = base ++ t := by
    cases f with
    | ret a w1 => exact hinv.1 a w1 hf
    | halt w1 => exact hinv.2 w1 hf
  obtain ⟨t2, ht2, hp⟩ := this
  rw [hp]
  intro h
  have := congrArg List.length h
  simp only [List.length_append] at this
  have : t2.length = 0 := by omega
  exact ht2 (List.length_eq_zero.1 this)

/-- The process that runs a pipe node, when its own calls succeed. -/
theorem runcmd_pipe_parent (o : Oracle) (l r : Cmd) (w : World)
    (hpar : ∀ w1 : World, w1.pid = w.pid → o w1 = true) :
    ∃ rest, runcmd o (Cmd.pipe l r) w = Flow.halt (exited 0 (pipeParent o w)) :: rest ∧
      (exited 0 (pipeParent o w)).pid = w.pid ∧
      (exited 0 (pipeParent o w)).log.getLast? = some (Event.exit 0) ∧
      ∀ f ∈ rest, f.world.pid ≠ w.pid := by
  refine ⟨_, runcmd_pipe_forks o l r w (hpar _ rfl) (hpar _ (sysPipe_pid o w))
    (hpar _ (sysPipe_pid o w)), pipeParent_pid o w, ?_, ?_⟩
  · simp [exited]
  · intro f hf
    rcases List.mem_append.1 hf with h | h
    · exact runcmd_descendant o r w.pid [w.nforks + 1] _ (by simp) (pipeRight_pid o w) f h
    · exact runcmd_descendant o l w.pid [w.nforks] _ (by simp) (pipeLeft_pid o w) f h

set_option maxRecDepth 100000 in
/-- Claim C13, as stated, fails on the code: in the line `a | b`, when the
`execvp` of each stage fails, each stage writes its message and exits with
code -1, but the process that parses and executes the line, which has called
`wait` twice without looking at the statuses, exits with code 0. -/
theorem pipeline_exec_failure_counterexample :
    parsecmd "a | b".toList
      = PResult.ok (Cmd.pipe (Cmd.exec (argvOf ["a".toList])) (Cmd.exec (argvOf ["b".toList]))) ∧
    (runline Oracle.stageExecFails "a | b".toList World.init).map
        (fun f => (f.world.pid, f.world.log))
      = [([], [Event.pipe 0 3 4, Event.fork 1, Event.fork 2, Event.close 3, Event.close 4,
            Event.wait, Event.wait, Event.exit 0]),
         ([1], [Event.fork 0, Event.close 4, Event.dup2 3 0 0,
            Event.execvp (some "b".toList) ["b".toList] false,
            Event.fprintf "Error executing b\n", Event.exit (-1)]),
         ([0], [Event.fork 0, Event.close 3, Event.dup2 4 1 1,
            Event.execvp (some "a".toList) ["a".toList] false,
            Event.fprintf "Error executing a\n", Event.exit (-1)])] := by
  refine ⟨?_, ?_⟩ <;> decide

/-- Claim C13, amended: for every input line, the process that parses and
executes that line (the child forked by the driver, running
`runcmd(parsecmd(line))`) ends as follows.  When parsing fails it writes the
message of the parser and exits with code -1.  When the line has no pipe, it
is the only process of the line and it ends by replacing its image, by
`exit(0)` or by `exit(-1)`, and by `exit(-1)` whenever its `execvp` fails.
When the line is a pipeline and the `pipe` and the two `fork` calls of this
process succeed, it waits twice, discards the statuses and exits with code 0,
whatever happens in the stages, which are run by other processes: an exec
failure in a stage of a pipeline does not change the exit code of the process
of the line. -/
theorem line_process_exit_code (o : Oracle) (buf : List Char) (w : World) :
    (∀ e, parsecmd buf = PResult.fail e →
      runline o buf w
        = [Flow.halt { w with log := w.log ++ [Event.fprintf e.msg, Event.exit (-1)] }]) ∧
    (∀ c, parsecmd buf = PResult.ok c → c.hasPipe = false →
      ∃ w1 new, runline o buf w = [Flow.halt w1] ∧ w1.pid = w.pid ∧ w1.log = w.log ++ new ∧
        (new.getLast? = some (Event.exit 0) ∨ new.getLast? = some (Event.exit (-1)) ∨
          ∃ file argv, new.getLast? = some (Event.execvp file argv true)) ∧
        (∀ file argv, Event.execvp file argv false ∈ new →
          new.getLast? = some (Event.exit (-1)))) ∧
    (∀ l r, parsecmd buf = PResult.ok (Cmd.pipe l r) →
      (∀ w1 : World, w1.pid = w.pid → o w1 = true) →
      ∃ rest, runline o buf w = Flow.halt (exited 0 (pipeParent o w)) :: rest ∧
        (exited 0 (pipeParent o w)).pid = w.pid ∧
        (exited 0 (pipeParent o w)).log.getLast? = some (Event.exit 0) ∧
        ∀ f ∈ rest, f.world.pid ≠ w.pid) := by
  refine ⟨?_, ?_, ?_⟩
  · intro e he
    simp [runline, he, sysExit, fprintf]
  · intro c hc hp
    simp only [runline, hc]
    exact runcmd_nopipe o c hp w
  · intro l r hc hpar
    simp only [runline, hc]
    exact runcmd_pipe_parent o l r w hpar

/-! ### A failure of `fork` -/

theorem runline_allHalt (o : Oracle) (buf : List Char) (w : World) :
    AllHalt (runline o buf w) := by
  unfold runline
  split
  · exact runcmd_allHalt o _ w
  · exact sysExit_allHalt _ _
  · intro f hf; cases hf

/-- The driver loop on a line that is not the end of the input and not a
`cd`, when its `fork` fails: the shell exits. -/
theorem main_fork_fail (o : Oracle) (tty : Bool) (buf : List Char)
    (input : List (List Char)) (w : World) (h0 : deref buf 0 ≠ NUL)
    (hcd : ¬ (deref buf 0 = 'c' ∧ deref buf 1 = 'd' ∧ deref buf 2 = ' '))
    (ho : o (getcmdPrompt tty w) = false) :
    main o tty (buf :: input) w
      = [Flow.halt (exited (-1) (fprintf "Fork function not implemented\n"
          { getcmdPrompt tty w with
            log := (getcmdPrompt tty w).log ++ [Event.fork (-1)] }))] := by
  rw [main]
  simp only [if_neg h0, if_neg hcd]
  rw [fork1_fail o _ ho]
  rfl

/-- The driver loop on a line that is not the end of the input and not a
`cd`, when its `fork` succeeds: the child runs the line and the shell waits
and goes on with the rest of the input. -/
theorem main_fork_ok (o : Oracle) (tty : Bool) (buf : List Char)
    (input : List (List Char)) (w : World) (h0 : deref buf 0 ≠ NUL)
    (hcd : ¬ (deref buf 0 = 'c' ∧ deref buf 1 = 'd' ∧ deref buf 2 = ' '))
    (ho : o (getcmdPrompt tty w) = true) :
    main o tty (buf :: input) w
      = main o tty input (sysWait (parentOf (getcmdPrompt tty w)))
          ++ runline o buf (childOf (getcmdPrompt tty w)) := by
  rw [main]
  simp only [if_neg h0, if_neg hcd]
  rw [fork1_ok o _ ho]
  have h1 : ((getcmdPrompt tty w).nforks : Int) + 1 ≠ 0 := by omega
  simp only [andThen, if_neg h1, if_true, List.append_nil]
  rw [andThen_allHalt _ _ (runline_allHalt o buf _)]

set_option maxRecDepth 100000 in
/-- Claim C15, as stated, fails on the code: on the input `a | b` followed by
`ls`, when the first `fork` of `handle_pipe` fails in the process of the first
line, that process reports the error and exits with code -1, but the shell
does not terminate: it returns from its `wait`, forks a child that runs `ls`,
waits for it and, at the end of the input, exits with code 0. -/
theorem fork_failure_in_pipe_counterexample :
    (main Oracle.pipeForkFails false ["a | b\n".toList, "ls\n".toList] World.init).map
        (fun f => (f.world.pid, f.world.log))
      = [([], [Event.fork 1, Event.wait, Event.fork 2, Event.wait, Event.exit 0]),
         ([1], [Event.fork 0, Event.execvp (some "ls".toList) ["ls".toList] true]),
         ([0], [Event.fork 0, Event.pipe 0 3 4, Event.fork (-1),
            Event.fprintf "Fork function not implemented\n", Event.exit (-1)])] := by
  decide

/-- Claim C15, amended: a fork failure inside `fork1` is fatal to the process
that attempted the fork, which reports the error and exits with code -1.
When the fork is attempted by the driver loop (on a line that is neither the
end of the input nor a `cd`), that process is the shell and the entire shell
program terminates with that code, the rest of the input being left unread.
When it is attempted by `handle_pipe` while executing a Pipe node, only the
process that runs this node exits, after the first fork with no other process
and after the second with the first child going on with the left command; and
the shell, whenever its own fork succeeds, waits for the process of the line
and goes on with the rest of the input, whatever happens in that process. -/
theorem fork_failure_exits_caller (o : Oracle) (tty : Bool) (buf : List Char)
    (input : List (List Char)) (w : World) (l r : Cmd) (w1 : World)
    (h0 : deref buf 0 ≠ NUL)
    (hcd : ¬ (deref buf 0 = 'c' ∧ deref buf 1 = 'd' ∧ deref buf 2 = ' ')) :
    (o (getcmdPrompt tty w) = false →
      main o tty (buf :: input) w
        = [Flow.halt (exited (-1) (fprintf "Fork function not implemented\n"
            { getcmdPrompt tty w with
              log := (getcmdPrompt tty w).log ++ [Event.fork (-1)] }))]) ∧
    (o (getcmdPrompt tty w) = true →
      main o tty (buf :: input) w
        = main o tty input (sysWait (parentOf (getcmdPrompt tty w)))
            ++ runline o buf (childOf (getcmdPrompt tty w))) ∧
    (o w1 = true → o (sysPipe o w1).2.2 = false →
      runcmd o (Cmd.pipe l r) w1
        = [Flow.halt (exited (-1) (fprintf "Fork function not implemented\n"
            { (sysPipe o w1).2.2 with
              log := (sysPipe o w1).2.2.log ++ [Event.fork (-1)] }))]) ∧
    (o w1 = true → o (sysPipe o w1).2.2 = true → o (parentOf (sysPipe o w1).2.2) = false →
      runcmd o (Cmd.pipe l r) w1
        = Flow.halt (exited (-1) (fprintf "Fork function not implemented\n"
            { parentOf (sysPipe o w1).2.2 with
              log := (parentOf (sysPipe o w1).2.2).log ++ [Event.fork (-1)] }))
          :: runcmd o l (pipeLeft o w1)) :=
  ⟨main_fork_fail o tty buf input w h0 hcd, main_fork_ok o tty buf input w h0 hcd,
    runcmd_pipe_nofork o l r w1, runcmd_pipe_nofork2 o l r w1⟩

theorem fork_failure_exits_caller_witness :
    (Oracle.pipeForkFails (getcmdPrompt false World.init) = false →
      main Oracle.pipeForkFails false ["a | b\n".toList, "ls\n".toList] World.init
        = [Flow.halt (exited (-1) (fprintf "Fork function not implemented\n"
            { getcmdPrompt false World.init with
              log := (getcmdPrompt false World.init).log ++ [Event.fork (-1)] }))]) ∧
    (Oracle.pipeForkFails (getcmdPrompt false World.init) = true →
      main Oracle.pipeForkFails false ["a | b\n".toList, "ls\n".toList] World.init
        = main Oracle.pipeForkFails false ["ls\n".toList] (sysWait (parentOf (getcmdPrompt false World.init)))
            ++ runline Oracle.pipeForkFails "a | b\n".toList (childOf (getcmdPrompt false World.init))) ∧
    (Oracle.pipeForkFails (childOf World.init) = true → Oracle.pipeForkFails (sysPipe Oracle.pipeForkFails (childOf World.init)).2.2 = false →
      runcmd Oracle.pipeForkFails (Cmd.pipe (Cmd.exec (argvOf ["a".toList])) (Cmd.exec (argvOf ["b".toList]))) (childOf World.init)
        = [Flow.halt (exited (-1) (fprintf "Fork function not implemented\n"
            { (sysPipe Oracle.pipeForkFails (childOf World.init)).2.2 with
              log := (sysPipe Oracle.pipeForkFails (childOf World.init)).2.2.log ++ [Event.fork (-1)] }))]) ∧
    (Oracle.pipeForkFails (childOf World.init) = true → Oracle.pipeForkFails (sysPipe Oracle.pipeForkFails (childOf World.init)).2.2 = true → Oracle.pipeForkFails (parentOf (sysPipe Oracle.pipeForkFails (childOf World.init)).2.2) = false →
      runcmd Oracle.pipeForkFails (Cmd.pipe (Cmd.exec (argvOf ["a".toList])) (Cmd.exec (argvOf ["b".toList]))) (childOf World.init)
        = Flow.halt (exited (-1) (fprintf "Fork function not implemented\n"
            { parentOf (sysPipe Oracle.pipeForkFails (childOf World.init)).2.2 with
              log := (parentOf (sysPipe Oracle.pipeForkFails (childOf World.init)).2.2).log ++ [Event.fork (-1)] }))
          :: runcmd Oracle.pipeForkFails (Cmd.exec (argvOf ["a".toList])) (pipeLeft Oracle.pipeForkFails (childOf World.init))) :=
  fork_failure_exits_caller Oracle.pipeForkFails false "a | b\n".toList ["ls\n".toList]
    World.init (Cmd.exec (argvOf ["a".toList])) (Cmd.exec (argvOf ["b".toList]))
    (childOf World.init) (by decide) (by decide)

end Sh
